import Mathlib

/-!
# LocustDB storage/execution core: verification of spec claims

Shallow embedding of the merge/dedup/aggregate primitives
(`src/engine/batch_merging.rs`, `src/engine/operators/merge.rs`,
`src/engine/operators/merge_deduplicate.rs`,
`src/engine/operators/hashmap_grouping.rs`), the ingestion buffer
(`src/ingest/buffer.rs`), the packed string arenas (`src/stringpack.rs`)
and the subpartitioning policy (`src/scheduler/inner_locustdb.rs`),
together with proofs and refutations of the specification claims.

Machine integers are modelled as `Nat`/`Int`; `u64` packing arithmetic is
taken modulo `2 ^ 64` where it matters.  Fallible or panicking paths are
modelled with `Option`.
-/

namespace LocustDB

/-- `MergeOp` from `batch_merging.rs`: alphabet recording the choice at each
position of a deduplicating sorted merge. -/
inductive MergeOp : Type where
  | takeLeft : MergeOp
  | takeRight : MergeOp
  | mergeRight : MergeOp
deriving DecidableEq, Repr

/-- Loop of `merge_deduplicate` (`batch_merging.rs:221-258`).  `last` mirrors
`result.last()`: the most recently pushed output element (`none` iff no output
yet).  The three match arms mirror, in order: the main `while` loop over both
inputs, the left tail (pushes all remaining left elements as `TakeLeft`), and
the right tail (a single `MergeRight` check against `result.last()` followed by
unconditional `TakeRight` pushes). -/
def mergeDedupGo {α : Type} [DecidableEq α] (le : α → α → Bool) :
    Option α → List α → List α → List α × List MergeOp
  | last, x :: a, y :: b =>
    if last = some y then
      let r := mergeDedupGo le last (x :: a) b
      (r.1, .mergeRight :: r.2)
    else if le x y then
      let r := mergeDedupGo le (some x) a (y :: b)
      (x :: r.1, .takeLeft :: r.2)
    else
      let r := mergeDedupGo le (some y) (x :: a) b
      (y :: r.1, .takeRight :: r.2)
  | _, a, [] => (a, a.map fun _ => .takeLeft)
  | last, [], y :: b =>
    if last = some y then (b, .mergeRight :: b.map fun _ => .takeRight)
    else (y :: b, .takeRight :: b.map fun _ => .takeRight)
termination_by _ a b => a.length + b.length

/-- `merge_deduplicate(left, right)` from `batch_merging.rs:221` (the operator
variant in `operators/merge_deduplicate.rs:38` is identical with
`C::cmp_eq` in place of `<=`). -/
def merge_deduplicate {α : Type} [DecidableEq α] (le : α → α → Bool)
    (left right : List α) : List α × List MergeOp :=
  mergeDedupGo le none left right

/-- Replaying an ops stream: `TakeLeft` consumes the next element of `a` and
emits it, `TakeRight` consumes the next element of `b` and emits it,
`MergeRight` consumes the next element of `b` and emits nothing.  Returns
`none` unless the ops stream consumes exactly all of `a` and all of `b`. -/
def replayOps {α : Type} : List MergeOp → List α → List α → Option (List α)
  | [], [], [] => some []
  | .takeLeft :: ops, x :: a, b => (replayOps ops a b).map (x :: ·)
  | .takeRight :: ops, a, y :: b => (replayOps ops a b).map (y :: ·)
  | .mergeRight :: ops, a, _ :: b => replayOps ops a b
  | _, _, _ => none

/-- Checker for the claim "output is sorted and strictly increasing except at
positions where a `MergeOp::MergeRight` appears": walking the ops stream, each
consumed value must be strictly greater than the previously consumed value,
except that a `MergeRight` consumes a value equal to the previous one.
`prev` is the last value consumed so far. -/
def strictExceptMergeRight {α : Type} [DecidableEq α] (lt : α → α → Bool) :
    Option α → List MergeOp → List α → List α → Bool
  | _, [], [], [] => true
  | prev, .takeLeft :: ops, x :: a, b =>
    (match prev with | none => true | some p => lt p x) &&
      strictExceptMergeRight lt (some x) ops a b
  | prev, .takeRight :: ops, a, y :: b =>
    (match prev with | none => true | some p => lt p y) &&
      strictExceptMergeRight lt (some y) ops a b
  | prev, .mergeRight :: ops, a, y :: b =>
    (prev = some y) && strictExceptMergeRight lt prev ops a b
  | _, _, _, _ => false

/-- Boolean `≤` on `Int`, the `<=` used by `merge_deduplicate` for `i64`. -/
def intLe (p q : Int) : Bool := decide (p ≤ q)

/-- Boolean `<` on `Int`. -/
def intLt (p q : Int) : Bool := decide (p < q)

/-- `ltOpt last x`: `x` is strictly above the last emitted value (if any). -/
def ltOpt : Option Int → Int → Prop
  | none, _ => True
  | some l, x => l < x

/-- `leOpt last y`: `y` is at or above the last emitted value (if any). -/
def leOpt : Option Int → Int → Prop
  | none, _ => True
  | some l, x => l ≤ x

theorem replayOps_left_tail {α : Type} (a : List α) :
    replayOps (List.replicate a.length MergeOp.takeLeft) a [] = some a := by
  induction a with
  | nil => rfl
  | cons x a ih => simp [replayOps, ih]

theorem replayOps_right_tail {α : Type} (b : List α) :
    replayOps (List.replicate b.length MergeOp.takeRight) [] b = some b := by
  induction b with
  | nil => rfl
  | cons y b ih => simp [replayOps, ih]

theorem mergeDedupGo_ops_length {α : Type} [DecidableEq α] (le : α → α → Bool)
    (last : Option α) (a b : List α) :
    (mergeDedupGo le last a b).2.length = a.length + b.length := by
  induction last, a, b using mergeDedupGo.induct le with
  | case1 x a y b ih =>
    simp only [mergeDedupGo, if_pos rfl]
    simp at ih ⊢
    omega
  | case2 last x a y b hne hle ih =>
    simp only [mergeDedupGo, if_neg hne, if_pos hle]
    simp at ih ⊢
    omega
  | case3 last x a y b hne hle ih =>
    simp only [mergeDedupGo, if_neg hne, if_neg hle]
    simp at ih ⊢
    omega
  | case4 last a => simp [mergeDedupGo]
  | case5 y b => simp [mergeDedupGo]
  | case6 last y b hne => simp [mergeDedupGo, if_neg hne]

theorem mergeDedupGo_out_length {α : Type} [DecidableEq α] (le : α → α → Bool)
    (last : Option α) (a b : List α) :
    (mergeDedupGo le last a b).1.length
      + (mergeDedupGo le last a b).2.count .mergeRight = a.length + b.length := by
  induction last, a, b using mergeDedupGo.induct le with
  | case1 x a y b ih =>
    simp only [mergeDedupGo, if_pos rfl]
    simp [List.count_cons] at ih ⊢
    omega
  | case2 last x a y b hne hle ih =>
    simp only [mergeDedupGo, if_neg hne, if_pos hle]
    simp [List.count_cons] at ih ⊢
    omega
  | case3 last x a y b hne hle ih =>
    simp only [mergeDedupGo, if_neg hne, if_neg hle]
    simp [List.count_cons] at ih ⊢
    omega
  | case4 last a => simp [mergeDedupGo, List.count_replicate]
  | case5 y b => simp [mergeDedupGo, List.count_cons, List.count_replicate]
  | case6 last y b hne =>
    simp [mergeDedupGo, if_neg hne, List.count_cons, List.count_replicate]

theorem mergeDedupGo_replay {α : Type} [DecidableEq α] (le : α → α → Bool)
    (last : Option α) (a b : List α) :
    replayOps (mergeDedupGo le last a b).2 a b = some (mergeDedupGo le last a b).1 := by
  induction last, a, b using mergeDedupGo.induct le with
  | case1 x a y b ih =>
    simp only [mergeDedupGo, if_pos rfl]
    simpa [replayOps] using ih
  | case2 last x a y b hne hle ih =>
    simp only [mergeDedupGo, if_neg hne, if_pos hle]
    simpa [replayOps] using ih
  | case3 last x a y b hne hle ih =>
    simp only [mergeDedupGo, if_neg hne, if_neg hle]
    simpa [replayOps] using ih
  | case4 last a => simpa [mergeDedupGo] using replayOps_left_tail a
  | case5 y b => simpa [mergeDedupGo, replayOps] using replayOps_right_tail b
  | case6 last y b hne =>
    simpa [mergeDedupGo, if_neg hne, replayOps] using replayOps_right_tail b

theorem semTLtail : ∀ (prev : Option Int) (a : List Int), List.Pairwise (· < ·) a →
    (∀ x ∈ a, ltOpt prev x) →
    strictExceptMergeRight intLt prev (List.replicate a.length .takeLeft) a [] = true := by
  intro prev a
  induction a generalizing prev with
  | nil => intro _ _; rfl
  | cons x a ih =>
    intro ha hpa
    simp only [List.length_cons, List.replicate_succ, strictExceptMergeRight]
    rw [Bool.and_eq_true]
    constructor
    · cases prev with
      | none => rfl
      | some p => simpa [intLt] using hpa x (by simp)
    · exact ih (some x) ha.of_cons (fun z hz => by
        simpa [ltOpt] using (List.pairwise_cons.mp ha).1 z hz)

theorem semTRtail : ∀ (prev : Option Int) (b : List Int), List.Pairwise (· < ·) b →
    (∀ y ∈ b, ltOpt prev y) →
    strictExceptMergeRight intLt prev (List.replicate b.length .takeRight) [] b = true := by
  intro prev b
  induction b generalizing prev with
  | nil => intro _ _; rfl
  | cons y b ih =>
    intro hb hpb
    simp only [List.length_cons, List.replicate_succ, strictExceptMergeRight]
    rw [Bool.and_eq_true]
    constructor
    · cases prev with
      | none => rfl
      | some p => simpa [intLt] using hpb y (by simp)
    · exact ih (some y) hb.of_cons (fun z hz => by
        simpa [ltOpt] using (List.pairwise_cons.mp hb).1 z hz)

theorem mergeDedupGo_strict : ∀ (last : Option Int) (a b : List Int),
    List.Pairwise (· < ·) a → List.Pairwise (· < ·) b →
    (∀ x ∈ a, ltOpt last x) → (∀ y ∈ b, leOpt last y) →
    strictExceptMergeRight intLt last (mergeDedupGo intLe last a b).2 a b = true := by
  intro last a b
  induction last, a, b using mergeDedupGo.induct intLe with
  | case1 x a y b ih =>
    intro ha hb hla hlb
    simp only [mergeDedupGo, if_pos rfl]
    simp only [strictExceptMergeRight, Bool.and_eq_true]
    refine ⟨by simp, ?_⟩
    exact ih ha hb.of_cons hla (fun z hz =>
      le_of_lt (by simpa using (List.pairwise_cons.mp hb).1 z hz))
  | case2 last x a y b hne hle ih =>
    intro ha hb hla hlb
    simp only [mergeDedupGo, if_neg hne, if_pos hle]
    simp only [strictExceptMergeRight, Bool.and_eq_true]
    constructor
    · cases last with
      | none => rfl
      | some p => simpa [intLt] using hla x (by simp)
    · have hxy : x ≤ y := by simpa [intLe] using hle
      refine ih ha.of_cons hb (fun z hz => by
          simpa [ltOpt] using (List.pairwise_cons.mp ha).1 z hz) ?_
      intro z hz
      rcases List.mem_cons.mp hz with h | h
      · subst h; exact hxy
      · exact le_trans hxy (le_of_lt ((List.pairwise_cons.mp hb).1 z h))
  | case3 last x a y b hne hle ih =>
    intro ha hb hla hlb
    simp only [mergeDedupGo, if_neg hne, if_neg hle]
    simp only [strictExceptMergeRight, Bool.and_eq_true]
    have hyx : y < x := by
      have := (by simpa [intLe] using hle : ¬ x ≤ y)
      omega
    constructor
    · cases last with
      | none => rfl
      | some p =>
        have h1 : p ≤ y := hlb y (by simp)
        have h2 : p ≠ y := fun h => hne (by simp [h])
        simpa [intLt] using lt_of_le_of_ne h1 h2
    · refine ih ?_ hb.of_cons ?_ ?_
      · exact ha
      · intro z hz
        rcases List.mem_cons.mp hz with h | h
        · subst h; exact hyx
        · exact lt_trans hyx ((List.pairwise_cons.mp ha).1 z h)
      · intro z hz
        exact le_of_lt ((List.pairwise_cons.mp hb).1 z hz)
  | case4 last a =>
    intro ha _ hla _
    simpa [mergeDedupGo] using semTLtail last a ha hla
  | case5 y b =>
    intro _ hb _ hlb
    simp only [mergeDedupGo, if_pos rfl]
    simp only [strictExceptMergeRight, Bool.and_eq_true]
    refine ⟨by simp, ?_⟩
    simpa [List.map_const'] using semTRtail (some y) b hb.of_cons (fun z hz => by
      simpa [ltOpt] using (List.pairwise_cons.mp hb).1 z hz)
  | case6 last y b hne =>
    intro _ hb _ hlb
    simp only [mergeDedupGo, if_neg hne]
    simp only [strictExceptMergeRight, Bool.and_eq_true]
    constructor
    · cases last with
      | none => rfl
      | some p =>
        have h1 : p ≤ y := hlb y (by simp)
        have h2 : p ≠ y := fun h => hne (by simp [h])
        simpa [intLt] using lt_of_le_of_ne h1 h2
    · simpa [List.map_const'] using semTRtail (some y) b hb.of_cons (fun z hz => by
        simpa [ltOpt] using (List.pairwise_cons.mp hb).1 z hz)

/-- C1 (amended): for strictly increasing inputs `a`, `b`, `merge_deduplicate`
returns `(output, ops)` such that the consumed value stream is strictly
increasing except at `MergeOp.MergeRight` positions (where the consumed right
value repeats the previously emitted value); `ops.length = a.length +
b.length`; the number of `MergeRight` ops equals `a.length + b.length -
output.length`; and replaying `ops` (`TakeLeft` consumes the next element of
`a`, `TakeRight` and `MergeRight` consume the next element of `b`) consumes
exactly all of `a` and `b` and reconstructs `output`. -/
theorem c1_merge_deduplicate_spec (a b : List Int)
    (ha : List.Pairwise (· < ·) a) (hb : List.Pairwise (· < ·) b) :
    strictExceptMergeRight intLt none (merge_deduplicate intLe a b).2 a b = true ∧
    (merge_deduplicate intLe a b).2.length = a.length + b.length ∧
    (merge_deduplicate intLe a b).2.count .mergeRight
      = a.length + b.length - (merge_deduplicate intLe a b).1.length ∧
    replayOps (merge_deduplicate intLe a b).2 a b
      = some (merge_deduplicate intLe a b).1 := by
  refine ⟨mergeDedupGo_strict none a b ha hb (fun _ _ => trivial) (fun _ _ => trivial),
    mergeDedupGo_ops_length intLe none a b, ?_, mergeDedupGo_replay intLe none a b⟩
  have h := mergeDedupGo_out_length intLe none a b
  unfold merge_deduplicate
  omega

theorem c1_merge_deduplicate_spec_witness :
    List.Pairwise (· < ·) [(1 : Int), 3] ∧ List.Pairwise (· < ·) [(3 : Int), 4] ∧
    (strictExceptMergeRight intLt none
        (merge_deduplicate intLe [(1 : Int), 3] [3, 4]).2 [1, 3] [3, 4] = true ∧
      (merge_deduplicate intLe [(1 : Int), 3] [3, 4]).2.length
        = [(1 : Int), 3].length + [(3 : Int), 4].length ∧
      (merge_deduplicate intLe [(1 : Int), 3] [3, 4]).2.count .mergeRight
        = [(1 : Int), 3].length + [(3 : Int), 4].length
            - (merge_deduplicate intLe [(1 : Int), 3] [3, 4]).1.length ∧
      replayOps (merge_deduplicate intLe [(1 : Int), 3] [3, 4]).2 [1, 3] [3, 4]
        = some (merge_deduplicate intLe [(1 : Int), 3] [3, 4]).1) :=
  ⟨by decide, by decide,
    c1_merge_deduplicate_spec [1, 3] [3, 4] (by decide) (by decide)⟩

/-- C1 counterexample: the claim quantifies over all *sorted* inputs, but for
the sorted (non-strict) inputs `a = [1, 1]`, `b = [5]` the ops stream is
`[TakeLeft, TakeLeft, TakeRight]` with no `MergeRight`, while the consumed
value stream `[1, 1, 5]` is not strictly increasing: the claimed conjunction
fails. -/
theorem c1_claim_counterexample :
    List.Pairwise (· ≤ ·) [(1 : Int), 1] ∧ List.Pairwise (· ≤ ·) [(5 : Int)] ∧
    ¬(strictExceptMergeRight intLt none
          (merge_deduplicate intLe [(1 : Int), 1] [5]).2 [1, 1] [5] = true ∧
        (merge_deduplicate intLe [(1 : Int), 1] [5]).2.length
          = [(1 : Int), 1].length + [(5 : Int)].length ∧
        (merge_deduplicate intLe [(1 : Int), 1] [5]).2.count .mergeRight
          = [(1 : Int), 1].length + [(5 : Int)].length
              - (merge_deduplicate intLe [(1 : Int), 1] [5]).1.length ∧
        replayOps (merge_deduplicate intLe [(1 : Int), 1] [5]).2 [1, 1] [5]
          = some (merge_deduplicate intLe [(1 : Int), 1] [5]).1) := by
  refine ⟨by decide, by decide, ?_⟩
  have h : merge_deduplicate intLe [(1 : Int), 1] [5]
      = ([1, 1, 5], [.takeLeft, .takeLeft, .takeRight]) := by
    simp [merge_deduplicate, mergeDedupGo, intLe]
  rw [h]
  decide

end LocustDB

namespace LocustDB

/-- Exit state of the main loop of `merge_sort` (`batch_merging.rs:371-399`):
emitted output and ops so far, remaining suffixes of the two inputs, and the
final values of the indices `i`, `j`. -/
structure MergeExit (α : Type) where
  out : List α
  ops : List Bool
  ra : List α
  rb : List α
  i : Nat
  j : Nat

/-- Main `while` loop of `merge_sort`: runs while both inputs are nonempty and
`i + j < limit`; `C::cmp` takes the left element. -/
def msLoop {α : Type} (le : α → α → Bool) (limit : Nat) :
    List α → List α → Nat → Nat → MergeExit α
  | x :: a, y :: b, i, j =>
    if i + j < limit then
      if le x y then
        let r := msLoop le limit a (y :: b) (i + 1) j
        { r with out := x :: r.out, ops := true :: r.ops }
      else
        let r := msLoop le limit (x :: a) b i (j + 1)
        { r with out := y :: r.out, ops := false :: r.ops }
    else ⟨[], [], x :: a, y :: b, i, j⟩
  | a, b, i, j => ⟨[], [], a, b, i, j⟩

/-- `merge_sort(left, right, limit)` from `batch_merging.rs:371`: the main
loop, then the two tail slices `left[i..min(left.len(), limit - j)]` and
`right[j..min(right.len(), limit - i)]` (`Nat` subtraction saturates where the
Rust `usize` subtraction would underflow). -/
def merge_sort {α : Type} (le : α → α → Bool) (left right : List α)
    (limit : Nat) : List α × List Bool :=
  let e := msLoop le limit left right 0 0
  let ltail := e.ra.take (min left.length (limit - e.j) - e.i)
  let rtail := e.rb.take (min right.length (limit - e.i) - e.j)
  (e.out ++ ltail ++ rtail,
    e.ops ++ ltail.map (fun _ => true) ++ rtail.map (fun _ => false))

/-- `merge_sort` with the implicit panic conditions made explicit: `none` if
either tail expression `limit - j` / `limit - i` would underflow or either
tail slice `left[i..min(left.len(), limit-j)]` /
`right[j..min(right.len(), limit-i)]` would be out of bounds. -/
def mergeSortChecked {α : Type} (le : α → α → Bool) (left right : List α)
    (limit : Nat) : Option (List α × List Bool) :=
  let e := msLoop le limit left right 0 0
  if e.j ≤ limit ∧ e.i ≤ limit ∧ e.i ≤ min left.length (limit - e.j) ∧
      e.j ≤ min right.length (limit - e.i)
  then some (merge_sort le left right limit) else none

theorem msLoop_inv {α : Type} (le : α → α → Bool) (limit : Nat) :
    ∀ (a b : List α) (i j : Nat),
      (msLoop le limit a b i j).i + (msLoop le limit a b i j).ra.length
          = i + a.length ∧
      (msLoop le limit a b i j).j + (msLoop le limit a b i j).rb.length
          = j + b.length ∧
      i ≤ (msLoop le limit a b i j).i ∧ j ≤ (msLoop le limit a b i j).j ∧
      (i + j ≤ limit → (msLoop le limit a b i j).i + (msLoop le limit a b i j).j ≤ limit) := by
  intro a b i j
  induction a, b, i, j using msLoop.induct le limit with
  | case1 x a y b i j hlt hle ih =>
    obtain ⟨h1, h2, h3, h4, h5⟩ := ih
    have h6 := h5 (by omega)
    simp only [msLoop, if_pos hlt, if_pos hle]
    simp only [List.length_cons] at *
    omega
  | case2 x a y b i j hlt hle ih =>
    obtain ⟨h1, h2, h3, h4, h5⟩ := ih
    have h6 := h5 (by omega)
    simp only [msLoop, if_pos hlt, if_neg hle]
    simp only [List.length_cons] at *
    omega
  | case3 x a y b i j hlt =>
    simp [msLoop, hlt]
  | case4 a b i j hnc =>
    match a, b with
    | [], b => simp [msLoop]
    | x :: a, [] => simp [msLoop]
    | x :: a, y :: b => exact absurd rfl (fun h => hnc x a y b h rfl)

end LocustDB

namespace LocustDB

/-- Written from the spec's words for the sort case: the classic stable merge
of two lists that takes the left element first on equal keys ("left-first
tiebreak"), with no limit. `merge_sort` is proved to be its `limit`-prefix. -/
def stableMerge {α : Type} (le : α → α → Bool) : List α → List α → List α
  | [], b => b
  | x :: a, [] => x :: a
  | x :: a, y :: b =>
    if le x y then x :: stableMerge le a (y :: b) else y :: stableMerge le (x :: a) b
termination_by a b => a.length + b.length

theorem stableMerge_length {α : Type} (le : α → α → Bool) :
    ∀ a b : List α, (stableMerge le a b).length = a.length + b.length := by
  intro a b
  induction a, b using stableMerge.induct le with
  | case1 b => simp [stableMerge]
  | case2 x a => simp [stableMerge]
  | case3 x a y b hle ih => simp [stableMerge, hle, ih]; omega
  | case4 x a y b hle ih => simp [stableMerge, hle, ih]; omega

theorem stableMerge_mem {α : Type} (le : α → α → Bool) :
    ∀ (a b : List α) (w : α), w ∈ stableMerge le a b ↔ w ∈ a ∨ w ∈ b := by
  intro a b
  induction a, b using stableMerge.induct le with
  | case1 b => simp [stableMerge]
  | case2 x a => simp [stableMerge]
  | case3 x a y b hle ih =>
    intro w
    simp [stableMerge, hle, ih]
    tauto
  | case4 x a y b hle ih =>
    intro w
    simp [stableMerge, hle, ih]
    tauto

/-- Modelled from the spec: the comparator `CmpLessThan`
(`engine/vector_op/comparator.rs`, not among the sources) as used by the older
combiner's `merge_sort`, whose `C::cmp` is non-strict: "implementers should
use `a <= b` for ascending" -- ties take the left element. -/
def cmpLessThan (p q : Int) : Bool := decide (p ≤ q)

theorem stableMerge_sorted :
    ∀ a b : List Int, List.Pairwise (· ≤ ·) a → List.Pairwise (· ≤ ·) b →
      List.Pairwise (· ≤ ·) (stableMerge cmpLessThan a b) := by
  intro a b
  induction a, b using stableMerge.induct cmpLessThan with
  | case1 b => simp [stableMerge]
  | case2 x a => simp [stableMerge]
  | case3 x a y b hle ih =>
    intro ha hb
    have hxy : x ≤ y := by simpa [cmpLessThan] using hle
    rw [show stableMerge cmpLessThan (x :: a) (y :: b)
        = x :: stableMerge cmpLessThan a (y :: b) by simp [stableMerge, hle]]
    refine List.pairwise_cons.mpr ⟨?_, ih (List.pairwise_cons.mp ha).2 hb⟩
    intro w hw
    rcases (stableMerge_mem cmpLessThan a (y :: b) w).mp hw with h | h
    · exact (List.pairwise_cons.mp ha).1 w h
    · rcases List.mem_cons.mp h with h | h
      · exact h ▸ hxy
      · exact le_trans hxy ((List.pairwise_cons.mp hb).1 w h)
  | case4 x a y b hle ih =>
    intro ha hb
    have hyx : y ≤ x := by
      have : ¬ x ≤ y := by simpa [cmpLessThan] using hle
      omega
    rw [show stableMerge cmpLessThan (x :: a) (y :: b)
        = y :: stableMerge cmpLessThan (x :: a) b by simp [stableMerge, hle]]
    refine List.pairwise_cons.mpr ⟨?_, ih ha (List.pairwise_cons.mp hb).2⟩
    intro w hw
    rcases (stableMerge_mem cmpLessThan (x :: a) b w).mp hw with h | h
    · rcases List.mem_cons.mp h with h | h
      · exact h ▸ hyx
      · exact le_trans hyx ((List.pairwise_cons.mp ha).1 w h)
    · exact (List.pairwise_cons.mp hb).1 w h

theorem msLoop_main {α : Type} (le : α → α → Bool) (limit : Nat) :
    ∀ (a b : List α) (i j : Nat), i + j ≤ limit →
      (msLoop le limit a b i j).out
          ++ (msLoop le limit a b i j).ra.take
              (limit - (msLoop le limit a b i j).j - (msLoop le limit a b i j).i)
          ++ (msLoop le limit a b i j).rb.take
              (limit - (msLoop le limit a b i j).i - (msLoop le limit a b i j).j)
        = (stableMerge le a b).take (limit - i - j) := by
  intro a b i j
  induction a, b, i, j using msLoop.induct le limit with
  | case1 x a y b i j hlt hle ih =>
    intro _
    have ih' := ih (by omega)
    simp only [msLoop, if_pos hlt, if_pos hle]
    rw [show stableMerge le (x :: a) (y :: b)
        = x :: stableMerge le a (y :: b) by simp [stableMerge, hle]]
    have hlim : limit - i - j = (limit - (i + 1) - j) + 1 := by omega
    rw [hlim, List.take_succ_cons]
    simpa using ih'
  | case2 x a y b i j hlt hle ih =>
    intro _
    have ih' := ih (by omega)
    simp only [msLoop, if_pos hlt, if_neg hle]
    rw [show stableMerge le (x :: a) (y :: b)
        = y :: stableMerge le (x :: a) b by simp [stableMerge, hle]]
    have hlim : limit - i - j = (limit - i - (j + 1)) + 1 := by omega
    rw [hlim, List.take_succ_cons]
    simpa using ih'
  | case3 x a y b i j hlt =>
    intro hij
    have h0 : limit - i - j = 0 := by omega
    have h0' : limit - j - i = 0 := by omega
    simp [msLoop, hlt, h0, h0']
  | case4 a b i j hnc =>
    intro hij
    match a, b with
    | [], b => simp [msLoop, stableMerge]
    | x :: a, [] =>
      have h0 : limit - j - i = limit - i - j := by omega
      simp [msLoop, stableMerge, h0]
    | x :: a, y :: b => exact absurd rfl (fun h => hnc x a y b h rfl)

end LocustDB

namespace LocustDB

theorem merge_sort_eq_take {α : Type} (le : α → α → Bool) (a b : List α) (limit : Nat) :
    (merge_sort le a b limit).1 = (stableMerge le a b).take limit := by
  obtain ⟨h1, h2, h3, h4, h5⟩ := msLoop_inv le limit a b 0 0
  have hmain := msLoop_main le limit a b 0 0 (by omega)
  have h6 := h5 (by omega)
  unfold merge_sort
  have hta : (msLoop le limit a b 0 0).ra.take
        (min a.length (limit - (msLoop le limit a b 0 0).j) - (msLoop le limit a b 0 0).i)
      = (msLoop le limit a b 0 0).ra.take
        (limit - (msLoop le limit a b 0 0).j - (msLoop le limit a b 0 0).i) := by
    rw [List.take_eq_take]
    omega
  have htb : (msLoop le limit a b 0 0).rb.take
        (min b.length (limit - (msLoop le limit a b 0 0).i) - (msLoop le limit a b 0 0).j)
      = (msLoop le limit a b 0 0).rb.take
        (limit - (msLoop le limit a b 0 0).i - (msLoop le limit a b 0 0).j) := by
    rw [List.take_eq_take]
    omega
  simp only [hta, htb]
  simpa using hmain

end LocustDB

namespace LocustDB

/-- C3: for ascending-sorted inputs and any limit, `merge_sort` with
`CmpLessThan` returns an output that is sorted ascending, has length
`min (len left + len right) limit`, and equals the `limit`-prefix of the
left-first stable merge (on equal keys the left element comes first). -/
theorem c3_merge_sort_spec (a b : List Int) (limit : Nat)
    (ha : List.Pairwise (· ≤ ·) a) (hb : List.Pairwise (· ≤ ·) b) :
    List.Pairwise (· ≤ ·) (merge_sort cmpLessThan a b limit).1 ∧
    (merge_sort cmpLessThan a b limit).1.length = min (a.length + b.length) limit ∧
    (merge_sort cmpLessThan a b limit).1 = (stableMerge cmpLessThan a b).take limit := by
  have he := merge_sort_eq_take cmpLessThan a b limit
  refine ⟨?_, ?_, he⟩
  · rw [he]
    exact (stableMerge_sorted a b ha hb).sublist (List.take_sublist _ _)
  · rw [he, List.length_take, stableMerge_length]
    omega

theorem c3_merge_sort_spec_witness :
    List.Pairwise (· ≤ ·) [(1 : Int), 2, 2] ∧ List.Pairwise (· ≤ ·) [(2 : Int), 3] ∧
    (List.Pairwise (· ≤ ·) (merge_sort cmpLessThan [(1 : Int), 2, 2] [2, 3] 4).1 ∧
      (merge_sort cmpLessThan [(1 : Int), 2, 2] [2, 3] 4).1.length
        = min ([(1 : Int), 2, 2].length + [(2 : Int), 3].length) 4 ∧
      (merge_sort cmpLessThan [(1 : Int), 2, 2] [2, 3] 4).1
        = (stableMerge cmpLessThan [(1 : Int), 2, 2] [2, 3]).take 4) :=
  ⟨by decide, by decide,
    c3_merge_sort_spec [1, 2, 2] [2, 3] 4 (by decide) (by decide)⟩

end LocustDB

namespace LocustDB

/-- Exit state of the main loop of the `Merge` operator's `merge`
(`operators/merge.rs:52-85`); ops are `u8` (1 = left, 0 = right). -/
structure OpMergeExit (α : Type) where
  out : List α
  ops : List Nat
  ra : List α
  rb : List α
  i : Nat
  j : Nat

/-- Main `while` loop of `merge` (`operators/merge.rs:63-73`): runs while both
inputs are nonempty and `i + j < limit`; `C::cmp_eq` takes the left element. -/
def opMergeLoop {α : Type} (le : α → α → Bool) (limit : Nat) :
    List α → List α → Nat → Nat → OpMergeExit α
  | x :: a, y :: b, i, j =>
    if i + j < limit then
      if le x y then
        let r := opMergeLoop le limit a (y :: b) (i + 1) j
        { r with out := x :: r.out, ops := 1 :: r.ops }
      else
        let r := opMergeLoop le limit (x :: a) b i (j + 1)
        { r with out := y :: r.out, ops := 0 :: r.ops }
    else ⟨[], [], x :: a, y :: b, i, j⟩
  | a, b, i, j => ⟨[], [], a, b, i, j⟩

/-- `merge(left, right, limit)` from `operators/merge.rs:52`: main loop plus
the tail slices `left[i..min(left.len(), limit - j)]` and
`right[j..min(right.len(), limit - i)]`. -/
def operatorMerge {α : Type} (le : α → α → Bool) (left right : List α)
    (limit : Nat) : List α × List Nat :=
  let e := opMergeLoop le limit left right 0 0
  let ltail := e.ra.take (min left.length (limit - e.j) - e.i)
  let rtail := e.rb.take (min right.length (limit - e.i) - e.j)
  (e.out ++ ltail ++ rtail,
    e.ops ++ ltail.map (fun _ => 1) ++ rtail.map (fun _ => 0))

/-- `operatorMerge` with the implicit panic conditions made explicit, as in
`mergeSortChecked`. -/
def operatorMergeChecked {α : Type} (le : α → α → Bool) (left right : List α)
    (limit : Nat) : Option (List α × List Nat) :=
  let e := opMergeLoop le limit left right 0 0
  if e.j ≤ limit ∧ e.i ≤ limit ∧ e.i ≤ min left.length (limit - e.j) ∧
      e.j ≤ min right.length (limit - e.i)
  then some (operatorMerge le left right limit) else none

theorem opMergeLoop_inv {α : Type} (le : α → α → Bool) (limit : Nat) :
    ∀ (a b : List α) (i j : Nat),
      (opMergeLoop le limit a b i j).i + (opMergeLoop le limit a b i j).ra.length
          = i + a.length ∧
      (opMergeLoop le limit a b i j).j + (opMergeLoop le limit a b i j).rb.length
          = j + b.length ∧
      i ≤ (opMergeLoop le limit a b i j).i ∧ j ≤ (opMergeLoop le limit a b i j).j ∧
      (i + j ≤ limit →
        (opMergeLoop le limit a b i j).i + (opMergeLoop le limit a b i j).j ≤ limit) := by
  intro a b i j
  induction a, b, i, j using opMergeLoop.induct le limit with
  | case1 x a y b i j hlt hle ih =>
    obtain ⟨h1, h2, h3, h4, h5⟩ := ih
    have h6 := h5 (by omega)
    simp only [opMergeLoop, if_pos hlt, if_pos hle]
    simp only [List.length_cons] at *
    omega
  | case2 x a y b i j hlt hle ih =>
    obtain ⟨h1, h2, h3, h4, h5⟩ := ih
    have h6 := h5 (by omega)
    simp only [opMergeLoop, if_pos hlt, if_neg hle]
    simp only [List.length_cons] at *
    omega
  | case3 x a y b i j hlt =>
    simp [opMergeLoop, hlt]
  | case4 a b i j hnc =>
    match a, b with
    | [], b => simp [opMergeLoop]
    | x :: a, [] => simp [opMergeLoop]
    | x :: a, y :: b => exact absurd rfl (fun h => hnc x a y b h rfl)

/-- C10: in both `merge_sort` (`batch_merging.rs`) and `merge` (the `Merge`
operator), for every pair of inputs and every limit the main loop exits with
`i ≤ limit` and `j ≤ limit`, the tail bounds `limit - j` / `limit - i` never
underflow, and both tail slices are in bounds: the checked variants never hit
their panic branch. -/
theorem c10_merge_loops_no_underflow :
    (∀ (α : Type) (le : α → α → Bool) (left right : List α) (limit : Nat),
        (mergeSortChecked le left right limit).isSome = true) ∧
    (∀ (α : Type) (le : α → α → Bool) (left right : List α) (limit : Nat),
        (operatorMergeChecked le left right limit).isSome = true) := by
  constructor
  · intro α le left right limit
    obtain ⟨h1, h2, h3, h4, h5⟩ := msLoop_inv le limit left right 0 0
    have h6 := h5 (by omega)
    unfold mergeSortChecked
    rw [if_pos (by omega)]
    rfl
  · intro α le left right limit
    obtain ⟨h1, h2, h3, h4, h5⟩ := opMergeLoop_inv le limit left right 0 0
    have h6 := h5 (by omega)
    unfold operatorMergeChecked
    rw [if_pos (by omega)]
    rfl

end LocustDB

namespace LocustDB

/-- `IndexedPackedStrings` (`stringpack.rs:5-42`): each `data` entry packs a
pointer into `backing_store` in the upper 40 bits and a length in the lower 24
bits of a `u64`.  Bytes are `Nat`s below 256; the `u64` packing arithmetic is
taken modulo `2 ^ 64`. -/
structure IndexedPackedStrings : Type where
  data : List Nat
  backing_store : List Nat
deriving DecidableEq, Repr

def IndexedPackedStrings.empty : IndexedPackedStrings := ⟨[], []⟩

/-- `IndexedPackedStrings::push` (`stringpack.rs:14-20`): pushes
`((backing_store.len() << 24) + bytes.len()) as u64` onto `data` and appends
the bytes; there is no overflow check (the source carries `TODO(34): overflow`). -/
def IndexedPackedStrings.push (p : IndexedPackedStrings) (elem : List Nat) :
    IndexedPackedStrings :=
  { data := p.data ++ [((p.backing_store.length <<< 24) + elem.length) % 2 ^ 64],
    backing_store := p.backing_store ++ elem }

/-- `IndexedPackedStrings::iter` (`stringpack.rs:27-33`): for each entry,
`offset = entry >> 24`, `len = entry & 0x00ff_ffff`, yielding
`backing_store[offset..offset + len]`. -/
def IndexedPackedStrings.iter (p : IndexedPackedStrings) : List (List Nat) :=
  p.data.map fun ol => ((p.backing_store.drop (ol >>> 24)).take (ol % 2 ^ 24))

/-- C5: the spec requires `push` to fail loudly once the arena reaches `2^40`
bytes or a string reaches `2^24` bytes, but `push` has no error path at all
(its `TODO(34)` marks the missing check): pushing a single string of length
`2^24` into an empty arena stores the entry `2^24`, which decodes to
`offset = 1`, `len = 0`, so `iter` silently yields the empty string instead of
the pushed string. -/
theorem c5_push_overflow_unchecked (s : List Nat) (hs : s.length = 2 ^ 24) :
    (IndexedPackedStrings.empty.push s).iter = [[]] ∧
    (IndexedPackedStrings.empty.push s).iter ≠ [s] := by
  have hdata : (IndexedPackedStrings.empty.push s).data = [2 ^ 24] := by
    simp only [IndexedPackedStrings.push, IndexedPackedStrings.empty,
      List.length_nil, List.nil_append, hs]
    norm_num
  have hiter : (IndexedPackedStrings.empty.push s).iter = [[]] := by
    rw [IndexedPackedStrings.iter, hdata]
    simp only [List.map_cons, List.map_nil, Nat.mod_self, List.take_zero]
  refine ⟨hiter, ?_⟩
  rw [hiter]
  simp only [ne_eq, List.cons.injEq, and_true]
  intro h
  rw [← h] at hs
  simp at hs

theorem c5_push_overflow_unchecked_witness :
    (List.replicate (2 ^ 24) (0 : Nat)).length = 2 ^ 24 ∧
    ((IndexedPackedStrings.empty.push (List.replicate (2 ^ 24) (0 : Nat))).iter = [[]] ∧
      (IndexedPackedStrings.empty.push (List.replicate (2 ^ 24) (0 : Nat))).iter
        ≠ [List.replicate (2 ^ 24) (0 : Nat)]) :=
  ⟨by simp only [List.length_replicate],
    c5_push_overflow_unchecked (List.replicate (2 ^ 24) 0)
      (by simp only [List.length_replicate])⟩

end LocustDB

namespace LocustDB

/-- Length encoding of `PackedStrings::push` (`stringpack.rs:59-68`): emit a
`255` byte while more than 254 remains, subtracting 255 each time, then the
final remainder byte (which is at most 254). -/
def lenEnc (len : Nat) : List Nat :=
  if len > 254 then 255 :: lenEnc (len - 255) else [len]
termination_by len

/-- `PackedStrings::push`: appends the length encoding then the bytes.
(`PackedBytes::from_iterator`, `stringpack.rs:123-136`, inlines the same
encoding.) -/
def stringPackerPush (data : List Nat) (s : List Nat) : List Nat :=
  data ++ lenEnc s.length ++ s

/-- `PackedStrings::from_iterator` (`stringpack.rs:50-57`): push each string in
order into an empty arena. -/
def packAll (xs : List (List Nat)) : List Nat :=
  xs.foldl stringPackerPush []

/-- Length decoding of `StringPackerIterator::next` (`stringpack.rs:97-108`):
accumulate 255 per leading `255` byte, then add the terminating byte.  Returns
the decoded length and the remaining bytes (`(0, [])` where the Rust code
would index out of bounds). -/
def readLen : List Nat → Nat × List Nat
  | 255 :: rest => ((readLen rest).1 + 255, (readLen rest).2)
  | b :: rest => (b, rest)
  | [] => (0, [])

theorem readLen_snd_lt : ∀ (d : List Nat), d ≠ [] → (readLen d).2.length < d.length := by
  intro d
  induction d using readLen.induct with
  | case1 rest ih =>
    intro _
    rcases rest with _ | ⟨b, rest⟩
    · simp [readLen]
    · have := ih (by simp)
      simp only [readLen, List.length_cons] at this ⊢
      omega
  | case2 b rest hb =>
    intro _
    simp [readLen, hb]
  | case3 => intro h; exact absurd rfl h

/-- Driving `StringPackerIterator` (`stringpack.rs:94-115`) to exhaustion:
while bytes remain, decode a length, yield that many bytes, continue after
them. -/
def unpackAll : List Nat → List (List Nat)
  | [] => []
  | b :: rest =>
    ((readLen (b :: rest)).2.take (readLen (b :: rest)).1)
      :: unpackAll ((readLen (b :: rest)).2.drop (readLen (b :: rest)).1)
termination_by d => d.length
decreasing_by
  have h := readLen_snd_lt (b :: rest) (by simp)
  have h2 : ((readLen (b :: rest)).2.drop (readLen (b :: rest)).1).length
      ≤ (readLen (b :: rest)).2.length := by
    simp [List.length_drop]
  omega

end LocustDB

namespace LocustDB

theorem lenEnc_run : ∀ len : Nat, ∃ q r, lenEnc len = List.replicate q 255 ++ [r]
    ∧ r < 255 ∧ 255 * q + r = len := by
  intro len
  induction len using lenEnc.induct with
  | case1 len hgt ih =>
    obtain ⟨q, r, he, hr, hs⟩ := ih
    refine ⟨q + 1, r, ?_, hr, by omega⟩
    rw [lenEnc, if_pos hgt, he, List.replicate_succ]
    simp
  | case2 len hle =>
    exact ⟨0, len, by rw [lenEnc, if_neg hle]; simp, by omega, by omega⟩

theorem readLen_lenEnc : ∀ (len : Nat) (rest : List Nat),
    readLen (lenEnc len ++ rest) = (len, rest) := by
  intro len
  induction len using lenEnc.induct with
  | case1 len hgt ih =>
    intro rest
    rw [lenEnc, if_pos hgt]
    simp only [List.cons_append]
    rw [show readLen (255 :: (lenEnc (len - 255) ++ rest))
        = ((readLen (lenEnc (len - 255) ++ rest)).1 + 255,
           (readLen (lenEnc (len - 255) ++ rest)).2) from rfl]
    rw [ih rest]
    simp only [Prod.mk.injEq]
    exact ⟨by omega, trivial⟩
  | case2 len hle =>
    intro rest
    rw [lenEnc, if_neg hle]
    have hne : len ≠ 255 := by omega
    simp only [List.cons_append, List.nil_append]
    rw [readLen.eq_def]
    split
    · next heq => rw [List.cons.injEq] at heq; exact absurd heq.1 hne
    · next b r heq => rw [List.cons.injEq] at heq; rw [heq.1, heq.2]
    · next heq => exact absurd heq (by simp)

end LocustDB

namespace LocustDB

theorem lenEnc_ne_nil (len : Nat) : lenEnc len ≠ [] := by
  rw [lenEnc]
  split <;> simp

theorem foldl_push_acc : ∀ (xs : List (List Nat)) (d : List Nat),
    xs.foldl stringPackerPush d = d ++ packAll xs := by
  intro xs
  induction xs with
  | nil => intro d; simp [packAll]
  | cons s xs ih =>
    intro d
    rw [List.foldl_cons, ih]
    rw [show packAll (s :: xs) = stringPackerPush [] s ++ packAll xs by
      rw [packAll, List.foldl_cons, ih]]
    simp [stringPackerPush]

theorem unpackAll_encoded_cons (s rest : List Nat) :
    unpackAll (lenEnc s.length ++ (s ++ rest)) = s :: unpackAll rest := by
  obtain ⟨h, t, hht⟩ : ∃ h t, lenEnc s.length ++ (s ++ rest) = h :: t := by
    rcases he : lenEnc s.length with _ | ⟨h, t⟩
    · exact absurd he (lenEnc_ne_nil _)
    · exact ⟨h, t ++ (s ++ rest), by simp⟩
  rw [hht, unpackAll, ← hht, readLen_lenEnc]
  simp

theorem unpack_packAll : ∀ xs : List (List Nat), unpackAll (packAll xs) = xs := by
  intro xs
  induction xs with
  | nil => simp [packAll, unpackAll]
  | cons s xs ih =>
    rw [packAll, List.foldl_cons, foldl_push_acc]
    show unpackAll (stringPackerPush [] s ++ packAll xs) = s :: xs
    rw [stringPackerPush, List.nil_append, List.append_assoc, unpackAll_encoded_cons, ih]

/-- C9: decoding the `PackedStrings` encoding with `StringPackerIterator`
returns exactly the original byte strings in order (for any list of strings,
in particular lengths 0, 254, 255, 256, 509, 510); and each pushed string is
length-prefixed by a run of `255`-valued bytes terminated by a final byte
below 255 whose run sums to the string's length (the run is empty for lengths
below 255). -/
theorem c9_packed_strings_round_trip :
    (∀ xs : List (List Nat), unpackAll (packAll xs) = xs) ∧
    (∀ d s : List Nat, ∃ q r, stringPackerPush d s
        = d ++ (List.replicate q 255 ++ [r] ++ s) ∧ r < 255 ∧ 255 * q + r = s.length) := by
  refine ⟨unpack_packAll, ?_⟩
  intro d s
  obtain ⟨q, r, he, hr, hs⟩ := lenEnc_run s.length
  exact ⟨q, r, by rw [stringPackerPush, he]; simp, hr, hs⟩

end LocustDB

namespace LocustDB

/-- State persisted across `HashMapGrouping::execute` calls
(`operators/hashmap_grouping.rs`): the hash map `T -> u32` (modelled as an
association list; hash-map key order is irrelevant to the contract) and the
blocking `unique` output accumulated across batches. -/
structure HMGState : Type where
  map : List (Int × Nat)
  unique : List Int

def HMGState.empty : HMGState := ⟨[], []⟩

def hmLookup : List (Int × Nat) → Int → Option Nat
  | [], _ => none
  | (k, v) :: m, x => if k = x then some v else hmLookup m x

/-- The id assigned to a newly inserted value (`hashmap_grouping.rs:46`):
`unique.len() as u32 - 1` computed after the push, i.e. the `u32` cast of the
post-push length followed by a wrapping decrement.  `pre` is the pre-push
length of `unique`; for `pre < 2 ^ 32` this equals `pre`, past that the `u32`
arithmetic wraps to a colliding id (and the debug build panics at
`pre = 2 ^ 32 - 1`). -/
def hmgId (pre : Nat) : Nat :=
  ((pre + 1) % 2 ^ 32 + (2 ^ 32 - 1)) % 2 ^ 32

/-- The per-batch loop of `HashMapGrouping::execute`
(`hashmap_grouping.rs:43-48`): for each input value, emit its existing id, or
push it onto `unique` and insert it with id `unique.len() as u32 - 1`
(the wrapped pre-push length, `hmgId`). -/
def hmgProcess : HMGState → List Int → HMGState × List Nat
  | st, [] => (st, [])
  | st, v :: rest =>
    match hmLookup st.map v with
    | some id =>
      let r := hmgProcess st rest
      (r.1, id :: r.2)
    | none =>
      let r := hmgProcess ⟨(v, hmgId st.unique.length) :: st.map, st.unique ++ [v]⟩ rest
      (r.1, hmgId st.unique.length :: r.2)

/-- `HashMapGrouping::execute` on one batch: process the batch, then set
`cardinality` to `unique.len()` (`hashmap_grouping.rs:49-51`). -/
def hmgExecute (st : HMGState) (batch : List Int) : HMGState × List Nat × Int :=
  let r := hmgProcess st batch
  (r.1, r.2, (r.1.unique.length : Int))

/-- A sequence of `execute` calls: returns the final state, the per-batch
`grouping_key` outputs and the per-batch `cardinality` outputs. -/
def hmgRun (st : HMGState) : List (List Int) → HMGState × List (List Nat) × List Int
  | [] => (st, [], [])
  | batch :: rest =>
    let e := hmgExecute st batch
    let r := hmgRun e.1 rest
    (r.1, e.2.1 :: r.2.1, e.2.2 :: r.2.2)

/-- First-occurrence deduplication: the distinct values of `l` appended to `u`
in order of first appearance. -/
def uniqAppend (u : List Int) (l : List Int) : List Int :=
  l.foldl (fun acc v => if v ∈ acc then acc else acc ++ [v]) u

/-- The grouping-map invariant: lookup answers exactly the index of a value in
`unique`, and `unique` has no duplicates. -/
def HMGInv (st : HMGState) : Prop :=
  (∀ v : Int, hmLookup st.map v
      = if v ∈ st.unique then some (st.unique.indexOf v) else none) ∧
  st.unique.Nodup

theorem uniqAppend_suffix : ∀ (l : List Int) (u : List Int), ∃ w, uniqAppend u l = u ++ w := by
  intro l
  induction l with
  | nil => exact fun u => ⟨[], by simp [uniqAppend]⟩
  | cons v rest ih =>
    intro u
    by_cases hv : v ∈ u
    · obtain ⟨w, hw⟩ := ih u
      exact ⟨w, by rw [uniqAppend, List.foldl_cons, if_pos hv]; exact hw⟩
    · obtain ⟨w, hw⟩ := ih (u ++ [v])
      refine ⟨[v] ++ w, ?_⟩
      rw [uniqAppend, List.foldl_cons, if_neg hv]
      rw [uniqAppend] at hw
      rw [hw, List.append_assoc]

theorem indexOf_uniqAppend {v : Int} {u : List Int} (l : List Int) (hv : v ∈ u) :
    (uniqAppend u l).indexOf v = u.indexOf v := by
  obtain ⟨w, hw⟩ := uniqAppend_suffix l u
  rw [hw, List.indexOf_append_of_mem hv]

theorem mem_uniqAppend {v : Int} {u : List Int} (l : List Int) (hv : v ∈ u) :
    v ∈ uniqAppend u l := by
  obtain ⟨w, hw⟩ := uniqAppend_suffix l u
  rw [hw]
  exact List.mem_append_left _ hv

theorem hmgId_eq (n : Nat) (h : n < 2 ^ 32) : hmgId n = n := by
  rw [hmgId]
  omega

theorem hmgProcess_spec : ∀ (l : List Int) (st : HMGState), HMGInv st →
    (uniqAppend st.unique l).length ≤ 2 ^ 32 →
    (hmgProcess st l).1.unique = uniqAppend st.unique l ∧
    HMGInv (hmgProcess st l).1 ∧
    (hmgProcess st l).2 = l.map fun v => (uniqAppend st.unique l).indexOf v := by
  intro l
  induction l with
  | nil =>
    exact fun st hinv _ =>
      ⟨by simp [hmgProcess, uniqAppend], hinv, by simp [hmgProcess]⟩
  | cons v rest ih =>
    intro st hinv hbound
    obtain ⟨hmap, hnd⟩ := hinv
    by_cases hv : v ∈ st.unique
    · have hl : hmLookup st.map v = some (st.unique.indexOf v) := by rw [hmap, if_pos hv]
      have hstep : uniqAppend st.unique (v :: rest) = uniqAppend st.unique rest := by
        rw [uniqAppend, List.foldl_cons, if_pos hv, uniqAppend]
      obtain ⟨h1, h2, h3⟩ := ih st ⟨hmap, hnd⟩ (by rw [← hstep]; exact hbound)
      refine ⟨?_, ?_, ?_⟩
      · rw [hmgProcess, hl]
        simpa [hstep] using h1
      · rw [hmgProcess, hl]
        exact h2
      · rw [hmgProcess, hl]
        simp only [List.map_cons, hstep, h3]
        rw [indexOf_uniqAppend rest hv]
    · have hl : hmLookup st.map v = none := by rw [hmap, if_neg hv]
      have hstep : uniqAppend st.unique (v :: rest) = uniqAppend (st.unique ++ [v]) rest := by
        rw [uniqAppend, List.foldl_cons, if_neg hv, uniqAppend]
      have hbound2 : (uniqAppend (st.unique ++ [v]) rest).length ≤ 2 ^ 32 := by
        rw [← hstep]
        exact hbound
      have hpre : st.unique.length < 2 ^ 32 := by
        obtain ⟨w, hw⟩ := uniqAppend_suffix rest (st.unique ++ [v])
        have := hbound2
        rw [hw] at this
        simp only [List.length_append, List.length_cons, List.length_nil] at this
        omega
      have hid : hmgId st.unique.length = st.unique.length := hmgId_eq _ hpre
      have hinv' : HMGInv ⟨(v, hmgId st.unique.length) :: st.map, st.unique ++ [v]⟩ := by
        rw [hid]
        constructor
        · intro w
          by_cases hw : w = v
          · subst hw
            rw [show hmLookup ((w, st.unique.length) :: st.map) w
                = some st.unique.length by simp [hmLookup]]
            rw [if_pos (by simp)]
            rw [List.indexOf_append_of_not_mem hv]
            simp [List.indexOf_cons_self]
          · rw [show hmLookup ((v, st.unique.length) :: st.map) w
                = hmLookup st.map w by
              simp only [hmLookup]
              rw [if_neg (fun h => hw h.symm)]]
            rw [hmap w]
            by_cases hwu : w ∈ st.unique
            · rw [if_pos hwu, if_pos (List.mem_append_left _ hwu),
                List.indexOf_append_of_mem hwu]
            · rw [if_neg hwu, if_neg (by simp [hwu, hw])]
        · simp [List.nodup_append, hnd, hv]
      obtain ⟨h1, h2, h3⟩ := ih _ hinv' hbound2
      rw [hid] at h1 h2 h3
      have hidv : (uniqAppend (st.unique ++ [v]) rest).indexOf v = st.unique.length := by
        rw [indexOf_uniqAppend rest (by simp), List.indexOf_append_of_not_mem hv]
        simp [List.indexOf_cons_self]
      refine ⟨?_, ?_, ?_⟩
      · rw [hmgProcess, hl, hid]
        simpa [hstep] using h1
      · rw [hmgProcess, hl, hid]
        exact h2
      · rw [hmgProcess, hl, hid]
        simp only [List.map_cons, hstep, h3, hidv]

end LocustDB

namespace LocustDB

theorem uniqAppend_append (u x y : List Int) :
    uniqAppend (uniqAppend u x) y = uniqAppend u (x ++ y) := by
  rw [uniqAppend, uniqAppend, uniqAppend, List.foldl_append]

theorem uniqAppend_length_mono (u x y : List Int) :
    (uniqAppend u x).length ≤ (uniqAppend u (x ++ y)).length := by
  rw [← uniqAppend_append]
  obtain ⟨w, hw⟩ := uniqAppend_suffix y (uniqAppend u x)
  rw [hw]
  simp

theorem hmgRun_spec : ∀ (batches : List (List Int)) (st : HMGState), HMGInv st →
    (uniqAppend st.unique batches.flatten).length ≤ 2 ^ 32 →
    (hmgRun st batches).1.unique = uniqAppend st.unique batches.flatten ∧
    (hmgRun st batches).2.2 = (List.range batches.length).map
        (fun k => ((uniqAppend st.unique ((batches.take (k + 1)).flatten)).length : Int)) ∧
    (hmgRun st batches).2.1 = (List.range batches.length).map
        (fun k => (batches.getD k []).map
          fun v => (uniqAppend st.unique ((batches.take (k + 1)).flatten)).indexOf v) := by
  intro batches
  induction batches with
  | nil =>
    exact fun st _ _ => ⟨by simp [hmgRun, uniqAppend], by simp [hmgRun], by simp [hmgRun]⟩
  | cons batch rest ih =>
    intro st hinv hbound
    obtain ⟨p1, p2, p3⟩ := hmgProcess_spec batch st hinv
      (by
        have := uniqAppend_length_mono st.unique batch rest.flatten
        simp only [List.flatten_cons] at hbound
        omega)
    obtain ⟨q1, q2, q3⟩ := ih (hmgProcess st batch).1 p2
      (by
        rw [p1, uniqAppend_append]
        simpa using hbound)
    have hrun : hmgRun st (batch :: rest)
        = ((hmgRun (hmgProcess st batch).1 rest).1,
           (hmgProcess st batch).2 :: (hmgRun (hmgProcess st batch).1 rest).2.1,
           ((hmgProcess st batch).1.unique.length : Int)
             :: (hmgRun (hmgProcess st batch).1 rest).2.2) := rfl
    have htake1 : ((batch :: rest).take 1).flatten = batch := by simp
    refine ⟨?_, ?_, ?_⟩
    · rw [hrun]
      show (hmgRun (hmgProcess st batch).1 rest).1.unique = _
      rw [q1, p1, uniqAppend_append]
      simp
    · rw [hrun]
      show ((hmgProcess st batch).1.unique.length : Int)
            :: (hmgRun (hmgProcess st batch).1 rest).2.2 = _
      rw [q2, List.length_cons, List.range_succ_eq_map, List.map_cons, List.map_map]
      congr 1
      · rw [htake1, p1]
      · refine List.map_congr_left ?_
        intro k _
        simp only [Function.comp_apply, Nat.succ_eq_add_one]
        rw [p1, uniqAppend_append]
        simp
    · rw [hrun]
      show (hmgProcess st batch).2 :: (hmgRun (hmgProcess st batch).1 rest).2.1 = _
      rw [q3, List.length_cons, List.range_succ_eq_map, List.map_cons, List.map_map]
      congr 1
      · rw [p3]
        simp only [List.getD_cons_zero]
        refine List.map_congr_left ?_
        intro v _
        rw [htake1]
      · refine List.map_congr_left ?_
        intro k _
        simp only [Function.comp_apply, Nat.succ_eq_add_one, List.getD_cons_succ]
        refine List.map_congr_left ?_
        intro v _
        rw [p1, uniqAppend_append]
        simp

/-- C8: running any sequence of `execute` calls on a fresh `HashMapGrouping`,
with fewer than `2 ^ 32` distinct input values overall (the ids are `u32`;
`unique.len() as u32 - 1` wraps past that, panicking in debug builds):
`unique` accumulates the distinct input values in order of first appearance;
each input value's emitted grouping key is the index of that value among the
distinct values seen up to (and within) its batch — an existing value reuses
its id, a new value gets id `unique.len()` at the moment of insertion — and
after each batch the emitted cardinality equals the number of distinct values
seen so far. -/
theorem c8_hashmap_grouping_spec (batches : List (List Int))
    (hcard : (uniqAppend [] batches.flatten).length < 2 ^ 32) :
    (hmgRun HMGState.empty batches).1.unique = uniqAppend [] batches.flatten ∧
    (hmgRun HMGState.empty batches).2.2 = (List.range batches.length).map
        (fun k => ((uniqAppend [] ((batches.take (k + 1)).flatten)).length : Int)) ∧
    (hmgRun HMGState.empty batches).2.1 = (List.range batches.length).map
        (fun k => (batches.getD k []).map
          fun v => (uniqAppend [] ((batches.take (k + 1)).flatten)).indexOf v) :=
  hmgRun_spec batches HMGState.empty
    ⟨fun v => by simp [HMGState.empty, hmLookup], by simp [HMGState.empty]⟩
    (le_of_lt hcard)

theorem c8_hashmap_grouping_spec_witness :
    (hmgRun HMGState.empty [[(5 : Int), 5, 7], [7, 3]]).1.unique
        = uniqAppend [] ([[(5 : Int), 5, 7], [7, 3]].flatten) ∧
    (hmgRun HMGState.empty [[(5 : Int), 5, 7], [7, 3]]).2.2
        = (List.range ([[(5 : Int), 5, 7], [7, 3]].length)).map
            (fun k => ((uniqAppend []
              (([[(5 : Int), 5, 7], [7, 3]].take (k + 1)).flatten)).length : Int)) ∧
    (hmgRun HMGState.empty [[(5 : Int), 5, 7], [7, 3]]).2.1
        = (List.range ([[(5 : Int), 5, 7], [7, 3]].length)).map
            (fun k => (([[(5 : Int), 5, 7], [7, 3]].getD k []).map
              fun v => (uniqAppend []
                (([[(5 : Int), 5, 7], [7, 3]].take (k + 1)).flatten)).indexOf v)) :=
  c8_hashmap_grouping_spec [[(5 : Int), 5, 7], [7, 3]] (by decide)

end LocustDB

namespace LocustDB

/-- `RawVal` (`ingest/raw_val.rs`, values only; the float payload is its bit
pattern, which never matters for buffer lengths). -/
inductive RawVal : Type where
  | null : RawVal
  | vint (i : Int) : RawVal
  | vfloat (bits : Nat) : RawVal
  | vstr (s : String) : RawVal
deriving DecidableEq, Repr

/-- Modelled from the spec: `MixedCol` (`mem_store/raw_col.rs`, not among the
sources) is an "append-only heterogeneous column accumulating RawVals" whose
`len` "equals the number of logical values appended (nulls count)"; `push`
appends one value, `push_nulls n` appends `n` nulls, `push_ints` /
`push_floats` / `push_strings` append the given values, `with_nulls n` starts
with `n` nulls. -/
structure MixedCol : Type where
  vals : List RawVal
deriving DecidableEq, Repr

def MixedCol.with_nulls (n : Nat) : MixedCol := ⟨List.replicate n .null⟩

def MixedCol.push (c : MixedCol) (v : RawVal) : MixedCol := ⟨c.vals ++ [v]⟩

def MixedCol.push_nulls (c : MixedCol) (n : Nat) : MixedCol :=
  ⟨c.vals ++ List.replicate n .null⟩

def MixedCol.push_ints (c : MixedCol) (vs : List Int) : MixedCol :=
  ⟨c.vals ++ vs.map RawVal.vint⟩

def MixedCol.push_floats (c : MixedCol) (vs : List Nat) : MixedCol :=
  ⟨c.vals ++ vs.map RawVal.vfloat⟩

def MixedCol.push_strings (c : MixedCol) (vs : List String) : MixedCol :=
  ⟨c.vals ++ vs.map RawVal.vstr⟩

def MixedCol.len (c : MixedCol) : Nat := c.vals.length

/-- `InputColumn` (`ingest/input_column.rs`): the variants consumed by
`Buffer::push_typed_cols`. -/
inductive InputColumn : Type where
  | int (vs : List Int) : InputColumn
  | str (vs : List String) : InputColumn
  | float (vs : List Nat) : InputColumn
  | nullCount (n : Nat) : InputColumn
  | mixed (vs : List RawVal) : InputColumn
  | nullableFloat (c : Nat) (data : List (Nat × Nat)) : InputColumn
  | nullableInt (c : Nat) (data : List (Nat × Int)) : InputColumn
deriving DecidableEq, Repr

/-- The sparse-input loop of `push_typed_cols` for `NullableFloat` /
`NullableInt` (`buffer.rs:47-64`): for each `(i, v)` pair push `i - next_i`
nulls then the value, finally pad with nulls up to the row count `n`
(`Nat` subtraction saturating where the Rust `u64` subtraction would wrap). -/
def pushSparse (c : MixedCol) (n : Nat) (data : List (Nat × RawVal)) : MixedCol :=
  let st := data.foldl (fun (st : MixedCol × Nat) p =>
      ((st.1.push_nulls (p.1 - st.2)).push p.2, p.1 + 1)) (c, 0)
  st.1.push_nulls (n - st.2)

/-- Dispatch of `push_typed_cols` on the `InputColumn` variant
(`buffer.rs:37-65`). -/
def applyInput (ic : InputColumn) (c : MixedCol) : MixedCol :=
  match ic with
  | .int vs => c.push_ints vs
  | .str vs => c.push_strings vs
  | .float vs => c.push_floats vs
  | .nullCount n => c.push_nulls n
  | .mixed vs => vs.foldl MixedCol.push c
  | .nullableFloat n data => pushSparse c n (data.map fun p => (p.1, RawVal.vfloat p.2))
  | .nullableInt n data => pushSparse c n (data.map fun p => (p.1, RawVal.vint p.2))

/-- `HashMap::entry(name).or_insert_with(default)` followed by an in-place
update `f` (the hash map is modelled as an association list); returns the
updated map and the updated column (whose `len` the caller reads). -/
def upsert : List (String × MixedCol) → String → MixedCol → (MixedCol → MixedCol) →
    List (String × MixedCol) × MixedCol
  | [], name, init, f => ([(name, f init)], f init)
  | (n, c) :: rest, name, init, f =>
    if n = name then ((n, f c) :: rest, f c)
    else
      let r := upsert rest name init f
      ((n, c) :: r.1, r.2)

/-- `Buffer` (`ingest/buffer.rs:9-13`): column name → `MixedCol`, plus the row
count `length`. -/
structure Buffer : Type where
  buffer : List (String × MixedCol)
  length : Nat
deriving DecidableEq, Repr

def Buffer.empty : Buffer := ⟨[], 0⟩

/-- `Buffer::extend_to_largest` (`buffer.rs:89-97`): pad every column shorter
than `self.length` with nulls up to `self.length`. -/
def Buffer.extend_to_largest (b : Buffer) : Buffer :=
  { b with buffer := b.buffer.map fun p =>
      if p.2.len < b.length then (p.1, p.2.push_nulls (b.length - p.2.len)) else p }

/-- `Buffer::push_row` (`buffer.rs:16-27`): upsert each `(name, value)` of the
row (new columns start as `len` nulls), push the value, then increment
`length` and extend. -/
def Buffer.push_row (b : Buffer) (row : List (String × RawVal)) : Buffer :=
  let len := b.length
  let cols := row.foldl
    (fun cols p => (upsert cols p.1 (MixedCol.with_nulls len) (fun c => c.push p.2)).1)
    b.buffer
  Buffer.extend_to_largest { buffer := cols, length := b.length + 1 }

/-- `Buffer::push_typed_cols` (`buffer.rs:29-70`): upsert each input column,
tracking `new_length = max(new_length, buffered_col.len())` starting from 0,
then set `length = new_length` and extend. -/
def Buffer.push_typed_cols (b : Buffer) (columns : List (String × InputColumn)) : Buffer :=
  let len := b.length
  let st := columns.foldl
    (fun (st : List (String × MixedCol) × Nat) p =>
      ((upsert st.1 p.1 (MixedCol.with_nulls len) (applyInput p.2)).1,
        max st.2 (upsert st.1 p.1 (MixedCol.with_nulls len) (applyInput p.2)).2.len))
    (b.buffer, 0)
  Buffer.extend_to_largest { buffer := st.1, length := st.2 }

/-- `Buffer::push_untyped_cols` (`buffer.rs:72-87`): like `push_typed_cols`
with each value vector pushed value by value. -/
def Buffer.push_untyped_cols (b : Buffer) (columns : List (String × List RawVal)) : Buffer :=
  let len := b.length
  let st := columns.foldl
    (fun (st : List (String × MixedCol) × Nat) p =>
      ((upsert st.1 p.1 (MixedCol.with_nulls len) (fun c => p.2.foldl MixedCol.push c)).1,
        max st.2 (upsert st.1 p.1 (MixedCol.with_nulls len)
          (fun c => p.2.foldl MixedCol.push c)).2.len))
    (b.buffer, 0)
  Buffer.extend_to_largest { buffer := st.1, length := st.2 }

/-- The C4 invariant: every present column has length `buffer.length`, and
(when columns are present) `buffer.length` is the maximum column length. -/
def Buffer.Inv (b : Buffer) : Prop :=
  (∀ p ∈ b.buffer, p.2.len = b.length) ∧
  (b.buffer ≠ [] → b.length = (b.buffer.map fun p => p.2.len).foldr max 0)

end LocustDB

namespace LocustDB

theorem MixedCol.len_push (c : MixedCol) (v : RawVal) : (c.push v).len = c.len + 1 := by
  simp [MixedCol.push, MixedCol.len]

theorem MixedCol.len_push_nulls (c : MixedCol) (n : Nat) :
    (c.push_nulls n).len = c.len + n := by
  simp [MixedCol.push_nulls, MixedCol.len]

theorem MixedCol.len_with_nulls (n : Nat) : (MixedCol.with_nulls n).len = n := by
  simp [MixedCol.with_nulls, MixedCol.len]

theorem len_foldl_push : ∀ (vs : List RawVal) (c : MixedCol),
    (vs.foldl MixedCol.push c).len = c.len + vs.length := by
  intro vs
  induction vs with
  | nil => simp
  | cons v vs ih =>
    intro c
    rw [List.foldl_cons, ih, MixedCol.len_push, List.length_cons]
    omega

theorem len_pushSparse_ge (c : MixedCol) (n : Nat) (data : List (Nat × RawVal)) :
    c.len ≤ (pushSparse c n data).len := by
  have hfold : ∀ (d : List (Nat × RawVal)) (st : MixedCol × Nat),
      st.1.len ≤ (d.foldl (fun (st : MixedCol × Nat) p =>
        ((st.1.push_nulls (p.1 - st.2)).push p.2, p.1 + 1)) st).1.len := by
    intro d
    induction d with
    | nil => intro st; exact le_refl _
    | cons p d ih =>
      intro st
      refine le_trans ?_ (ih _)
      simp only [MixedCol.len_push, MixedCol.len_push_nulls]
      omega
  rw [pushSparse]
  refine le_trans (hfold data (c, 0)) ?_
  rw [MixedCol.len_push_nulls]
  omega

theorem len_applyInput_ge (ic : InputColumn) (c : MixedCol) :
    c.len ≤ (applyInput ic c).len := by
  cases ic with
  | int vs => simp [applyInput, MixedCol.push_ints, MixedCol.len]
  | str vs => simp [applyInput, MixedCol.push_strings, MixedCol.len]
  | float vs => simp [applyInput, MixedCol.push_floats, MixedCol.len]
  | nullCount n => simp [applyInput, MixedCol.len_push_nulls]
  | mixed vs => rw [applyInput, len_foldl_push]; omega
  | nullableFloat n data => exact len_pushSparse_ge c n _
  | nullableInt n data => exact len_pushSparse_ge c n _

theorem upsert_mem (name : String) (init : MixedCol) (f : MixedCol → MixedCol) :
    ∀ (cols : List (String × MixedCol)) (p : String × MixedCol),
      p ∈ (upsert cols name init f).1 →
      p ∈ cols ∨ p = (name, (upsert cols name init f).2) := by
  intro cols
  induction cols with
  | nil =>
    intro p hp
    simp [upsert] at hp
    simp [upsert, hp]
  | cons q rest ih =>
    intro p hp
    obtain ⟨n, c⟩ := q
    by_cases h : n = name
    · rw [upsert, if_pos h] at hp ⊢
      rcases List.mem_cons.mp hp with h1 | h1
      · subst h; exact Or.inr (by simp [h1])
      · exact Or.inl (List.mem_cons_of_mem _ h1)
    · rw [upsert, if_neg h] at hp ⊢
      rcases List.mem_cons.mp hp with h1 | h1
      · exact Or.inl (by simp [h1])
      · rcases ih p h1 with h2 | h2
        · exact Or.inl (List.mem_cons_of_mem _ h2)
        · exact Or.inr h2

theorem upsert_snd_spec {P : MixedCol → Prop} (name : String) (init : MixedCol)
    (f : MixedCol → MixedCol) :
    ∀ (cols : List (String × MixedCol)),
      (∀ c, (name, c) ∈ cols → P (f c)) → P (f init) →
      P ((upsert cols name init f).2) := by
  intro cols
  induction cols with
  | nil => intro _ hinit; simpa [upsert] using hinit
  | cons q rest ih =>
    intro hall hinit
    obtain ⟨n, c⟩ := q
    by_cases h : n = name
    · rw [upsert, if_pos h]
      exact hall c (by rw [← h]; exact List.mem_cons_self _ _)
    · rw [upsert, if_neg h]
      exact ih (fun c' hc' => hall c' (List.mem_cons_of_mem _ hc')) hinit

end LocustDB

namespace LocustDB

theorem foldr_max_const (L : Nat) :
    ∀ l : List Nat, (∀ x ∈ l, x = L) → l ≠ [] → l.foldr max 0 = L := by
  intro l
  induction l with
  | nil => intro _ h; exact absurd rfl h
  | cons x rest ih =>
    intro hall _
    rcases rest with _ | ⟨y, rest⟩
    · simp [hall x (by simp)]
    · rw [List.foldr_cons, ih (fun z hz => hall z (List.mem_cons_of_mem _ hz)) (by simp),
        hall x (by simp)]
      simp

theorem extend_to_largest_inv (b : Buffer)
    (h : ∀ p ∈ b.buffer, p.2.len ≤ b.length) : b.extend_to_largest.Inv := by
  have hall : ∀ p ∈ b.extend_to_largest.buffer, p.2.len = b.length := by
    intro p hp
    rw [Buffer.extend_to_largest] at hp
    simp only [List.mem_map] at hp
    obtain ⟨q, hq, hpq⟩ := hp
    by_cases hlt : q.2.len < b.length
    · rw [if_pos hlt] at hpq
      rw [← hpq]
      simp only [MixedCol.len_push_nulls]
      omega
    · rw [if_neg hlt] at hpq
      rw [← hpq]
      have := h q hq
      omega
  constructor
  · intro p hp
    exact hall p hp
  · intro hne
    rw [show b.extend_to_largest.length = b.length from rfl]
    rw [eq_comm]
    refine foldr_max_const _ _ ?_ (by simpa using hne)
    intro x hx
    simp only [List.mem_map] at hx
    obtain ⟨p, hp, hxp⟩ := hx
    rw [← hxp]
    exact hall p hp

theorem row_fold (L : Nat) (w : RawVal → MixedCol → MixedCol)
    (hw : ∀ v c, (w v c).len = c.len + 1) :
    ∀ (row : List (String × RawVal)) (cols : List (String × MixedCol)),
      (row.map Prod.fst).Nodup →
      (∀ p ∈ cols, p.2.len = L ∨ (p.2.len = L + 1 ∧ p.1 ∉ row.map Prod.fst)) →
      ∀ p ∈ row.foldl
          (fun cols q => (upsert cols q.1 (MixedCol.with_nulls L) (w q.2)).1) cols,
        p.2.len = L ∨ p.2.len = L + 1 := by
  intro row
  induction row with
  | nil =>
    intro cols _ hinv p hp
    rcases hinv p hp with h | h
    · exact Or.inl h
    · exact Or.inr h.1
  | cons q rest ih =>
    intro cols hnd hinv
    rw [List.foldl_cons]
    have hnd' : (rest.map Prod.fst).Nodup := by
      rw [List.map_cons, List.nodup_cons] at hnd
      exact hnd.2
    have hq : q.1 ∉ rest.map Prod.fst := by
      rw [List.map_cons, List.nodup_cons] at hnd
      exact hnd.1
    refine ih _ hnd' ?_
    intro p hp
    rcases upsert_mem q.1 (MixedCol.with_nulls L) (w q.2) cols p hp with h | h
    · rcases hinv p h with h1 | h1
      · exact Or.inl h1
      · refine Or.inr ⟨h1.1, ?_⟩
        intro hmem
        exact h1.2 (by simp [List.mem_cons.mpr (Or.inr hmem)])
    · have hP : ∀ c, (q.1, c) ∈ cols → ((w q.2) c).len = L + 1 ∧ q.1 ∉ rest.map Prod.fst := by
        intro c hc
        rcases hinv (q.1, c) hc with h1 | h1
        · exact ⟨by rw [hw]; rw [h1], hq⟩
        · exact absurd (by simp : q.1 ∈ (q :: rest).map Prod.fst) (by simpa using h1.2)
      have hlen := @upsert_snd_spec (fun c => c.len = L + 1) q.1
        (MixedCol.with_nulls L) (w q.2) cols (fun c hc => (hP c hc).1)
        (by show (w q.2 (MixedCol.with_nulls L)).len = L + 1
            rw [hw, MixedCol.len_with_nulls])
      rw [h]
      refine Or.inr ⟨by simpa using hlen, by simpa using hq⟩

end LocustDB

namespace LocustDB

theorem grow_fold {IC : Type} (apply : IC → MixedCol → MixedCol)
    (happly : ∀ ic c, c.len ≤ (apply ic c).len) (L : Nat) :
    ∀ (inputs : List (String × IC)) (cols : List (String × MixedCol)) (m : Nat),
      (inputs.map Prod.fst).Nodup →
      (∀ p ∈ cols, p.2.len = L ∨ (L ≤ p.2.len ∧ p.2.len ≤ m ∧ p.1 ∉ inputs.map Prod.fst)) →
      (∀ p ∈ (inputs.foldl (fun (st : List (String × MixedCol) × Nat) p =>
            ((upsert st.1 p.1 (MixedCol.with_nulls L) (apply p.2)).1,
              max st.2 (upsert st.1 p.1 (MixedCol.with_nulls L) (apply p.2)).2.len))
            (cols, m)).1,
          p.2.len = L ∨ (L ≤ p.2.len ∧
            p.2.len ≤ (inputs.foldl (fun (st : List (String × MixedCol) × Nat) p =>
              ((upsert st.1 p.1 (MixedCol.with_nulls L) (apply p.2)).1,
                max st.2 (upsert st.1 p.1 (MixedCol.with_nulls L) (apply p.2)).2.len))
              (cols, m)).2)) ∧
      m ≤ (inputs.foldl (fun (st : List (String × MixedCol) × Nat) p =>
            ((upsert st.1 p.1 (MixedCol.with_nulls L) (apply p.2)).1,
              max st.2 (upsert st.1 p.1 (MixedCol.with_nulls L) (apply p.2)).2.len))
            (cols, m)).2 ∧
      (inputs ≠ [] →
        L ≤ (inputs.foldl (fun (st : List (String × MixedCol) × Nat) p =>
            ((upsert st.1 p.1 (MixedCol.with_nulls L) (apply p.2)).1,
              max st.2 (upsert st.1 p.1 (MixedCol.with_nulls L) (apply p.2)).2.len))
            (cols, m)).2) := by
  intro inputs
  induction inputs with
  | nil =>
    intro cols m _ hinv
    refine ⟨?_, le_refl _, fun h => absurd rfl h⟩
    intro p hp
    rcases hinv p hp with h | h
    · exact Or.inl h
    · exact Or.inr ⟨h.1, h.2.1⟩
  | cons q rest ih =>
    intro cols m hnd hinv
    have hnd' : (rest.map Prod.fst).Nodup := by
      rw [List.map_cons, List.nodup_cons] at hnd
      exact hnd.2
    have hq : q.1 ∉ rest.map Prod.fst := by
      rw [List.map_cons, List.nodup_cons] at hnd
      exact hnd.1
    rw [List.foldl_cons]
    have hL2 : L ≤ (upsert cols q.1 (MixedCol.with_nulls L) (apply q.2)).2.len := by
      refine @upsert_snd_spec (fun c => L ≤ c.len) q.1 (MixedCol.with_nulls L)
        (apply q.2) cols ?_ ?_
      · intro c hc
        rcases hinv (q.1, c) hc with h1 | h1
        · show L ≤ (apply q.2 c).len
          have h1' : c.len = L := h1
          rw [← h1']
          exact happly q.2 c
        · exact absurd (by simp : q.1 ∈ (q :: rest).map Prod.fst) (by simpa using h1.2.2)
      · show L ≤ (apply q.2 (MixedCol.with_nulls L)).len
        have := happly q.2 (MixedCol.with_nulls L)
        rw [MixedCol.len_with_nulls] at this
        exact this
    have hstep : ∀ p ∈ (upsert cols q.1 (MixedCol.with_nulls L) (apply q.2)).1,
        p.2.len = L ∨ (L ≤ p.2.len ∧
          p.2.len ≤ max m (upsert cols q.1 (MixedCol.with_nulls L) (apply q.2)).2.len ∧
          p.1 ∉ rest.map Prod.fst) := by
      intro p hp
      rcases upsert_mem q.1 (MixedCol.with_nulls L) (apply q.2) cols p hp with h | h
      · rcases hinv p h with h1 | h1
        · exact Or.inl h1
        · refine Or.inr ⟨h1.1, le_trans h1.2.1 (le_max_left _ _), ?_⟩
          intro hmem
          exact h1.2.2 (by simp [List.mem_cons.mpr (Or.inr hmem)])
      · rw [h]
        exact Or.inr ⟨hL2, le_max_right _ _, by simpa using hq⟩
    obtain ⟨g1, g2, g3⟩ := ih (upsert cols q.1 (MixedCol.with_nulls L) (apply q.2)).1
      (max m (upsert cols q.1 (MixedCol.with_nulls L) (apply q.2)).2.len) hnd' hstep
    refine ⟨g1, le_trans (le_max_left _ _) g2, fun _ => le_trans ?_ g2⟩
    exact le_trans hL2 (le_max_right _ _)

end LocustDB

namespace LocustDB

/-- C4 (amended): starting from any buffer satisfying the invariant,
`push_row` preserves it for every row whose column names are distinct, and
`push_typed_cols` / `push_untyped_cols` preserve it for every nonempty column
map (map keys are distinct by construction): afterwards every present column
has length `buffer.length`, which is the maximum column length. -/
theorem Buffer.length_mk (cols : List (String × MixedCol)) (L : Nat) :
    (Buffer.mk cols L).length = L := rfl

theorem c4_buffer_invariant (b : Buffer) (hb : b.Inv) :
    (∀ row : List (String × RawVal), (row.map Prod.fst).Nodup → (b.push_row row).Inv) ∧
    (∀ cols : List (String × InputColumn), cols ≠ [] → (cols.map Prod.fst).Nodup →
      (b.push_typed_cols cols).Inv) ∧
    (∀ cols : List (String × List RawVal), cols ≠ [] → (cols.map Prod.fst).Nodup →
      (b.push_untyped_cols cols).Inv) := by
  refine ⟨?_, ?_, ?_⟩
  · intro row hnd
    refine extend_to_largest_inv _ ?_
    intro p hp
    have := row_fold b.length (fun v c => c.push v) (fun v c => MixedCol.len_push c v)
      row b.buffer hnd (fun p hp => Or.inl (hb.1 p hp)) p hp
    simp only [Buffer.length_mk]
    omega
  · intro cols hne hnd
    refine extend_to_largest_inv _ ?_
    intro p hp
    obtain ⟨g1, _, g3⟩ := grow_fold applyInput len_applyInput_ge b.length cols b.buffer 0
      hnd (fun p hp => Or.inl (hb.1 p hp))
    have hL := g3 hne
    simp only [Buffer.length_mk]
    rcases g1 p hp with h | h
    · omega
    · exact h.2
  · intro cols hne hnd
    refine extend_to_largest_inv _ ?_
    intro p hp
    obtain ⟨g1, _, g3⟩ := grow_fold (fun vs c => vs.foldl MixedCol.push c)
      (fun vs c => by rw [len_foldl_push]; omega) b.length cols b.buffer 0
      hnd (fun p hp => Or.inl (hb.1 p hp))
    have hL := g3 hne
    simp only [Buffer.length_mk]
    rcases g1 p hp with h | h
    · omega
    · exact h.2

theorem c4_buffer_invariant_witness :
    Buffer.empty.Inv ∧
    (Buffer.empty.push_row [("a", RawVal.vint 1), ("b", RawVal.vint 2)]).Inv ∧
    (Buffer.empty.push_typed_cols [("a", InputColumn.int [1, 2])]).Inv ∧
    (Buffer.empty.push_untyped_cols [("a", [RawVal.vint 1])]).Inv := by
  have hemp : Buffer.empty.Inv := ⟨by simp [Buffer.empty], by simp [Buffer.empty]⟩
  exact ⟨hemp,
    (c4_buffer_invariant Buffer.empty hemp).1 [("a", RawVal.vint 1), ("b", RawVal.vint 2)]
      (by decide),
    (c4_buffer_invariant Buffer.empty hemp).2.1 [("a", InputColumn.int [1, 2])]
      (by decide) (by decide),
    (c4_buffer_invariant Buffer.empty hemp).2.2 [("a", [RawVal.vint 1])]
      (by decide) (by decide)⟩

/-- C4 counterexample: the claim quantifies over all inputs, but (i) a row
repeating a column name pushes that column twice while `length` grows by one,
and (ii) `push_typed_cols` / `push_untyped_cols` with an empty column map
reset `length` to 0 while existing columns keep their data: in both cases a
present column's length differs from `buffer.length`. -/
theorem c4_claim_counterexample :
    (¬ ∀ p ∈ (Buffer.empty.push_row [("a", RawVal.vint 1), ("a", RawVal.vint 2)]).buffer,
        p.2.len = (Buffer.empty.push_row [("a", RawVal.vint 1), ("a", RawVal.vint 2)]).length) ∧
    (¬ ∀ p ∈ ((Buffer.empty.push_row [("a", RawVal.vint 1)]).push_typed_cols []).buffer,
        p.2.len = ((Buffer.empty.push_row [("a", RawVal.vint 1)]).push_typed_cols []).length) ∧
    (¬ ∀ p ∈ ((Buffer.empty.push_row [("a", RawVal.vint 1)]).push_untyped_cols []).buffer,
        p.2.len = ((Buffer.empty.push_row [("a", RawVal.vint 1)]).push_untyped_cols []).length) := by
  decide

end LocustDB

namespace LocustDB

/-- A column as seen by `subpartition` (`inner_locustdb.rs:698`): its name and
its `heap_size_of_children()` in bytes. -/
structure SubCol : Type where
  name : String
  size : Nat
deriving DecidableEq, Repr

/-- `PartitionBuilder` (`inner_locustdb.rs:690-696`). -/
structure PartitionBuilder : Type where
  subpartition_metadata : List (List String × Nat)
  subpartitions : List (List SubCol)
  subpartition : List SubCol
  bytes : Nat
deriving DecidableEq, Repr

/-- `create_subpartition` (`inner_locustdb.rs:703-713`): record the current
group's column names and byte total, seal the group, reset the accumulator. -/
def create_subpartition (acc : PartitionBuilder) : PartitionBuilder :=
  { subpartition_metadata :=
      acc.subpartition_metadata ++ [(acc.subpartition.map (fun c => c.name), acc.bytes)],
    subpartitions := acc.subpartitions ++ [acc.subpartition],
    subpartition := [],
    bytes := 0 }

/-- The greedy packing loop of `subpartition` (`inner_locustdb.rs:715-723`):
seal the current group whenever adding the next column would exceed
`max_partition_size_bytes`, then always append the column. -/
def subpartitionStep (maxBytes : Nat) (acc : PartitionBuilder) (column : SubCol) :
    PartitionBuilder :=
  if acc.bytes + column.size > maxBytes then
    { subpartition_metadata := (create_subpartition acc).subpartition_metadata,
      subpartitions := (create_subpartition acc).subpartitions,
      subpartition := (create_subpartition acc).subpartition ++ [column],
      bytes := (create_subpartition acc).bytes + column.size }
  else
    { acc with subpartition := acc.subpartition ++ [column],
               bytes := acc.bytes + column.size }

/-- The accumulator after `subpartition`'s loop plus the final
`create_subpartition` call (`inner_locustdb.rs:715-723`). -/
def subpartitionBuild (maxBytes : Nat) (columns : List SubCol) : PartitionBuilder :=
  create_subpartition (columns.foldl (subpartitionStep maxBytes) ⟨[], [], [], 0⟩)

/-- The character test of `is_column_name_filesystem_safe`
(`inner_locustdb.rs:735-738`): Rust's `(c.is_alphanumeric() &&
c.is_lowercase()) || c == '_'`, modelled on its ASCII fragment, where it
accepts exactly lowercase letters and underscore (an ASCII digit is
alphanumeric but not lowercase, so digits are rejected). -/
def charSafe (c : Char) : Bool := ('a' ≤ c && c ≤ 'z') || c == '_'

/-- `is_column_name_filesystem_safe`: byte length at most 64 (equal to char
count on the modelled ASCII fragment) and all characters safe; note an empty
name passes. -/
def nameSafe (s : String) : Bool := s.length ≤ 64 && s.toList.all charSafe

/-- The claim's regex `^[a-z0-9_]{1,64}$`. -/
def regexSafe (s : String) : Bool :=
  1 ≤ s.length && s.length ≤ 64 &&
    s.toList.all fun c => ('a' ≤ c && c ≤ 'z') || ('0' ≤ c && c ≤ '9') || c == '_'

/-- The key of one subpartition in the multi-subpartition case
(`inner_locustdb.rs:733-749`): `"x" ++ name` for a single safely-named column,
otherwise the hash (SHA-256 in the source, an external crate, abstracted as
`hash`) of the concatenated column names; `none` models the
`.next().unwrap()` panic on an empty name list. -/
def subpartitionKey (hash : String → String) (names : List String × Nat) : Option String :=
  match names.1 with
  | [] => none
  | first :: _ =>
    some (if names.1.length = 1 && nameSafe first then "x" ++ first
          else hash (String.join names.1))

/-- The subpartition keys produced by `subpartition` (`inner_locustdb.rs:725-757`):
`["all"]` when exactly one subpartition results, otherwise one key per
subpartition metadata entry. -/
def subpartitionKeys (hash : String → String) (maxBytes : Nat)
    (columns : List SubCol) : Option (List String) :=
  let acc := subpartitionBuild maxBytes columns
  if acc.subpartitions.length = 1 then some ["all"]
  else acc.subpartition_metadata.mapM (subpartitionKey hash)

/-- The amended claim's keying rule for one group of column names. -/
def amendedKey (hash : String → String) (names : List String) : String :=
  if names.length = 1 && nameSafe names.headI then "x" ++ names.headI
  else hash (String.join names)

end LocustDB

namespace LocustDB

theorem build_fold_inv (maxBytes : Nat) :
    ∀ (cols : List SubCol) (acc : PartitionBuilder),
      (∀ c ∈ cols, c.size ≤ maxBytes) →
      (∀ m ∈ acc.subpartition_metadata, m.1 ≠ []) →
      (acc.subpartition = [] → acc.bytes = 0) →
      (∀ m ∈ (cols.foldl (subpartitionStep maxBytes) acc).subpartition_metadata, m.1 ≠ []) ∧
      ((cols.foldl (subpartitionStep maxBytes) acc).subpartition = []
        → cols = [] ∧ acc.subpartition = []) := by
  intro cols
  induction cols with
  | nil => exact fun acc _ hmeta hempty => ⟨hmeta, fun h => ⟨rfl, h⟩⟩
  | cons col rest ih =>
    intro acc hsize hmeta hempty
    rw [List.foldl_cons]
    by_cases hover : acc.bytes + col.size > maxBytes
    · have hne : acc.subpartition ≠ [] := by
        intro h
        have h0 := hempty h
        have h1 := hsize col (by simp)
        omega
      have hmeta' : ∀ m ∈ (create_subpartition acc).subpartition_metadata, m.1 ≠ [] := by
        intro m hm
        rw [create_subpartition] at hm
        rcases List.mem_append.mp hm with h | h
        · exact hmeta m h
        · have hmm : m = (acc.subpartition.map (fun c => c.name), acc.bytes) := by simpa using h
          rw [hmm]
          simpa using hne
      rw [show subpartitionStep maxBytes acc col
          = { subpartition_metadata := (create_subpartition acc).subpartition_metadata,
              subpartitions := (create_subpartition acc).subpartitions,
              subpartition := (create_subpartition acc).subpartition ++ [col],
              bytes := (create_subpartition acc).bytes + col.size }
          by rw [subpartitionStep, if_pos hover]]
      have hstep := ih
        { subpartition_metadata := (create_subpartition acc).subpartition_metadata,
          subpartitions := (create_subpartition acc).subpartitions,
          subpartition := (create_subpartition acc).subpartition ++ [col],
          bytes := (create_subpartition acc).bytes + col.size }
        (fun c hc => hsize c (List.mem_cons_of_mem _ hc)) hmeta' (by simp)
      refine ⟨hstep.1, fun h => absurd (hstep.2 h).2 (by simp)⟩
    · rw [show subpartitionStep maxBytes acc col
          = { acc with subpartition := acc.subpartition ++ [col],
                       bytes := acc.bytes + col.size }
          by rw [subpartitionStep, if_neg hover]]
      have hstep := ih
        { acc with subpartition := acc.subpartition ++ [col],
                   bytes := acc.bytes + col.size }
        (fun c hc => hsize c (List.mem_cons_of_mem _ hc)) hmeta (by simp)
      refine ⟨hstep.1, fun h => absurd (hstep.2 h).2 (by simp)⟩

theorem mapM_subpartitionKey (hash : String → String) :
    ∀ (l : List (List String × Nat)), (∀ m ∈ l, m.1 ≠ []) →
      l.mapM (subpartitionKey hash) = some (l.map fun m => amendedKey hash m.1) := by
  intro l
  induction l with
  | nil => intro _; rfl
  | cons m rest ih =>
    intro hall
    rcases hm : m.1 with _ | ⟨first, others⟩
    · exact absurd hm (hall m (by simp))
    · rw [List.mapM_cons, subpartitionKey, hm,
        ih (fun x hx => hall x (List.mem_cons_of_mem _ hx))]
      simp only [Option.pure_def, Option.bind_eq_bind, Option.some_bind]
      simp [amendedKey, hm]

/-- C6 (amended): when subpartitioning columns whose individual sizes are at
most `max_partition_size_bytes`: if exactly one subpartition results its key
is `"all"`; otherwise each subpartition consisting of a single column whose
name is at most 64 characters, all lowercase ASCII letters or underscores
(digits are *not* accepted, and the empty name *is*), gets key
`"x" ++ column_name`, and every other subpartition gets the hash (SHA-256 in
the source) of its concatenated column names. -/
theorem c6_subpartition_keys (hash : String → String) (maxBytes : Nat)
    (columns : List SubCol) (hsize : ∀ c ∈ columns, c.size ≤ maxBytes) :
    subpartitionKeys hash maxBytes columns = some (
      if (subpartitionBuild maxBytes columns).subpartitions.length = 1 then ["all"]
      else (subpartitionBuild maxBytes columns).subpartition_metadata.map
        fun m => amendedKey hash m.1) := by
  rw [subpartitionKeys]
  by_cases hone : (subpartitionBuild maxBytes columns).subpartitions.length = 1
  · rw [if_pos hone, if_pos hone]
  · rw [if_neg hone, if_neg hone]
    obtain ⟨hmeta, hlast⟩ := build_fold_inv maxBytes columns ⟨[], [], [], 0⟩ hsize
      (by simp) (by simp)
    have hcols : columns ≠ [] := by
      intro h
      subst h
      exact hone rfl
    refine mapM_subpartitionKey hash _ ?_
    intro m hm
    rw [subpartitionBuild, create_subpartition] at hm
    simp only [List.mem_append] at hm
    rcases hm with h | h
    · exact hmeta m h
    · have hm2 : m = ((columns.foldl (subpartitionStep maxBytes)
            ⟨[], [], [], 0⟩).subpartition.map (fun c => c.name),
          (columns.foldl (subpartitionStep maxBytes) ⟨[], [], [], 0⟩).bytes) := by
        simpa using h
      rw [hm2]
      simp only [ne_eq, List.map_eq_nil_iff]
      intro hnil
      exact hcols (hlast hnil).1

theorem c6_subpartition_keys_witness :
    (∀ c ∈ [SubCol.mk "a" 8, SubCol.mk "b" 8], c.size ≤ 10) ∧
    subpartitionKeys (fun _ => "h") 10 [SubCol.mk "a" 8, SubCol.mk "b" 8] = some (
      if (subpartitionBuild 10 [SubCol.mk "a" 8, SubCol.mk "b" 8]).subpartitions.length = 1
      then ["all"]
      else (subpartitionBuild 10 [SubCol.mk "a" 8, SubCol.mk "b" 8]).subpartition_metadata.map
        fun m => amendedKey (fun _ => "h") m.1) :=
  ⟨by decide, c6_subpartition_keys (fun _ => "h") 10 [SubCol.mk "a" 8, SubCol.mk "b" 8]
    (by decide)⟩

/-- C6 counterexample: the claim requires `"x" ++ name` whenever the single
column's name matches `^[a-z0-9_]{1,64}$`, but the code's character test
`c.is_alphanumeric() && c.is_lowercase()` rejects digits (a digit is not
lowercase), so the single-column subpartition named `"a0"` — which matches the
regex — is keyed by the hash of its name instead of `"xa0"`. -/
theorem c6_claim_counterexample :
    regexSafe "a0" = true ∧
    subpartitionKeys (fun _ => "h") 10 [SubCol.mk "a0" 8, SubCol.mk "b" 8]
      = some ["h", "xb"] ∧
    ("h" : String) ≠ "xa0" := by decide

end LocustDB

namespace LocustDB

/-- `Premerge` (`batch_merging.rs:58-63`): one group of a hierarchical merge —
a run of equal leading-key values on each side.  The source stores the counts
as `u32` (`partition.left += 1` and `(i - i_start) as u32`), so every count a
phase emits is taken `% 2 ^ 32` at the emission point; the fields are `Nat`
carrying the wrapped value. -/
structure Premerge : Type where
  left : Nat
  right : Nat
deriving DecidableEq, Repr

/-- The inner run-counting loops of `partition` / `subpartition`
(`batch_merging.rs:308-315,357-364`): count the leading elements equal to
`elem` and return the count and the remainder. -/
def countRun {α : Type} [DecidableEq α] (elem : α) : List α → Nat × List α
  | [] => (0, [])
  | y :: rest =>
    if elem = y then ((countRun elem rest).1 + 1, (countRun elem rest).2)
    else (0, y :: rest)

/-- `let elem = if left[i] <= right[j] { left[i] } else { right[j] }`
(`batch_merging.rs:307,356`). -/
def pickElem {α : Type} (le : α → α → Bool) (x y : α) : α :=
  if le x y then x else y

theorem countRun_conserve {α : Type} [DecidableEq α] (elem : α) :
    ∀ l : List α, (countRun elem l).1 + (countRun elem l).2.length = l.length := by
  intro l
  induction l with
  | nil => rfl
  | cons y rest ih =>
    by_cases h : elem = y
    · rw [countRun, if_pos h]
      simp only [List.length_cons]
      omega
    · rw [countRun, if_neg h]
      simp

theorem countRun_cons_self_pos {α : Type} [DecidableEq α] (x : α) (l : List α) :
    1 ≤ (countRun x (x :: l)).1 := by
  rw [countRun, if_pos rfl]
  omega

theorem countRun_pick_pos {α : Type} [DecidableEq α] (le : α → α → Bool) (x y : α)
    (a b : List α) :
    1 ≤ (countRun (pickElem le x y) (x :: a)).1
      + (countRun (pickElem le x y) (y :: b)).1 := by
  rw [pickElem]
  by_cases h : le x y
  · rw [if_pos h]
    have := countRun_cons_self_pos x a
    omega
  · rw [if_neg h]
    have := countRun_cons_self_pos y b
    omega

/-- Main loop of `partition` (`batch_merging.rs:305-317`): while both sides
are nonempty and `i + j < limit`, pick `elem` as the smaller head, count its
run on both sides, emit a `Premerge`.  Returns the emitted groups, the two
remainders and the final `i`, `j`. -/
def partPhase1 {α : Type} [DecidableEq α] (le : α → α → Bool) (limit : Nat) :
    List α → List α → Nat → Nat → List Premerge × List α × List α × Nat × Nat
  | x :: a, y :: b, i, j =>
    if i + j < limit then
      let pr := partPhase1 le limit
        (countRun (pickElem le x y) (x :: a)).2 (countRun (pickElem le x y) (y :: b)).2
        (i + (countRun (pickElem le x y) (x :: a)).1)
        (j + (countRun (pickElem le x y) (y :: b)).1)
      (⟨(countRun (pickElem le x y) (x :: a)).1 % 2 ^ 32,
        (countRun (pickElem le x y) (y :: b)).1 % 2 ^ 32⟩ :: pr.1, pr.2)
    else ([], x :: a, y :: b, i, j)
  | a, b, i, j => ([], a, b, i, j)
termination_by l r _ _ => l.length + r.length
decreasing_by
  have h1 := countRun_conserve (pickElem le x y) (x :: a)
  have h2 := countRun_conserve (pickElem le x y) (y :: b)
  have h3 := countRun_pick_pos le x y a b
  simp only [List.length_cons] at h1 h2 ⊢
  omega

/-- Left-remainder loop of `partition` (`batch_merging.rs:320-327`): emit one
`Premerge` per run of the remaining left elements while `i + j < limit`.
Returns the groups and the final `i`. -/
def partPhase2 {α : Type} [DecidableEq α] (limit : Nat) :
    List α → Nat → Nat → List Premerge × Nat
  | [], i, _ => ([], i)
  | x :: a, i, j =>
    if i + j < limit then
      let pr := partPhase2 limit (countRun x (x :: a)).2 (i + (countRun x (x :: a)).1) j
      (⟨(countRun x (x :: a)).1 % 2 ^ 32, 0⟩ :: pr.1, pr.2)
    else ([], i)
termination_by l _ _ => l.length
decreasing_by
  have h1 := countRun_conserve x (x :: a)
  have h2 := countRun_cons_self_pos x a
  simp only [List.length_cons] at h1 ⊢
  omega

/-- Right-remainder loop of `partition` (`batch_merging.rs:330-337`). -/
def partPhase3 {α : Type} [DecidableEq α] (limit : Nat) :
    List α → Nat → Nat → List Premerge
  | [], _, _ => []
  | x :: a, i, j =>
    if i + j < limit then
      ⟨0, (countRun x (x :: a)).1 % 2 ^ 32⟩
        :: partPhase3 limit (countRun x (x :: a)).2 i (j + (countRun x (x :: a)).1)
    else []
termination_by l _ _ => l.length
decreasing_by
  have h1 := countRun_conserve x (x :: a)
  have h2 := countRun_cons_self_pos x a
  simp only [List.length_cons] at h1 ⊢
  omega

/-- `partition(left, right, limit)` (`batch_merging.rs:299-338`). -/
def partition {α : Type} [DecidableEq α] (le : α → α → Bool) (left right : List α)
    (limit : Nat) : List Premerge :=
  let p1 := partPhase1 le limit left right 0 0
  let p2 := partPhase2 limit p1.2.1 p1.2.2.2.1 p1.2.2.2.2
  p1.1 ++ p2.1 ++ partPhase3 limit p1.2.2.1 p2.2 p1.2.2.2.2

/-- The inner loop of `subpartition` for one `Premerge` group
(`batch_merging.rs:354-366`): split the group into runs of equal values,
two-pointer over the two chunks. -/
def subGroup {α : Type} [DecidableEq α] (le : α → α → Bool) :
    List α → List α → List Premerge
  | [], [] => []
  | [], y :: b =>
    ⟨0, (countRun y (y :: b)).1 % 2 ^ 32⟩ :: subGroup le [] (countRun y (y :: b)).2
  | x :: a, [] =>
    ⟨(countRun x (x :: a)).1 % 2 ^ 32, 0⟩ :: subGroup le (countRun x (x :: a)).2 []
  | x :: a, y :: b =>
    ⟨(countRun (pickElem le x y) (x :: a)).1 % 2 ^ 32,
      (countRun (pickElem le x y) (y :: b)).1 % 2 ^ 32⟩
      :: subGroup le (countRun (pickElem le x y) (x :: a)).2
          (countRun (pickElem le x y) (y :: b)).2
termination_by l r => l.length + r.length
decreasing_by
  · have h1 := countRun_conserve y (y :: b)
    have h2 := countRun_cons_self_pos y b
    simp only [List.length_cons, List.length_nil] at h1 ⊢
    omega
  · have h1 := countRun_conserve x (x :: a)
    have h2 := countRun_cons_self_pos x a
    simp only [List.length_cons, List.length_nil] at h1 ⊢
    omega
  · have h1 := countRun_conserve (pickElem le x y) (x :: a)
    have h2 := countRun_conserve (pickElem le x y) (y :: b)
    have h3 := countRun_pick_pos le x y a b
    simp only [List.length_cons] at h1 h2 ⊢
    omega

/-- `subpartition(partitioning, left, right)` (`batch_merging.rs:341-369`):
refine each group by runs of equal values of the next column, never crossing
group boundaries. -/
def subpartition {α : Type} [DecidableEq α] (le : α → α → Bool) :
    List Premerge → List α → List α → List Premerge
  | [], _, _ => []
  | g :: ps, a, b =>
    subGroup le (a.take g.left) (b.take g.right)
      ++ subpartition le ps (a.drop g.left) (b.drop g.right)

/-- The loop body of `merge_deduplicate_partitioned` for one group
(`batch_merging.rs:276-294`), with `last` reset to `None` per group: check
`last == right[j]` first (aggregate-merge), then take left when
`j >= j_max || left[i] <= right[j]`, else take right. -/
def mdpGroup {α : Type} [DecidableEq α] (le : α → α → Bool) :
    Option α → List α → List α → List α × List MergeOp
  | _, [], [] => ([], [])
  | _, x :: a, [] =>
    let r := mdpGroup le (some x) a []
    (x :: r.1, .takeLeft :: r.2)
  | last, a, y :: b =>
    if last = some y then
      let r := mdpGroup le last a b
      (r.1, .mergeRight :: r.2)
    else
      match a with
      | x :: a' =>
        if le x y then
          let r := mdpGroup le (some x) a' (y :: b)
          (x :: r.1, .takeLeft :: r.2)
        else
          let r := mdpGroup le (some y) (x :: a') b
          (y :: r.1, .takeRight :: r.2)
      | [] =>
        let r := mdpGroup le (some y) [] b
        (y :: r.1, .takeRight :: r.2)
termination_by _ a b => a.length + b.length

/-- `merge_deduplicate_partitioned(partitioning, left, right)`
(`batch_merging.rs:260-297`): run the deduplicating merge within each group,
never crossing group boundaries. -/
def merge_deduplicate_partitioned {α : Type} [DecidableEq α] (le : α → α → Bool) :
    List Premerge → List α → List α → List α × List MergeOp
  | [], _, _ => ([], [])
  | g :: ps, a, b =>
    let r1 := mdpGroup le none (a.take g.left) (b.take g.right)
    let r2 := merge_deduplicate_partitioned le ps (a.drop g.left) (b.drop g.right)
    (r1.1 ++ r2.1, r1.2 ++ r2.2)

end LocustDB

namespace LocustDB

/-- `merge_drop(left, right, ops)` (`batch_merging.rs:449-472`): walk the ops,
`TakeLeft`/`TakeRight` emit the next element of the respective side,
`MergeRight` consumes the right element without emitting; `none` models the
out-of-bounds panic of `left[i]` / `right[j]`. -/
def merge_drop {α : Type} : List MergeOp → List α → List α → Option (List α)
  | [], _, _ => some []
  | .takeLeft :: ops, x :: a, b => (merge_drop ops a b).map (x :: ·)
  | .takeRight :: ops, a, y :: b => (merge_drop ops a b).map (y :: ·)
  | .mergeRight :: ops, a, _ :: b => merge_drop ops a b
  | _, _, _ => none

/-- Modelled from the spec: `Aggregator` (`engine/aggregator.rs`, not among
the sources) is an "associative, commutative fold over i64
(`Sum`/`Count`/`Max`/`Min`)"; `combine_i64` combines two partial states
(partial counts combine by addition). -/
inductive Aggregator : Type where
  | sum : Aggregator
  | count : Aggregator
  | amin : Aggregator
  | amax : Aggregator
deriving DecidableEq, Repr

def Aggregator.combine_i64 : Aggregator → Int → Int → Int
  | .sum, a, b => a + b
  | .count, a, b => a + b
  | .amin, a, b => min a b
  | .amax, a, b => max a b

/-- `merge_aggregate(left, right, ops, aggregator)`
(`batch_merging.rs:401-430`): `current` is the last emitted value, into which
`MergeRight` folds the right value via `combine_i64`; `none` models the
panics (`left[i]`/`right[j]` out of bounds, `result.len() - 1` on empty
result). -/
def mergeAggGo (agg : Aggregator) :
    Option Int → List MergeOp → List Int → List Int → Option (List Int)
  | current, [], _, _ => some (match current with | none => [] | some c => [c])
  | current, .takeLeft :: ops, x :: a, b =>
    (match current with
     | none => mergeAggGo agg (some x) ops a b
     | some c => (mergeAggGo agg (some x) ops a b).map (c :: ·))
  | current, .takeRight :: ops, a, y :: b =>
    (match current with
     | none => mergeAggGo agg (some y) ops a b
     | some c => (mergeAggGo agg (some y) ops a b).map (c :: ·))
  | current, .mergeRight :: ops, a, y :: b =>
    (match current with
     | none => none
     | some c => mergeAggGo agg (some (agg.combine_i64 c y)) ops a b)
  | _, _, _, _ => none

def merge_aggregate (agg : Aggregator) (ops : List MergeOp) (left right : List Int) :
    Option (List Int) :=
  mergeAggGo agg none ops left right

/-- `merge(left, right, ops)` (`batch_merging.rs:432-447`): replay a boolean
ops stream from `merge_sort`; `none` models the out-of-bounds panic. -/
def mergeByOps {α : Type} : List Bool → List α → List α → Option (List α)
  | [], _, _ => some []
  | true :: ops, x :: a, b => (mergeByOps ops a b).map (x :: ·)
  | false :: ops, a, y :: b => (mergeByOps ops a b).map (y :: ·)
  | _, _, _ => none

/-- Modelled from the spec: `CmpGreaterThan` for descending sorts,
"implementers should use ... `a >= b` for descending". -/
def cmpGreaterThan (p q : Int) : Bool := decide (q ≤ p)

/-- `QueryError` (`errors.rs`): the variants `combine` can produce. -/
inductive QueryError : Type where
  | fatal (msg : String) : QueryError
  | notImplemented (msg : String) : QueryError
deriving DecidableEq, Repr

/-- `BatchResult` (`batch_merging.rs:11-19`), monomorphized to `i64` columns
(for every type dispatch below, the `(I64, I64)` arm is taken). -/
structure BatchResult : Type where
  group_by : Option (List (List Int))
  sort_by : Option Nat
  desc : Bool
  select : List (List Int)
  aggregators : List Aggregator
  level : Nat
  batch_count : Nat
deriving DecidableEq, Repr

/-- `combine(batch1, batch2, limit)` (`batch_merging.rs:65-219`),
monomorphized to `i64` columns.  The outer `Option` models panics inside the
helpers; the `Except` carries `QueryError`.  In the aggregation case the
source's `usize::MAX` partition limit is `2 ^ 64 - 1`. -/
def combine (b1 b2 : BatchResult) (limit : Nat) :
    Option (Except QueryError BatchResult) :=
  match b1.group_by, b2.group_by with
  | some g1, some g2 =>
    let mdres :=
      if g1.length = 1 then
        merge_deduplicate intLe (g1.getD 0 []) (g2.getD 0 [])
      else
        let ps0 := partition intLe (g1.getD 0 []) (g2.getD 0 []) (2 ^ 64 - 1)
        let ps := (List.range' 1 (g1.length - 1 - 1)).foldl
          (fun ps i => subpartition intLe ps (g1.getD i []) (g2.getD i [])) ps0
        merge_deduplicate_partitioned intLe ps
          (g1.getD (g1.length - 1) []) (g2.getD (g2.length - 1) [])
    let mergedGroupBy :=
      if g1.length = 1 then some [mdres.1]
      else
        ((List.range (g1.length - 1)).mapM
          (fun i => merge_drop mdres.2 (g1.getD i []) (g2.getD i []))).map
          (fun cols => cols ++ [mdres.1])
    match mergedGroupBy with
    | none => none
    | some groupByCols =>
      match b1.aggregators.enum.mapM
          (fun p => merge_aggregate p.2 mdres.2
            (b1.select.getD p.1 []) (b2.select.getD p.1 [])) with
      | none => none
      | some aggregates =>
        some (.ok
          { group_by := some groupByCols
            sort_by := none
            desc := b1.desc
            select := aggregates
            aggregators := b1.aggregators
            level := b1.level + 1
            batch_count := b1.batch_count + b2.batch_count })
  | none, none =>
    match b1.sort_by with
    | some index =>
      let ms :=
        if b1.desc then
          merge_sort cmpGreaterThan (b1.select.getD index []) (b2.select.getD index []) limit
        else
          merge_sort cmpLessThan (b1.select.getD index []) (b2.select.getD index []) limit
      match (b1.select.zip b2.select).enum.mapM
          (fun p => if p.1 = index then some [] else mergeByOps ms.2 p.2.1 p.2.2) with
      | none => none
      | some merged =>
        some (.ok
          { group_by := none
            sort_by := some index
            desc := b1.desc
            select := merged.set index ms.1
            aggregators := []
            level := b1.level + 1
            batch_count := b1.batch_count + b2.batch_count })
    | none =>
      some (.ok
        { group_by := none
          sort_by := none
          desc := b1.desc
          select := (b1.select.zip b2.select).map
            (fun p => p.1 ++ p.2.take
              (if limit ≤ p.1.length then 0 else min p.2.length (limit - p.1.length)))
          aggregators := []
          level := b1.level + 1
          batch_count := b1.batch_count + b2.batch_count })
  | _, _ => some (.error (.fatal "Trying to merge incompatible batch results"))

end LocustDB

namespace LocustDB

/-- C7 (amended): `combine` returns the FatalError "Trying to merge
incompatible batch results" exactly when one input has `group_by` set and the
other does not; differing `sort_by` indices are *not* detected (the sort
dispatch reads only `batch1.sort_by`). -/
theorem c7_combine_fatal_iff_group_by_mismatch (b1 b2 : BatchResult) (limit : Nat) :
    (b1.group_by.isSome ≠ b2.group_by.isSome →
      combine b1 b2 limit
        = some (.error (.fatal "Trying to merge incompatible batch results"))) ∧
    (b1.group_by.isSome = b2.group_by.isSome →
      ∀ e : QueryError, combine b1 b2 limit ≠ some (.error e)) := by
  cases hg1 : b1.group_by with
  | none =>
    cases hg2 : b2.group_by with
    | none =>
      refine ⟨fun h => absurd rfl h, ?_⟩
      intro _ e
      simp only [combine, hg1, hg2]
      cases b1.sort_by with
      | none => simp
      | some index =>
        simp only []
        split
        · simp
        · simp
    | some g2 =>
      refine ⟨fun _ => by simp [combine, hg1, hg2], ?_⟩
      intro h
      simp at h
  | some g1 =>
    cases hg2 : b2.group_by with
    | none =>
      refine ⟨fun _ => by simp [combine, hg1, hg2], ?_⟩
      intro h
      simp at h
    | some g2 =>
      refine ⟨fun h => absurd rfl h, ?_⟩
      intro _ e
      simp only [combine, hg1, hg2]
      split
      · simp
      · split
        · simp
        · simp

theorem c7_combine_fatal_witness :
    ((⟨some [[1]], none, false, [[1]], [], 0, 1⟩ : BatchResult).group_by.isSome
      ≠ (⟨none, none, false, [[1]], [], 0, 1⟩ : BatchResult).group_by.isSome) ∧
    combine ⟨some [[1]], none, false, [[1]], [], 0, 1⟩ ⟨none, none, false, [[1]], [], 0, 1⟩ 10
      = some (.error (.fatal "Trying to merge incompatible batch results")) :=
  ⟨by decide,
    (c7_combine_fatal_iff_group_by_mismatch
      ⟨some [[1]], none, false, [[1]], [], 0, 1⟩
      ⟨none, none, false, [[1]], [], 0, 1⟩ 10).1 (by decide)⟩

/-- C7 counterexample: the claim also requires a FatalError whenever neither
side has `group_by` but the two sides' `sort_by` indices differ; the code
never compares them (it reads only `batch1.sort_by`) and happily merges. -/
theorem c7_claim_counterexample :
    (⟨none, some 0, false, [[1]], [], 0, 1⟩ : BatchResult).sort_by
      ≠ (⟨none, some 1, false, [[2]], [], 0, 1⟩ : BatchResult).sort_by ∧
    combine ⟨none, some 0, false, [[1]], [], 0, 1⟩
        ⟨none, some 1, false, [[2]], [], 0, 1⟩ 10
      = some (.ok ⟨none, some 0, false, [[1, 2]], [], 1, 2⟩) := by
  constructor
  · decide
  · have hms : merge_sort cmpLessThan [(1 : Int)] [2] 10 = ([1, 2], [true, false]) := by
      simp [merge_sort, msLoop, cmpLessThan]
    simp [combine, hms, mergeByOps, List.enum, List.mapM, List.mapM.loop]

end LocustDB

namespace LocustDB

/-- Lexicographic comparison of compound group-by keys (the order induced by
comparing the columns of a row in sequence, as the single-column merges do
column by column). -/
def lexLe : List Int → List Int → Bool
  | [], _ => true
  | _ :: _, [] => false
  | x :: xs, y :: ys => if x < y then true else if y < x then false else lexLe xs ys

theorem lexLe_refl : ∀ l : List Int, lexLe l l = true := by
  intro l
  induction l with
  | nil => rfl
  | cons x xs ih => simp [lexLe, ih]

theorem lexLe_total : ∀ l1 l2 : List Int, lexLe l1 l2 = true ∨ lexLe l2 l1 = true := by
  intro l1
  induction l1 with
  | nil => intro l2; exact Or.inl rfl
  | cons x xs ih =>
    intro l2
    cases l2 with
    | nil => exact Or.inr rfl
    | cons y ys =>
      by_cases hxy : x < y
      · exact Or.inl (by simp [lexLe, hxy])
      · by_cases hyx : y < x
        · exact Or.inr (by simp [lexLe, hyx])
        · rcases ih ys with h | h
          · exact Or.inl (by simp [lexLe, hxy, hyx, h])
          · exact Or.inr (by simp [lexLe, hxy, hyx, h])

theorem lexLe_antisymm : ∀ l1 l2 : List Int,
    lexLe l1 l2 = true → lexLe l2 l1 = true → l1 = l2 := by
  intro l1
  induction l1 with
  | nil =>
    intro l2 _ h2
    cases l2 with
    | nil => rfl
    | cons y ys => simp [lexLe] at h2
  | cons x xs ih =>
    intro l2 h1 h2
    cases l2 with
    | nil => simp [lexLe] at h1
    | cons y ys =>
      by_cases hxy : x < y
      · simp [lexLe, hxy] at h2
        omega
      · by_cases hyx : y < x
        · simp [lexLe, hxy, hyx] at h1
        · have hx : x = y := by omega
          subst hx
          simp [lexLe, hxy, hyx] at h1 h2
          rw [ih ys h1 h2]

theorem lexLe_trans : ∀ l1 l2 l3 : List Int,
    lexLe l1 l2 = true → lexLe l2 l3 = true → lexLe l1 l3 = true := by
  intro l1
  induction l1 with
  | nil => intro _ _ _ _; rfl
  | cons x xs ih =>
    intro l2 l3 h1 h2
    cases l2 with
    | nil => simp [lexLe] at h1
    | cons y ys =>
      cases l3 with
      | nil => simp [lexLe] at h2
      | cons z zs =>
        by_cases hxy : x < y
        · by_cases hyz : y < z
          · simp [lexLe, show x < z by omega]
          · by_cases hzy : z < y
            · simp [lexLe, hyz, hzy] at h2
            · have hy : y = z := by omega
              subst hy
              simp [lexLe, hxy]
        · by_cases hyx : y < x
          · simp [lexLe, hxy, hyx] at h1
          · have hx : x = y := by omega
            subst hx
            simp [lexLe, lt_irrefl] at h1
            by_cases hxz : x < z
            · simp [lexLe, hxz]
            · by_cases hzx : z < x
              · simp [lexLe, hxz, hzx] at h2
              · have hz : x = z := by omega
                subst hz
                simp [lexLe, hxz] at h2 ⊢
                exact ih ys zs h1 h2

/-- Comparing `p1 ++ s1` with `p2 ++ s2` for equal-length prefixes `p1 < p2`
(strictly): the suffixes never matter. -/
theorem lexLe_append_of_lt : ∀ (p1 p2 : List Int), p1.length = p2.length →
    lexLe p1 p2 = true → p1 ≠ p2 → ∀ s1 s2 : List Int,
    lexLe (p1 ++ s1) (p2 ++ s2) = true ∧ lexLe (p2 ++ s2) (p1 ++ s1) = false := by
  intro p1
  induction p1 with
  | nil =>
    intro p2 hlen _ hne
    cases p2 with
    | nil => exact absurd rfl hne
    | cons y ys => simp at hlen
  | cons x xs ih =>
    intro p2 hlen hle hne
    cases p2 with
    | nil => simp at hlen
    | cons y ys =>
      intro s1 s2
      by_cases hxy : x < y
      · refine ⟨by simp [lexLe, hxy], ?_⟩
        simp [lexLe, hxy]
        omega
      · by_cases hyx : y < x
        · simp [lexLe, hxy, hyx] at hle
        · have hx : x = y := by omega
          subst hx
          simp [lexLe, hxy] at hle
          have hne' : xs ≠ ys := fun h => hne (by rw [h])
          have := ih ys (by simpa using hlen) hle hne' s1 s2
          constructor <;> simp [lexLe, this.1, this.2]

/-- Appending to equal lists compares the suffixes. -/
theorem lexLe_append_same : ∀ (p s1 s2 : List Int),
    lexLe (p ++ s1) (p ++ s2) = lexLe s1 s2 := by
  intro p
  induction p with
  | nil => intro s1 s2; rfl
  | cons x xs ih => intro s1 s2; simp [lexLe, ih]

end LocustDB

namespace LocustDB

theorem takeWhile_pred_congr {γ : Type} (p q : γ → Bool) :
    ∀ xs : List γ, (∀ v ∈ xs, p v = q v) →
      xs.takeWhile p = xs.takeWhile q ∧ xs.dropWhile p = xs.dropWhile q := by
  intro xs
  induction xs with
  | nil => intro _; exact ⟨rfl, rfl⟩
  | cons v xs ih =>
    intro hall
    have hv := hall v (by simp)
    obtain ⟨ht, hd⟩ := ih (fun u hu => hall u (List.mem_cons_of_mem _ hu))
    by_cases hp : p v
    · rw [List.takeWhile_cons, List.takeWhile_cons, List.dropWhile_cons, List.dropWhile_cons,
        hp, ← hv, hp]
      simp [ht, hd]
    · rw [List.takeWhile_cons, List.takeWhile_cons, List.dropWhile_cons, List.dropWhile_cons,
        ← hv]
      simp [hp]

theorem countRun_map_spec {γ α : Type} [DecidableEq α] (f : γ → α) (e : α) :
    ∀ xs : List γ,
      (countRun e (xs.map f)).1 = (xs.takeWhile fun v => decide (e = f v)).length ∧
      (countRun e (xs.map f)).2 = (xs.dropWhile fun v => decide (e = f v)).map f := by
  intro xs
  induction xs with
  | nil => exact ⟨rfl, rfl⟩
  | cons v xs ih =>
    by_cases h : e = f v
    · subst h
      rw [List.map_cons, countRun, if_pos rfl]
      constructor
      · simp [List.takeWhile_cons, ih.1]
      · simp [List.dropWhile_cons, ih.2]
    · rw [List.map_cons, countRun, if_neg h, List.takeWhile_cons, List.dropWhile_cons]
      simp [h]

theorem dropWhile_self_lt {γ : Type} (p : γ → Bool) (v : γ) (xs : List γ) (hp : p v = true) :
    (List.dropWhile p (v :: xs)).length < (v :: xs).length := by
  rw [List.dropWhile_cons, hp]
  simp only [if_true]
  have := (@List.dropWhile_sublist _ xs p).length_le
  simp only [List.length_cons]
  omega

theorem mem_of_mem_dropWhile {γ : Type} (p : γ → Bool) :
    ∀ (xs : List γ) (v : γ), v ∈ List.dropWhile p xs → v ∈ xs := by
  intro xs
  induction xs with
  | nil => intro v h; simp at h
  | cons x xs ih =>
    intro v h
    rw [List.dropWhile_cons] at h
    by_cases hp : p x
    · rw [if_pos hp] at h
      exact List.mem_cons_of_mem _ (ih v h)
    · rw [if_neg hp] at h
      exact h

end LocustDB

namespace LocustDB

theorem subGroup_nil_nil {α : Type} [DecidableEq α] (le : α → α → Bool) :
    subGroup le [] [] = [] := by
  simp [subGroup]

theorem subGroup_nil_cons {α : Type} [DecidableEq α] (le : α → α → Bool) (y : α) (b : List α) :
    subGroup le [] (y :: b)
      = ⟨0, (countRun y (y :: b)).1 % 2 ^ 32⟩
          :: subGroup le [] (countRun y (y :: b)).2 := by
  simp [subGroup]

theorem subGroup_cons_nil {α : Type} [DecidableEq α] (le : α → α → Bool) (x : α) (a : List α) :
    subGroup le (x :: a) []
      = ⟨(countRun x (x :: a)).1 % 2 ^ 32, 0⟩
          :: subGroup le (countRun x (x :: a)).2 [] := by
  simp [subGroup]

theorem subGroup_cons_cons {α : Type} [DecidableEq α] (le : α → α → Bool) (x y : α)
    (a b : List α) :
    subGroup le (x :: a) (y :: b)
      = ⟨(countRun (pickElem le x y) (x :: a)).1 % 2 ^ 32,
          (countRun (pickElem le x y) (y :: b)).1 % 2 ^ 32⟩
        :: subGroup le (countRun (pickElem le x y) (x :: a)).2
            (countRun (pickElem le x y) (y :: b)).2 := by
  simp [subGroup]

theorem subGroup_translate {γ α β : Type} [DecidableEq α] [DecidableEq β]
    (le1 : α → α → Bool) (le2 : β → β → Bool) (f : γ → α) (g : γ → β) :
    ∀ (n : Nat) (xs ys : List γ), xs.length + ys.length ≤ n →
      (∀ u, (u ∈ xs ∨ u ∈ ys) → ∀ v, (v ∈ xs ∨ v ∈ ys) →
        le1 (f u) (f v) = le2 (g u) (g v) ∧ ((f u = f v) ↔ (g u = g v))) →
      subGroup le1 (xs.map f) (ys.map f) = subGroup le2 (xs.map g) (ys.map g) := by
  intro n
  induction n with
  | zero =>
    intro xs ys hlen _
    rw [List.length_eq_zero.mp (by omega : xs.length = 0),
      List.length_eq_zero.mp (by omega : ys.length = 0)]
    simp [subGroup_nil_nil]
  | succ n ih =>
    intro xs ys hlen hcond
    match xs, ys with
    | [], [] => simp [subGroup_nil_nil]
    | [], y :: ys' =>
      have hpc : ∀ v ∈ y :: ys', (fun v => decide (f y = f v)) v
          = (fun v => decide (g y = g v)) v := by
        intro v hv
        have := (hcond y (Or.inr (by simp)) v (Or.inr hv)).2
        simp only [decide_eq_decide]
        exact this
      have hpred := takeWhile_pred_congr _ _ (y :: ys') hpc
      have s1 := countRun_map_spec f (f y) (y :: ys')
      have s2 := countRun_map_spec g (g y) (y :: ys')
      simp only [List.map_nil, List.map_cons]
      rw [subGroup_nil_cons, subGroup_nil_cons]
      rw [← List.map_cons f y ys', ← List.map_cons g y ys']
      rw [s1.1, s1.2, s2.1, s2.2, hpred.1, hpred.2]
      have hrec := ih [] (List.dropWhile (fun v => decide (g y = g v)) (y :: ys'))
        (by
          have := dropWhile_self_lt (fun v => decide (g y = g v)) y ys' (by simp)
          simp only [List.length_nil, List.length_cons] at this hlen ⊢
          omega)
        (fun u hu v hv => hcond u
          (Or.inr (by
            rcases hu with h | h
            · simp at h
            · exact mem_of_mem_dropWhile _ _ u h))
          v (Or.inr (by
            rcases hv with h | h
            · simp at h
            · exact mem_of_mem_dropWhile _ _ v h)))
      simp only [List.map_nil] at hrec
      rw [hrec]
    | x :: xs', [] =>
      have hpc : ∀ v ∈ x :: xs', (fun v => decide (f x = f v)) v
          = (fun v => decide (g x = g v)) v := by
        intro v hv
        have := (hcond x (Or.inl (by simp)) v (Or.inl hv)).2
        simp only [decide_eq_decide]
        exact this
      have hpred := takeWhile_pred_congr _ _ (x :: xs') hpc
      have s1 := countRun_map_spec f (f x) (x :: xs')
      have s2 := countRun_map_spec g (g x) (x :: xs')
      simp only [List.map_nil, List.map_cons]
      rw [subGroup_cons_nil, subGroup_cons_nil]
      rw [← List.map_cons f x xs', ← List.map_cons g x xs']
      rw [s1.1, s1.2, s2.1, s2.2, hpred.1, hpred.2]
      have hrec := ih (List.dropWhile (fun v => decide (g x = g v)) (x :: xs')) []
        (by
          have := dropWhile_self_lt (fun v => decide (g x = g v)) x xs' (by simp)
          simp only [List.length_nil, List.length_cons] at this hlen ⊢
          omega)
        (fun u hu v hv => hcond u
          (Or.inl (by
            rcases hu with h | h
            · exact mem_of_mem_dropWhile _ _ u h
            · simp at h))
          v (Or.inl (by
            rcases hv with h | h
            · exact mem_of_mem_dropWhile _ _ v h
            · simp at h)))
      simp only [List.map_nil] at hrec
      rw [hrec]
    | x :: xs', y :: ys' =>
      have hle := (hcond x (Or.inl (by simp)) y (Or.inr (by simp))).1
      have hz : ∃ z, (z = x ∨ z = y) ∧ pickElem le1 (f x) (f y) = f z
          ∧ pickElem le2 (g x) (g y) = g z := by
        by_cases hxy : le1 (f x) (f y)
        · exact ⟨x, Or.inl rfl, by rw [pickElem, if_pos hxy],
            by rw [pickElem, if_pos (hle ▸ hxy)]⟩
        · refine ⟨y, Or.inr rfl, by rw [pickElem, if_neg hxy], ?_⟩
          rw [pickElem, if_neg (fun h => hxy (by rw [hle]; exact h))]
      obtain ⟨z, hzxy, hp1, hp2⟩ := hz
      have hzmem : z ∈ x :: xs' ∨ z ∈ y :: ys' := by
        rcases hzxy with h | h
        · exact Or.inl (by simp [h])
        · exact Or.inr (by simp [h])
      have hpcL : ∀ v ∈ x :: xs', (fun v => decide (f z = f v)) v
          = (fun v => decide (g z = g v)) v := by
        intro v hv
        have := (hcond z hzmem v (Or.inl hv)).2
        simp only [decide_eq_decide]
        exact this
      have hpcR : ∀ v ∈ y :: ys', (fun v => decide (f z = f v)) v
          = (fun v => decide (g z = g v)) v := by
        intro v hv
        have := (hcond z hzmem v (Or.inr hv)).2
        simp only [decide_eq_decide]
        exact this
      have hpredL := takeWhile_pred_congr _ _ (x :: xs') hpcL
      have hpredR := takeWhile_pred_congr _ _ (y :: ys') hpcR
      have s1L := countRun_map_spec f (f z) (x :: xs')
      have s1R := countRun_map_spec f (f z) (y :: ys')
      have s2L := countRun_map_spec g (g z) (x :: xs')
      have s2R := countRun_map_spec g (g z) (y :: ys')
      simp only [List.map_cons]
      rw [subGroup_cons_cons, subGroup_cons_cons]
      rw [← List.map_cons f x xs', ← List.map_cons f y ys',
        ← List.map_cons g x xs', ← List.map_cons g y ys']
      rw [hp1, hp2, s1L.1, s1R.1, s1L.2, s1R.2, s2L.1, s2R.1, s2L.2, s2R.2,
        hpredL.1, hpredL.2, hpredR.1, hpredR.2]
      have hdec : (List.dropWhile (fun v => decide (g z = g v)) (x :: xs')).length
            + (List.dropWhile (fun v => decide (g z = g v)) (y :: ys')).length ≤ n := by
        have hL := (@List.dropWhile_sublist _ (x :: xs') (fun v => decide (g z = g v))).length_le
        have hR := (@List.dropWhile_sublist _ (y :: ys') (fun v => decide (g z = g v))).length_le
        rcases hzxy with h | h
        · have := dropWhile_self_lt (fun v => decide (g z = g v)) x xs' (by simp [h])
          simp only [List.length_cons] at *
          omega
        · have := dropWhile_self_lt (fun v => decide (g z = g v)) y ys' (by simp [h])
          simp only [List.length_cons] at *
          omega
      have hrec := ih (List.dropWhile (fun v => decide (g z = g v)) (x :: xs'))
        (List.dropWhile (fun v => decide (g z = g v)) (y :: ys')) hdec
        (fun u hu v hv => hcond u
          (by
            rcases hu with h | h
            · exact Or.inl (mem_of_mem_dropWhile _ _ u h)
            · exact Or.inr (mem_of_mem_dropWhile _ _ u h))
          v (by
            rcases hv with h | h
            · exact Or.inl (mem_of_mem_dropWhile _ _ v h)
            · exact Or.inr (mem_of_mem_dropWhile _ _ v h)))
      rw [hrec]

end LocustDB

namespace LocustDB

/-- Column `i` of a list of rows: viewing the `k` group-by columns handed to
`combine` (`batch_merging.rs:82-107`) as a single list of `k`-tuples,
`colv i rows` is the column vector `g[i].as_ref()`. -/
def colv (i : Nat) (rows : List (List Int)) : List Int :=
  rows.map fun r => r.getD i 0

/-- The k-column composition run by `combine` for aggregation queries with
`g1.len() > 1` (`batch_merging.rs:82-107`): `partition` on column 0 with limit
`usize::MAX`, `subpartition` on each column `1..k-1`, and
`merge_deduplicate_partitioned` on column `k-1`. -/
def groupByComposition (k : Nat) (a b : List (List Int)) : List Int × List MergeOp :=
  merge_deduplicate_partitioned intLe
    ((List.range' 1 (k - 2)).foldl
      (fun ps i => subpartition intLe ps (colv i a) (colv i b))
      (partition intLe (colv 0 a) (colv 0 b) (2 ^ 64 - 1)))
    (colv (k - 1) a) (colv (k - 1) b)

theorem lexLe_singleton (p q : Int) : lexLe [p] [q] = intLe p q := by
  by_cases h1 : p < q <;> by_cases h2 : q < p <;>
    simp [lexLe, intLe, h1, h2] <;> omega

theorem take_succ_getD : ∀ (l : List Int) (i : Nat), i < l.length →
    l.take (i + 1) = l.take i ++ [l.getD i 0] := by
  intro l
  induction l with
  | nil => intro i h; simp at h
  | cons x xs ih =>
    intro i h
    cases i with
    | zero => simp
    | succ j =>
      simp only [List.take_succ_cons, List.getD_cons_succ, List.cons_append]
      rw [ih j (by simp only [List.length_cons] at h; omega)]

theorem row_reconstruct (r : List Int) (k : Nat) (hk : 0 < k) (hr : r.length = k) :
    r = r.take (k - 1) ++ [r.getD (k - 1) 0] := by
  have h1 : k - 1 < r.length := by omega
  have h2 := take_succ_getD r (k - 1) h1
  have h3 : k - 1 + 1 = k := by omega
  rw [h3] at h2
  rw [← h2, ← hr, List.take_length]

theorem lexLe_take_mono : ∀ (u v : List Int) (i : Nat), lexLe u v = true →
    lexLe (u.take i) (v.take i) = true := by
  intro u
  induction u with
  | nil => intro v i _; simp [lexLe]
  | cons x xs ih =>
    intro v i h
    cases v with
    | nil => simp [lexLe] at h
    | cons y ys =>
      cases i with
      | zero => simp [lexLe]
      | succ j =>
        simp only [List.take_succ_cons]
        by_cases h1 : x < y
        · simp [lexLe, h1]
        · by_cases h2 : y < x
          · simp [lexLe, h1, h2] at h
          · simp only [lexLe, if_neg h1, if_neg h2] at h ⊢
            exact ih ys j h

/-- Chunk decomposition underlying `partition` / `subpartition`
(`batch_merging.rs:299-369`): split the two sorted sides into the actual runs
of equal keys (key function `f`, key order `le`) that the run-counting loops
measure.  `subGroup`, and hence `partition`, records exactly the lengths of
these chunks. -/
def chunksBy {γ α : Type} [DecidableEq α] (le : α → α → Bool) (f : γ → α) :
    List γ → List γ → List (List γ × List γ)
  | [], [] => []
  | [], y :: b =>
    ([], (y :: b).takeWhile fun v => decide (f y = f v))
      :: chunksBy le f [] ((y :: b).dropWhile fun v => decide (f y = f v))
  | x :: a, [] =>
    ((x :: a).takeWhile fun v => decide (f x = f v), [])
      :: chunksBy le f ((x :: a).dropWhile fun v => decide (f x = f v)) []
  | x :: a, y :: b =>
    ((x :: a).takeWhile fun v => decide (pickElem le (f x) (f y) = f v),
      (y :: b).takeWhile fun v => decide (pickElem le (f x) (f y) = f v))
      :: chunksBy le f
          ((x :: a).dropWhile fun v => decide (pickElem le (f x) (f y) = f v))
          ((y :: b).dropWhile fun v => decide (pickElem le (f x) (f y) = f v))
termination_by l r => l.length + r.length
decreasing_by
  · have := dropWhile_self_lt (fun v => decide (f y = f v)) y b (by simp)
    simp only [List.length_cons, List.length_nil] at this ⊢
    omega
  · have := dropWhile_self_lt (fun v => decide (f x = f v)) x a (by simp)
    simp only [List.length_cons, List.length_nil] at this ⊢
    omega
  · have hA := (@List.dropWhile_sublist _ (x :: a)
      (fun v => decide (pickElem le (f x) (f y) = f v))).length_le
    have hB := (@List.dropWhile_sublist _ (y :: b)
      (fun v => decide (pickElem le (f x) (f y) = f v))).length_le
    by_cases h : le (f x) (f y)
    · have := dropWhile_self_lt (fun v => decide (pickElem le (f x) (f y) = f v)) x a
        (by simp [pickElem, h])
      simp only [List.length_cons] at this hA hB ⊢
      omega
    · have := dropWhile_self_lt (fun v => decide (pickElem le (f x) (f y) = f v)) y b
        (by simp [pickElem, h])
      simp only [List.length_cons] at this hA hB ⊢
      omega

theorem chunksBy_nil_nil {γ α : Type} [DecidableEq α] (le : α → α → Bool) (f : γ → α) :
    chunksBy le f [] [] = [] := by
  simp [chunksBy]

theorem chunksBy_nil_cons {γ α : Type} [DecidableEq α] (le : α → α → Bool) (f : γ → α)
    (y : γ) (b : List γ) :
    chunksBy le f [] (y :: b)
      = ([], (y :: b).takeWhile fun v => decide (f y = f v))
          :: chunksBy le f [] ((y :: b).dropWhile fun v => decide (f y = f v)) := by
  simp [chunksBy]

theorem chunksBy_cons_nil {γ α : Type} [DecidableEq α] (le : α → α → Bool) (f : γ → α)
    (x : γ) (a : List γ) :
    chunksBy le f (x :: a) []
      = ((x :: a).takeWhile fun v => decide (f x = f v), [])
          :: chunksBy le f ((x :: a).dropWhile fun v => decide (f x = f v)) [] := by
  simp [chunksBy]

theorem chunksBy_cons_cons {γ α : Type} [DecidableEq α] (le : α → α → Bool) (f : γ → α)
    (x y : γ) (a b : List γ) :
    chunksBy le f (x :: a) (y :: b)
      = ((x :: a).takeWhile fun v => decide (pickElem le (f x) (f y) = f v),
          (y :: b).takeWhile fun v => decide (pickElem le (f x) (f y) = f v))
          :: chunksBy le f
              ((x :: a).dropWhile fun v => decide (pickElem le (f x) (f y) = f v))
              ((y :: b).dropWhile fun v => decide (pickElem le (f x) (f y) = f v)) := by
  simp [chunksBy]

end LocustDB

namespace LocustDB

theorem tw_append {γ : Type} (p : γ → Bool) :
    ∀ (l1 l2 : List γ), (∀ v ∈ l2, p v = false) →
      (l1 ++ l2).takeWhile p = l1.takeWhile p ∧
      (l1 ++ l2).dropWhile p = l1.dropWhile p ++ l2 := by
  intro l1
  induction l1 with
  | nil =>
    intro l2 h
    simp only [List.nil_append, List.takeWhile_nil, List.dropWhile_nil]
    cases l2 with
    | nil => simp
    | cons z l2' =>
      rw [List.takeWhile_cons, List.dropWhile_cons, h z (by simp)]
      simp
  | cons w l1' ih =>
    intro l2 h
    have hr := ih l2 h
    by_cases hw : p w = true
    · simp only [List.cons_append, List.takeWhile_cons, List.dropWhile_cons, hw,
        if_true, hr.1, hr.2]
      simp
    · rw [Bool.not_eq_true] at hw
      simp [List.takeWhile_cons, List.dropWhile_cons, hw]

theorem chunksBy_fuel {γ α : Type} [DecidableEq α] (le : α → α → Bool) (f : γ → α)
    (x y : γ) (a b : List γ) :
    ((x :: a).dropWhile fun v => decide (pickElem le (f x) (f y) = f v)).length
      + ((y :: b).dropWhile fun v => decide (pickElem le (f x) (f y) = f v)).length
      < (x :: a).length + (y :: b).length := by
  have hA := (@List.dropWhile_sublist _ (x :: a)
    (fun v => decide (pickElem le (f x) (f y) = f v))).length_le
  have hB := (@List.dropWhile_sublist _ (y :: b)
    (fun v => decide (pickElem le (f x) (f y) = f v))).length_le
  by_cases h : le (f x) (f y)
  · have := dropWhile_self_lt (fun v => decide (pickElem le (f x) (f y) = f v)) x a
      (by simp [pickElem, h])
    simp only [List.length_cons] at this hA hB ⊢
    omega
  · have := dropWhile_self_lt (fun v => decide (pickElem le (f x) (f y) = f v)) y b
      (by simp [pickElem, h])
    simp only [List.length_cons] at this hA hB ⊢
    omega

theorem chunksBy_flatten {γ α : Type} [DecidableEq α] (le : α → α → Bool) (f : γ → α) :
    ∀ (n : Nat) (A B : List γ), A.length + B.length ≤ n →
      ((chunksBy le f A B).map Prod.fst).flatten = A ∧
      ((chunksBy le f A B).map Prod.snd).flatten = B := by
  intro n
  induction n with
  | zero =>
    intro A B hlen
    rw [List.length_eq_zero.mp (by omega : A.length = 0),
      List.length_eq_zero.mp (by omega : B.length = 0)]
    simp [chunksBy_nil_nil]
  | succ n ih =>
    intro A B hlen
    match A, B with
    | [], [] => simp [chunksBy_nil_nil]
    | [], y :: b =>
      rw [chunksBy_nil_cons]
      have hrec := ih [] ((y :: b).dropWhile fun v => decide (f y = f v))
        (by
          have := dropWhile_self_lt (fun v => decide (f y = f v)) y b (by simp)
          simp only [List.length_nil, List.length_cons] at this hlen ⊢
          omega)
      simp only [List.map_cons, List.flatten_cons]
      refine ⟨by simpa using hrec.1, ?_⟩
      rw [hrec.2]
      exact List.takeWhile_append_dropWhile _ _
    | x :: a, [] =>
      rw [chunksBy_cons_nil]
      have hrec := ih ((x :: a).dropWhile fun v => decide (f x = f v)) []
        (by
          have := dropWhile_self_lt (fun v => decide (f x = f v)) x a (by simp)
          simp only [List.length_nil, List.length_cons] at this hlen ⊢
          omega)
      simp only [List.map_cons, List.flatten_cons]
      refine ⟨?_, by simpa using hrec.2⟩
      rw [hrec.1]
      exact List.takeWhile_append_dropWhile _ _
    | x :: a, y :: b =>
      rw [chunksBy_cons_cons]
      have hrec := ih
        ((x :: a).dropWhile fun v => decide (pickElem le (f x) (f y) = f v))
        ((y :: b).dropWhile fun v => decide (pickElem le (f x) (f y) = f v))
        (by
          have := chunksBy_fuel le f x y a b
          simp only [List.length_cons] at this hlen ⊢
          omega)
      simp only [List.map_cons, List.flatten_cons]
      constructor
      · rw [hrec.1]
        exact List.takeWhile_append_dropWhile _ _
      · rw [hrec.2]
        exact List.takeWhile_append_dropWhile _ _

theorem chunksBy_lengths {γ α : Type} [DecidableEq α] (le : α → α → Bool) (f : γ → α) :
    ∀ (n : Nat) (A B : List γ), A.length + B.length ≤ n →
      subGroup le (A.map f) (B.map f)
        = (chunksBy le f A B).map
            fun c => ⟨c.1.length % 2 ^ 32, c.2.length % 2 ^ 32⟩ := by
  intro n
  induction n with
  | zero =>
    intro A B hlen
    rw [List.length_eq_zero.mp (by omega : A.length = 0),
      List.length_eq_zero.mp (by omega : B.length = 0)]
    simp [chunksBy_nil_nil, subGroup_nil_nil]
  | succ n ih =>
    intro A B hlen
    match A, B with
    | [], [] => simp [chunksBy_nil_nil, subGroup_nil_nil]
    | [], y :: b =>
      have s1 := countRun_map_spec f (f y) (y :: b)
      have hrec := ih [] ((y :: b).dropWhile fun v => decide (f y = f v))
        (by
          have := dropWhile_self_lt (fun v => decide (f y = f v)) y b (by simp)
          simp only [List.length_nil, List.length_cons] at this hlen ⊢
          omega)
      simp only [List.map_nil] at hrec
      simp only [List.map_nil, List.map_cons]
      rw [subGroup_nil_cons, ← List.map_cons f y b, s1.1, s1.2, hrec,
        chunksBy_nil_cons]
      simp
    | x :: a, [] =>
      have s1 := countRun_map_spec f (f x) (x :: a)
      have hrec := ih ((x :: a).dropWhile fun v => decide (f x = f v)) []
        (by
          have := dropWhile_self_lt (fun v => decide (f x = f v)) x a (by simp)
          simp only [List.length_nil, List.length_cons] at this hlen ⊢
          omega)
      simp only [List.map_nil] at hrec
      simp only [List.map_nil, List.map_cons]
      rw [subGroup_cons_nil, ← List.map_cons f x a, s1.1, s1.2, hrec,
        chunksBy_cons_nil]
      simp
    | x :: a, y :: b =>
      have s1 := countRun_map_spec f (pickElem le (f x) (f y)) (x :: a)
      have s2 := countRun_map_spec f (pickElem le (f x) (f y)) (y :: b)
      have hrec := ih
        ((x :: a).dropWhile fun v => decide (pickElem le (f x) (f y) = f v))
        ((y :: b).dropWhile fun v => decide (pickElem le (f x) (f y) = f v))
        (by
          have := chunksBy_fuel le f x y a b
          simp only [List.length_cons] at this hlen ⊢
          omega)
      simp only [List.map_cons]
      rw [subGroup_cons_cons, ← List.map_cons f x a, ← List.map_cons f y b,
        s1.1, s1.2, s2.1, s2.2, hrec, chunksBy_cons_cons]
      simp

theorem chunksBy_key {γ α : Type} [DecidableEq α] (le : α → α → Bool) (f : γ → α) :
    ∀ (n : Nat) (A B : List γ), A.length + B.length ≤ n →
      ∀ c ∈ chunksBy le f A B, ∀ u ∈ c.1 ++ c.2, ∀ v ∈ c.1 ++ c.2, f u = f v := by
  intro n
  induction n with
  | zero =>
    intro A B hlen
    rw [List.length_eq_zero.mp (by omega : A.length = 0),
      List.length_eq_zero.mp (by omega : B.length = 0)]
    simp [chunksBy_nil_nil]
  | succ n ih =>
    intro A B hlen
    match A, B with
    | [], [] => simp [chunksBy_nil_nil]
    | [], y :: b =>
      rw [chunksBy_nil_cons]
      intro c hc
      rcases List.mem_cons.mp hc with h | h
      · subst h
        intro u hu v hv
        simp only [List.nil_append] at hu hv
        have hu2 := List.mem_takeWhile_imp hu
        have hv2 := List.mem_takeWhile_imp hv
        simp only [decide_eq_true_eq] at hu2 hv2
        rw [← hu2, ← hv2]
      · exact ih [] _
          (by
            have := dropWhile_self_lt (fun v => decide (f y = f v)) y b (by simp)
            simp only [List.length_nil, List.length_cons] at this hlen ⊢
            omega) c h
    | x :: a, [] =>
      rw [chunksBy_cons_nil]
      intro c hc
      rcases List.mem_cons.mp hc with h | h
      · subst h
        intro u hu v hv
        simp only [List.append_nil] at hu hv
        have hu2 := List.mem_takeWhile_imp hu
        have hv2 := List.mem_takeWhile_imp hv
        simp only [decide_eq_true_eq] at hu2 hv2
        rw [← hu2, ← hv2]
      · exact ih _ []
          (by
            have := dropWhile_self_lt (fun v => decide (f x = f v)) x a (by simp)
            simp only [List.length_nil, List.length_cons] at this hlen ⊢
            omega) c h
    | x :: a, y :: b =>
      rw [chunksBy_cons_cons]
      intro c hc
      rcases List.mem_cons.mp hc with h | h
      · subst h
        intro u hu v hv
        simp only [List.mem_append] at hu hv
        rcases hu with hu1 | hu1 <;>
          rcases hv with hv1 | hv1 <;>
        · have hu2 := List.mem_takeWhile_imp hu1
          have hv2 := List.mem_takeWhile_imp hv1
          simp only [decide_eq_true_eq] at hu2 hv2
          rw [← hu2, ← hv2]
      · exact ih _ _
          (by
            have := chunksBy_fuel le f x y a b
            simp only [List.length_cons] at this hlen ⊢
            omega) c h

theorem chunksBy_sublist {γ α : Type} [DecidableEq α] (le : α → α → Bool) (f : γ → α) :
    ∀ (n : Nat) (A B : List γ), A.length + B.length ≤ n →
      ∀ c ∈ chunksBy le f A B, c.1.Sublist A ∧ c.2.Sublist B := by
  intro n
  induction n with
  | zero =>
    intro A B hlen
    rw [List.length_eq_zero.mp (by omega : A.length = 0),
      List.length_eq_zero.mp (by omega : B.length = 0)]
    simp [chunksBy_nil_nil]
  | succ n ih =>
    intro A B hlen
    match A, B with
    | [], [] => simp [chunksBy_nil_nil]
    | [], y :: b =>
      rw [chunksBy_nil_cons]
      intro c hc
      rcases List.mem_cons.mp hc with h | h
      · subst h
        exact ⟨List.Sublist.refl _, List.takeWhile_sublist _⟩
      · have := ih [] _
          (by
            have := dropWhile_self_lt (fun v => decide (f y = f v)) y b (by simp)
            simp only [List.length_nil, List.length_cons] at this hlen ⊢
            omega) c h
        exact ⟨this.1, this.2.trans (List.dropWhile_sublist _)⟩
    | x :: a, [] =>
      rw [chunksBy_cons_nil]
      intro c hc
      rcases List.mem_cons.mp hc with h | h
      · subst h
        exact ⟨List.takeWhile_sublist _, List.Sublist.refl _⟩
      · have := ih _ []
          (by
            have := dropWhile_self_lt (fun v => decide (f x = f v)) x a (by simp)
            simp only [List.length_nil, List.length_cons] at this hlen ⊢
            omega) c h
        exact ⟨this.1.trans (List.dropWhile_sublist _), this.2⟩
    | x :: a, y :: b =>
      rw [chunksBy_cons_cons]
      intro c hc
      rcases List.mem_cons.mp hc with h | h
      · subst h
        exact ⟨List.takeWhile_sublist _, List.takeWhile_sublist _⟩
      · have := ih _ _
          (by
            have := chunksBy_fuel le f x y a b
            simp only [List.length_cons] at this hlen ⊢
            omega) c h
        exact ⟨this.1.trans (List.dropWhile_sublist _),
          this.2.trans (List.dropWhile_sublist _)⟩

end LocustDB

namespace LocustDB

theorem ne_of_dom {α : Type} (le : α → α → Bool) {p q : α} (h1 : le p q = true)
    (h2 : le q p = false) : p ≠ q := by
  intro he
  subst he
  rw [h1] at h2
  simp at h2

theorem chunksBy_split {γ α : Type} [DecidableEq α] (le : α → α → Bool) (f : γ → α) :
    ∀ (n : Nat) (A1 B1 A2 B2 : List γ), A1.length + B1.length ≤ n →
      (∀ u, (u ∈ A1 ∨ u ∈ B1) → ∀ v, (v ∈ A2 ∨ v ∈ B2) →
        le (f u) (f v) = true ∧ le (f v) (f u) = false) →
      chunksBy le f (A1 ++ A2) (B1 ++ B2)
        = chunksBy le f A1 B1 ++ chunksBy le f A2 B2 := by
  intro n
  induction n with
  | zero =>
    intro A1 B1 A2 B2 hlen hb
    rw [List.length_eq_zero.mp (by omega : A1.length = 0),
      List.length_eq_zero.mp (by omega : B1.length = 0)]
    simp [chunksBy_nil_nil]
  | succ n ih =>
    intro A1 B1 A2 B2 hlen hb
    match A1, B1 with
    | [], [] => simp [chunksBy_nil_nil]
    | [], y :: b1 =>
      have hq2 : ∀ v ∈ B2, (fun v => decide (f y = f v)) v = false := by
        intro v hv
        simp only [decide_eq_false_iff_not]
        exact ne_of_dom le (hb y (Or.inr (by simp)) v (Or.inr hv)).1
          (hb y (Or.inr (by simp)) v (Or.inr hv)).2
      have htw := tw_append (fun v => decide (f y = f v)) (y :: b1) B2 hq2
      have key : chunksBy le f A2 ((y :: b1) ++ B2)
          = ([], (y :: b1).takeWhile fun v => decide (f y = f v))
            :: chunksBy le f A2
              (((y :: b1).dropWhile fun v => decide (f y = f v)) ++ B2) := by
        cases A2 with
        | nil =>
          rw [List.cons_append, chunksBy_nil_cons, ← List.cons_append, htw.1, htw.2]
        | cons x a2 =>
          have hp : pickElem le (f x) (f y) = f y := by
            rw [pickElem, if_neg]
            rw [(hb y (Or.inr (by simp)) x (Or.inl (by simp))).2]
            simp
          have hx : (decide (f y = f x)) = false := by
            simp only [decide_eq_false_iff_not]
            have h1 := (hb y (Or.inr (by simp)) x (Or.inl (by simp))).1
            have h2 := (hb y (Or.inr (by simp)) x (Or.inl (by simp))).2
            exact ne_of_dom le h1 h2
          have htwx : (x :: a2).takeWhile (fun v => decide (f y = f v)) = [] := by
            rw [List.takeWhile_cons, hx]
            simp
          have hdwx : (x :: a2).dropWhile (fun v => decide (f y = f v)) = x :: a2 := by
            rw [List.dropWhile_cons, hx]
            simp
          rw [List.cons_append, chunksBy_cons_cons, hp, htwx, hdwx,
            ← List.cons_append, htw.1, htw.2]
      rw [List.nil_append, key, chunksBy_nil_cons, List.cons_append]
      have hrec := ih [] ((y :: b1).dropWhile fun v => decide (f y = f v)) A2 B2
        (by
          have := dropWhile_self_lt (fun v => decide (f y = f v)) y b1 (by simp)
          simp only [List.length_nil, List.length_cons] at this hlen ⊢
          omega)
        (by
          intro u hu v hv
          refine hb u ?_ v hv
          rcases hu with h | h
          · simp at h
          · exact Or.inr (mem_of_mem_dropWhile _ _ u h))
      simp only [List.nil_append] at hrec
      rw [hrec]
    | x :: a1, [] =>
      have hq2 : ∀ v ∈ A2, (fun v => decide (f x = f v)) v = false := by
        intro v hv
        simp only [decide_eq_false_iff_not]
        exact ne_of_dom le (hb x (Or.inl (by simp)) v (Or.inl hv)).1
          (hb x (Or.inl (by simp)) v (Or.inl hv)).2
      have htw := tw_append (fun v => decide (f x = f v)) (x :: a1) A2 hq2
      have key : chunksBy le f ((x :: a1) ++ A2) B2
          = ((x :: a1).takeWhile fun v => decide (f x = f v), [])
            :: chunksBy le f
              (((x :: a1).dropWhile fun v => decide (f x = f v)) ++ A2) B2 := by
        cases B2 with
        | nil =>
          rw [List.cons_append, chunksBy_cons_nil, ← List.cons_append, htw.1, htw.2]
        | cons z b2 =>
          have hp : pickElem le (f x) (f z) = f x := by
            rw [pickElem, if_pos]
            exact (hb x (Or.inl (by simp)) z (Or.inr (by simp))).1
          have hz : (decide (f x = f z)) = false := by
            simp only [decide_eq_false_iff_not]
            have h1 := (hb x (Or.inl (by simp)) z (Or.inr (by simp))).1
            have h2 := (hb x (Or.inl (by simp)) z (Or.inr (by simp))).2
            exact ne_of_dom le h1 h2
          have htwz : (z :: b2).takeWhile (fun v => decide (f x = f v)) = [] := by
            rw [List.takeWhile_cons, hz]
            simp
          have hdwz : (z :: b2).dropWhile (fun v => decide (f x = f v)) = z :: b2 := by
            rw [List.dropWhile_cons, hz]
            simp
          rw [List.cons_append, chunksBy_cons_cons, hp, htwz, hdwz,
            ← List.cons_append, htw.1, htw.2]
      rw [List.nil_append, key, chunksBy_cons_nil, List.cons_append]
      have hrec := ih ((x :: a1).dropWhile fun v => decide (f x = f v)) [] A2 B2
        (by
          have := dropWhile_self_lt (fun v => decide (f x = f v)) x a1 (by simp)
          simp only [List.length_nil, List.length_cons] at this hlen ⊢
          omega)
        (by
          intro u hu v hv
          refine hb u ?_ v hv
          rcases hu with h | h
          · exact Or.inl (mem_of_mem_dropWhile _ _ u h)
          · simp at h)
      simp only [List.nil_append] at hrec
      rw [hrec]
    | x :: a1, y :: b1 =>
      have he : pickElem le (f x) (f y) = f x ∨ pickElem le (f x) (f y) = f y := by
        rw [pickElem]
        by_cases h : le (f x) (f y) = true
        · rw [if_pos h]
          exact Or.inl rfl
        · rw [if_neg h]
          exact Or.inr rfl
      have hqA2 : ∀ v ∈ A2,
          (fun v => decide (pickElem le (f x) (f y) = f v)) v = false := by
        intro v hv
        simp only [decide_eq_false_iff_not]
        rcases he with h | h
        · rw [h]
          exact ne_of_dom le (hb x (Or.inl (by simp)) v (Or.inl hv)).1
            (hb x (Or.inl (by simp)) v (Or.inl hv)).2
        · rw [h]
          exact ne_of_dom le (hb y (Or.inr (by simp)) v (Or.inl hv)).1
            (hb y (Or.inr (by simp)) v (Or.inl hv)).2
      have hqB2 : ∀ v ∈ B2,
          (fun v => decide (pickElem le (f x) (f y) = f v)) v = false := by
        intro v hv
        simp only [decide_eq_false_iff_not]
        rcases he with h | h
        · rw [h]
          exact ne_of_dom le (hb x (Or.inl (by simp)) v (Or.inr hv)).1
            (hb x (Or.inl (by simp)) v (Or.inr hv)).2
        · rw [h]
          exact ne_of_dom le (hb y (Or.inr (by simp)) v (Or.inr hv)).1
            (hb y (Or.inr (by simp)) v (Or.inr hv)).2
      have htwA := tw_append (fun v => decide (pickElem le (f x) (f y) = f v))
        (x :: a1) A2 hqA2
      have htwB := tw_append (fun v => decide (pickElem le (f x) (f y) = f v))
        (y :: b1) B2 hqB2
      rw [List.cons_append, List.cons_append, chunksBy_cons_cons,
        ← List.cons_append x a1 A2, ← List.cons_append y b1 B2,
        htwA.1, htwA.2, htwB.1, htwB.2, chunksBy_cons_cons, List.cons_append]
      have hrec := ih
        ((x :: a1).dropWhile fun v => decide (pickElem le (f x) (f y) = f v))
        ((y :: b1).dropWhile fun v => decide (pickElem le (f x) (f y) = f v))
        A2 B2
        (by
          have := chunksBy_fuel le f x y a1 b1
          simp only [List.length_cons] at this hlen ⊢
          omega)
        (by
          intro u hu v hv
          refine hb u ?_ v hv
          rcases hu with h | h
          · exact Or.inl (mem_of_mem_dropWhile _ _ u h)
          · exact Or.inr (mem_of_mem_dropWhile _ _ u h))
      rw [hrec]

end LocustDB

namespace LocustDB

theorem dropWhile_strict_above {γ α : Type} (le : α → α → Bool) (f : γ → α)
    (hanti : ∀ p q, le p q = true → le q p = true → p = q)
    (htrans : ∀ p q r, le p q = true → le q r = true → le p r = true)
    (e : α) [DecidableEq α] :
    ∀ l : List γ, List.Pairwise (fun u v => le (f u) (f v) = true) l →
      (∀ w ∈ l, le e (f w) = true) →
      ∀ w ∈ l.dropWhile fun v => decide (e = f v),
        le e (f w) = true ∧ le (f w) e = false := by
  intro l
  induction l with
  | nil =>
    intro _ _ w hw
    simp at hw
  | cons v l' ih =>
    intro hp hall w hw
    by_cases hv : decide (e = f v) = true
    · rw [List.dropWhile_cons, if_pos hv] at hw
      exact ih (List.Pairwise.of_cons hp) (fun u hu => hall u (by simp [hu])) w hw
    · rw [List.dropWhile_cons, if_neg hv] at hw
      have hvne : e ≠ f v := by simpa using hv
      rcases List.mem_cons.mp hw with h | h
      · subst h
        refine ⟨hall w (by simp), ?_⟩
        by_cases hwe : le (f w) e = true
        · exact absurd (hanti _ _ hwe (hall w (by simp))) fun hh => hvne hh.symm
        · rw [Bool.not_eq_true] at hwe
          exact hwe
      · refine ⟨hall w (by simp [h]), ?_⟩
        have hvw : le (f v) (f w) = true := (List.pairwise_cons.mp hp).1 w h
        by_cases hwe : le (f w) e = true
        · have h1 : le (f v) e = true := htrans _ _ _ hvw hwe
          have h2 := hanti _ _ h1 (hall v (by simp))
          exact absurd h2.symm hvne
        · rw [Bool.not_eq_true] at hwe
          exact hwe

theorem chunksBy_dominance {γ α : Type} [DecidableEq α] (le : α → α → Bool) (f : γ → α)
    (hrefl : ∀ p, le p p = true)
    (htot : ∀ p q, le p q = true ∨ le q p = true)
    (hanti : ∀ p q, le p q = true → le q p = true → p = q)
    (htrans : ∀ p q r, le p q = true → le q r = true → le p r = true) :
    ∀ (n : Nat) (A B : List γ), A.length + B.length ≤ n →
      List.Pairwise (fun u v => le (f u) (f v) = true) A →
      List.Pairwise (fun u v => le (f u) (f v) = true) B →
      List.Pairwise (fun c d => ∀ u, u ∈ c.1 ++ c.2 → ∀ v, v ∈ d.1 ++ d.2 →
        le (f u) (f v) = true ∧ le (f v) (f u) = false) (chunksBy le f A B) := by
  intro n
  induction n with
  | zero =>
    intro A B hlen _ _
    rw [List.length_eq_zero.mp (by omega : A.length = 0),
      List.length_eq_zero.mp (by omega : B.length = 0)]
    simp [chunksBy_nil_nil]
  | succ n ih =>
    intro A B hlen hA hB
    match A, B with
    | [], [] => simp [chunksBy_nil_nil]
    | [], y :: b =>
      have hallB : ∀ w ∈ y :: b, le (f y) (f w) = true := by
        intro w hw
        rcases List.mem_cons.mp hw with h | h
        · rw [h]
          exact hrefl _
        · exact (List.pairwise_cons.mp hB).1 w h
      have hstrict := dropWhile_strict_above le f hanti htrans (f y) (y :: b) hB hallB
      rw [chunksBy_nil_cons]
      refine List.Pairwise.cons ?_ ?_
      · intro d hd u hu v hv
        simp only [List.nil_append] at hu
        have hu2 := List.mem_takeWhile_imp hu
        simp only [decide_eq_true_eq] at hu2
        have hsub := chunksBy_sublist le f
          (((y :: b).dropWhile fun v => decide (f y = f v)).length) []
          ((y :: b).dropWhile fun v => decide (f y = f v)) (by simp) d hd
        rcases List.mem_append.mp hv with h | h
        · exact absurd (hsub.1.subset h) (by simp)
        · have := hstrict v (hsub.2.subset h)
          rw [← hu2]
          exact this
      · exact ih [] _
          (by
            have := dropWhile_self_lt (fun v => decide (f y = f v)) y b (by simp)
            simp only [List.length_nil, List.length_cons] at this hlen ⊢
            omega)
          List.Pairwise.nil (hB.sublist (List.dropWhile_sublist _))
    | x :: a, [] =>
      have hallA : ∀ w ∈ x :: a, le (f x) (f w) = true := by
        intro w hw
        rcases List.mem_cons.mp hw with h | h
        · rw [h]
          exact hrefl _
        · exact (List.pairwise_cons.mp hA).1 w h
      have hstrict := dropWhile_strict_above le f hanti htrans (f x) (x :: a) hA hallA
      rw [chunksBy_cons_nil]
      refine List.Pairwise.cons ?_ ?_
      · intro d hd u hu v hv
        simp only [List.append_nil] at hu
        have hu2 := List.mem_takeWhile_imp hu
        simp only [decide_eq_true_eq] at hu2
        have hsub := chunksBy_sublist le f
          (((x :: a).dropWhile fun v => decide (f x = f v)).length)
          ((x :: a).dropWhile fun v => decide (f x = f v)) [] (by simp) d hd
        rcases List.mem_append.mp hv with h | h
        · have := hstrict v (hsub.1.subset h)
          rw [← hu2]
          exact this
        · exact absurd (hsub.2.subset h) (by simp)
      · exact ih _ []
          (by
            have := dropWhile_self_lt (fun v => decide (f x = f v)) x a (by simp)
            simp only [List.length_nil, List.length_cons] at this hlen ⊢
            omega)
          (hA.sublist (List.dropWhile_sublist _)) List.Pairwise.nil
    | x :: a, y :: b =>
      have hex : le (pickElem le (f x) (f y)) (f x) = true
          ∧ le (pickElem le (f x) (f y)) (f y) = true := by
        rw [pickElem]
        by_cases h : le (f x) (f y) = true
        · rw [if_pos h]
          exact ⟨hrefl _, h⟩
        · rw [if_neg h]
          rcases htot (f x) (f y) with h2 | h2
          · exact absurd h2 h
          · exact ⟨h2, hrefl _⟩
      have hallA : ∀ w ∈ x :: a, le (pickElem le (f x) (f y)) (f w) = true := by
        intro w hw
        rcases List.mem_cons.mp hw with h | h
        · rw [h]
          exact hex.1
        · exact htrans _ _ _ hex.1 ((List.pairwise_cons.mp hA).1 w h)
      have hallB : ∀ w ∈ y :: b, le (pickElem le (f x) (f y)) (f w) = true := by
        intro w hw
        rcases List.mem_cons.mp hw with h | h
        · rw [h]
          exact hex.2
        · exact htrans _ _ _ hex.2 ((List.pairwise_cons.mp hB).1 w h)
      have hstrictA := dropWhile_strict_above le f hanti htrans
        (pickElem le (f x) (f y)) (x :: a) hA hallA
      have hstrictB := dropWhile_strict_above le f hanti htrans
        (pickElem le (f x) (f y)) (y :: b) hB hallB
      rw [chunksBy_cons_cons]
      refine List.Pairwise.cons ?_ ?_
      · intro d hd u hu v hv
        have hu2 : pickElem le (f x) (f y) = f u := by
          rcases List.mem_append.mp hu with h | h
          · have := List.mem_takeWhile_imp h
            simpa using this
          · have := List.mem_takeWhile_imp h
            simpa using this
        have hsub := chunksBy_sublist le f
          (((x :: a).dropWhile fun v => decide (pickElem le (f x) (f y) = f v)).length
            + ((y :: b).dropWhile fun v => decide (pickElem le (f x) (f y) = f v)).length)
          ((x :: a).dropWhile fun v => decide (pickElem le (f x) (f y) = f v))
          ((y :: b).dropWhile fun v => decide (pickElem le (f x) (f y) = f v))
          (by omega) d hd
        rcases List.mem_append.mp hv with h | h
        · have := hstrictA v (hsub.1.subset h)
          rw [← hu2]
          exact this
        · have := hstrictB v (hsub.2.subset h)
          rw [← hu2]
          exact this
      · exact ih _ _
          (by
            have := chunksBy_fuel le f x y a b
            simp only [List.length_cons] at this hlen ⊢
            omega)
          (hA.sublist (List.dropWhile_sublist _)) (hB.sublist (List.dropWhile_sublist _))

end LocustDB

namespace LocustDB

theorem partPhase2_nil {α : Type} [DecidableEq α] (limit i j : Nat) :
    partPhase2 limit ([] : List α) i j = ([], i) := by
  simp [partPhase2]

theorem partPhase2_cons {α : Type} [DecidableEq α] (limit : Nat) (x : α) (a : List α)
    (i j : Nat) (h : i + j < limit) :
    partPhase2 limit (x :: a) i j
      = (⟨(countRun x (x :: a)).1 % 2 ^ 32, 0⟩
            :: (partPhase2 limit (countRun x (x :: a)).2 (i + (countRun x (x :: a)).1) j).1,
          (partPhase2 limit (countRun x (x :: a)).2 (i + (countRun x (x :: a)).1) j).2) := by
  simp [partPhase2, h]

theorem partPhase3_nil {α : Type} [DecidableEq α] (limit i j : Nat) :
    partPhase3 limit ([] : List α) i j = [] := by
  simp [partPhase3]

theorem partPhase3_cons {α : Type} [DecidableEq α] (limit : Nat) (x : α) (a : List α)
    (i j : Nat) (h : i + j < limit) :
    partPhase3 limit (x :: a) i j
      = ⟨0, (countRun x (x :: a)).1 % 2 ^ 32⟩
          :: partPhase3 limit (countRun x (x :: a)).2 i (j + (countRun x (x :: a)).1) := by
  simp [partPhase3, h]

theorem partPhase1_nil_left {α : Type} [DecidableEq α] (le : α → α → Bool)
    (limit : Nat) (b : List α) (i j : Nat) :
    partPhase1 le limit [] b i j = ([], [], b, i, j) := by
  simp [partPhase1]

theorem partPhase1_nil_right {α : Type} [DecidableEq α] (le : α → α → Bool)
    (limit : Nat) (x : α) (a : List α) (i j : Nat) :
    partPhase1 le limit (x :: a) [] i j = ([], x :: a, [], i, j) := by
  simp [partPhase1]

theorem partPhase1_cons {α : Type} [DecidableEq α] (le : α → α → Bool) (limit : Nat)
    (x y : α) (a b : List α) (i j : Nat) (h : i + j < limit) :
    partPhase1 le limit (x :: a) (y :: b) i j
      = (⟨(countRun (pickElem le x y) (x :: a)).1 % 2 ^ 32,
            (countRun (pickElem le x y) (y :: b)).1 % 2 ^ 32⟩
            :: (partPhase1 le limit (countRun (pickElem le x y) (x :: a)).2
                (countRun (pickElem le x y) (y :: b)).2
                (i + (countRun (pickElem le x y) (x :: a)).1)
                (j + (countRun (pickElem le x y) (y :: b)).1)).1,
          (partPhase1 le limit (countRun (pickElem le x y) (x :: a)).2
            (countRun (pickElem le x y) (y :: b)).2
            (i + (countRun (pickElem le x y) (x :: a)).1)
            (j + (countRun (pickElem le x y) (y :: b)).1)).2) := by
  simp [partPhase1, h]

theorem partPhase2_spec {α : Type} [DecidableEq α] (le : α → α → Bool) (limit : Nat) :
    ∀ (n : Nat) (a : List α) (i j : Nat), a.length ≤ n → i + j + a.length ≤ limit →
      (partPhase2 limit a i j).1 = subGroup le a []
        ∧ (partPhase2 limit a i j).2 = i + a.length := by
  intro n
  induction n with
  | zero =>
    intro a i j hlen _
    rw [List.length_eq_zero.mp (by omega : a.length = 0)]
    simp [partPhase2_nil, subGroup_nil_nil]
  | succ n ih =>
    intro a i j hlen hlim
    match a with
    | [] => simp [partPhase2_nil, subGroup_nil_nil]
    | x :: a =>
      have hcons := countRun_conserve x (x :: a)
      have hpos := countRun_cons_self_pos x a
      have hrec := ih (countRun x (x :: a)).2 (i + (countRun x (x :: a)).1) j
        (by simp only [List.length_cons] at hcons hlen ⊢; omega)
        (by simp only [List.length_cons] at hcons hlim ⊢; omega)
      rw [partPhase2_cons limit x a i j
        (by simp only [List.length_cons] at hlim; omega)]
      rw [subGroup_cons_nil]
      refine ⟨by rw [hrec.1], ?_⟩
      rw [hrec.2]
      simp only [List.length_cons] at hcons ⊢
      omega

theorem partPhase3_spec {α : Type} [DecidableEq α] (le : α → α → Bool) (limit : Nat) :
    ∀ (n : Nat) (b : List α) (i j : Nat), b.length ≤ n → i + j + b.length ≤ limit →
      partPhase3 limit b i j = subGroup le [] b := by
  intro n
  induction n with
  | zero =>
    intro b i j hlen _
    rw [List.length_eq_zero.mp (by omega : b.length = 0)]
    simp [partPhase3_nil, subGroup_nil_nil]
  | succ n ih =>
    intro b i j hlen hlim
    match b with
    | [] => simp [partPhase3_nil, subGroup_nil_nil]
    | y :: b =>
      have hcons := countRun_conserve y (y :: b)
      have hpos := countRun_cons_self_pos y b
      have hrec := ih (countRun y (y :: b)).2 i (j + (countRun y (y :: b)).1)
        (by simp only [List.length_cons] at hcons hlen ⊢; omega)
        (by simp only [List.length_cons] at hcons hlim ⊢; omega)
      rw [partPhase3_cons limit y b i j
        (by simp only [List.length_cons] at hlim; omega)]
      rw [subGroup_nil_cons, hrec]

theorem partPhase1_spec {α : Type} [DecidableEq α] (le : α → α → Bool) (limit : Nat) :
    ∀ (n : Nat) (a b : List α) (i j : Nat), a.length + b.length ≤ n →
      i + j + a.length + b.length ≤ limit →
      ((partPhase1 le limit a b i j).2.1 = [] ∨ (partPhase1 le limit a b i j).2.2.1 = [])
      ∧ (partPhase1 le limit a b i j).2.2.2.1 + (partPhase1 le limit a b i j).2.2.2.2
          + (partPhase1 le limit a b i j).2.1.length
          + (partPhase1 le limit a b i j).2.2.1.length
        = i + j + a.length + b.length
      ∧ subGroup le a b
        = (partPhase1 le limit a b i j).1
            ++ subGroup le (partPhase1 le limit a b i j).2.1
                (partPhase1 le limit a b i j).2.2.1 := by
  intro n
  induction n with
  | zero =>
    intro a b i j hlen _
    rw [List.length_eq_zero.mp (by omega : a.length = 0),
      List.length_eq_zero.mp (by omega : b.length = 0)]
    simp [partPhase1_nil_left]
  | succ n ih =>
    intro a b i j hlen hlim
    match a, b with
    | [], b =>
      rw [partPhase1_nil_left]
      exact ⟨Or.inl rfl, by simp, by simp⟩
    | x :: a, [] =>
      rw [partPhase1_nil_right]
      exact ⟨Or.inr rfl, by simp, by simp⟩
    | x :: a, y :: b =>
      have h1 := countRun_conserve (pickElem le x y) (x :: a)
      have h2 := countRun_conserve (pickElem le x y) (y :: b)
      have h3 := countRun_pick_pos le x y a b
      have hstep : i + j < limit := by
        simp only [List.length_cons] at hlim
        omega
      have hrec := ih (countRun (pickElem le x y) (x :: a)).2
        (countRun (pickElem le x y) (y :: b)).2
        (i + (countRun (pickElem le x y) (x :: a)).1)
        (j + (countRun (pickElem le x y) (y :: b)).1)
        (by simp only [List.length_cons] at h1 h2 hlen ⊢; omega)
        (by simp only [List.length_cons] at h1 h2 hlim ⊢; omega)
      rw [partPhase1_cons le limit x y a b i j hstep]
      refine ⟨hrec.1, ?_, ?_⟩
      · have := hrec.2.1
        simp only [List.length_cons] at h1 h2 ⊢
        omega
      · rw [subGroup_cons_cons, hrec.2.2, List.cons_append]

theorem partition_eq_subGroup {α : Type} [DecidableEq α] (le : α → α → Bool)
    (a b : List α) (limit : Nat) (h : a.length + b.length ≤ limit) :
    partition le a b limit = subGroup le a b := by
  obtain ⟨hdisj, hsum, hsub⟩ := partPhase1_spec le limit (a.length + b.length) a b 0 0
    (le_refl _) (by omega)
  simp only [partition]
  rcases hdisj with hA | hB
  · rw [hA] at hsum hsub ⊢
    simp only [List.length_nil] at hsum
    simp only [partPhase2_nil]
    rw [partPhase3_spec le limit (partPhase1 le limit a b 0 0).2.2.1.length
      (partPhase1 le limit a b 0 0).2.2.1
      (partPhase1 le limit a b 0 0).2.2.2.1
      (partPhase1 le limit a b 0 0).2.2.2.2 (le_refl _) (by omega)]
    rw [hsub]
    simp
  · rw [hB] at hsum hsub ⊢
    simp only [List.length_nil] at hsum
    have hp2 := partPhase2_spec le limit (partPhase1 le limit a b 0 0).2.1.length
      (partPhase1 le limit a b 0 0).2.1
      (partPhase1 le limit a b 0 0).2.2.2.1
      (partPhase1 le limit a b 0 0).2.2.2.2 (le_refl _) (by omega)
    rw [hp2.1, partPhase3_nil, hsub]
    simp

end LocustDB

namespace LocustDB

theorem subpartition_chunks {γ α : Type} [DecidableEq α] (le : α → α → Bool) (g : γ → α) :
    ∀ chunks : List (List γ × List γ),
      subpartition le (chunks.map fun c => ⟨c.1.length, c.2.length⟩)
        ((chunks.map Prod.fst).flatten.map g) ((chunks.map Prod.snd).flatten.map g)
        = (chunks.map fun c => subGroup le (c.1.map g) (c.2.map g)).flatten := by
  intro chunks
  induction chunks with
  | nil => simp [subpartition]
  | cons c chunks ih =>
    simp only [List.map_cons, List.flatten_cons, List.map_append, subpartition]
    rw [List.take_left' (by simp), List.take_left' (by simp),
      List.drop_left' (by simp), List.drop_left' (by simp), ih]

theorem mdp_flatten {γ α : Type} [DecidableEq α] (le : α → α → Bool) (g : γ → α) :
    ∀ chunks : List (List γ × List γ),
      merge_deduplicate_partitioned le (chunks.map fun c => ⟨c.1.length, c.2.length⟩)
        ((chunks.map Prod.fst).flatten.map g) ((chunks.map Prod.snd).flatten.map g)
        = ((chunks.map fun c => (mdpGroup le none (c.1.map g) (c.2.map g)).1).flatten,
            (chunks.map fun c => (mdpGroup le none (c.1.map g) (c.2.map g)).2).flatten) := by
  intro chunks
  induction chunks with
  | nil => simp [merge_deduplicate_partitioned]
  | cons c chunks ih =>
    simp only [List.map_cons, List.flatten_cons, List.map_append,
      merge_deduplicate_partitioned]
    rw [List.take_left' (by simp), List.take_left' (by simp),
      List.drop_left' (by simp), List.drop_left' (by simp), ih]

end LocustDB

namespace LocustDB

theorem go_cc_mr {α : Type} [DecidableEq α] (le : α → α → Bool) (last : Option α)
    (x y : α) (a b : List α) (h : last = some y) :
    mergeDedupGo le last (x :: a) (y :: b)
      = ((mergeDedupGo le last (x :: a) b).1,
          .mergeRight :: (mergeDedupGo le last (x :: a) b).2) := by
  simp [mergeDedupGo, h]

theorem go_cc_tl {α : Type} [DecidableEq α] (le : α → α → Bool) (last : Option α)
    (x y : α) (a b : List α) (h1 : last ≠ some y) (h2 : le x y = true) :
    mergeDedupGo le last (x :: a) (y :: b)
      = (x :: (mergeDedupGo le (some x) a (y :: b)).1,
          .takeLeft :: (mergeDedupGo le (some x) a (y :: b)).2) := by
  simp [mergeDedupGo, h1, h2]

theorem go_cc_tr {α : Type} [DecidableEq α] (le : α → α → Bool) (last : Option α)
    (x y : α) (a b : List α) (h1 : last ≠ some y) (h2 : le x y = false) :
    mergeDedupGo le last (x :: a) (y :: b)
      = (y :: (mergeDedupGo le (some y) (x :: a) b).1,
          .takeRight :: (mergeDedupGo le (some y) (x :: a) b).2) := by
  simp [mergeDedupGo, h1, h2]

theorem go_right_nil {α : Type} [DecidableEq α] (le : α → α → Bool) (last : Option α)
    (a : List α) :
    mergeDedupGo le last a [] = (a, a.map fun _ => .takeLeft) := by
  cases a <;> simp [mergeDedupGo]

theorem go_left_nil_mr {α : Type} [DecidableEq α] (le : α → α → Bool) (last : Option α)
    (y : α) (b : List α) (h : last = some y) :
    mergeDedupGo le last [] (y :: b) = (b, .mergeRight :: b.map fun _ => .takeRight) := by
  simp [mergeDedupGo, h]

theorem go_left_nil_ne {α : Type} [DecidableEq α] (le : α → α → Bool) (last : Option α)
    (y : α) (b : List α) (h : last ≠ some y) :
    mergeDedupGo le last [] (y :: b)
      = (y :: b, .takeRight :: b.map fun _ => .takeRight) := by
  simp [mergeDedupGo, h]

theorem go_left_nil_all {α : Type} [DecidableEq α] (le : α → α → Bool) (last : Option α)
    (b : List α) (h : ∀ z ∈ b, last ≠ some z) :
    mergeDedupGo le last [] b = (b, b.map fun _ => .takeRight) := by
  cases b with
  | nil => simp [go_right_nil]
  | cons y b => simp [go_left_nil_ne le last y b (h y (by simp))]

theorem go_none_of_lt {α : Type} [DecidableEq α] (le : α → α → Bool) (last : Option α)
    (a b : List α) (h : ∀ z ∈ b, last ≠ some z) :
    mergeDedupGo le last a b = mergeDedupGo le none a b := by
  cases a with
  | nil =>
    rw [go_left_nil_all le last b h, go_left_nil_all le none b (by simp)]
  | cons x a =>
    cases b with
    | nil => rw [go_right_nil, go_right_nil]
    | cons y b =>
      have h1 : last ≠ some y := h y (by simp)
      have h2 : (none : Option α) ≠ some y := by simp
      by_cases hle : le x y = true
      · rw [go_cc_tl le last x y a b h1 hle, go_cc_tl le none x y a b h2 hle]
      · rw [Bool.not_eq_true] at hle
        rw [go_cc_tr le last x y a b h1 hle, go_cc_tr le none x y a b h2 hle]

end LocustDB

namespace LocustDB

theorem mergeDedupGo_split {α : Type} [DecidableEq α] (le : α → α → Bool)
    (htot : ∀ p q, le p q = true ∨ le q p = true)
    (htrans : ∀ p q r, le p q = true → le q r = true → le p r = true) :
    ∀ (n : Nat) (A1 B1 A2 B2 : List α) (last : Option α),
      A1.length + B1.length ≤ n →
      List.Pairwise (fun u v => le u v = true ∧ le v u = false) A1 →
      List.Pairwise (fun u v => le u v = true ∧ le v u = false) B1 →
      (∀ u ∈ A1, ∀ l, last = some l → le l u = true ∧ le u l = false) →
      (∀ v ∈ B1, ∀ l, last = some l → le l v = true) →
      (∀ w, (w ∈ A2 ∨ w ∈ B2) → ∀ l, last = some l → le l w = true ∧ le w l = false) →
      (∀ u, (u ∈ A1 ∨ u ∈ B1) → ∀ v, (v ∈ A2 ∨ v ∈ B2) →
        le u v = true ∧ le v u = false) →
      mergeDedupGo le last (A1 ++ A2) (B1 ++ B2)
        = ((mergeDedupGo le last A1 B1).1 ++ (mergeDedupGo le none A2 B2).1,
            (mergeDedupGo le last A1 B1).2 ++ (mergeDedupGo le none A2 B2).2) := by
  intro n
  induction n with
  | zero =>
    intro A1 B1 A2 B2 last hlen hA1 hB1 hlastA hlastB hlast2 hb
    rw [List.length_eq_zero.mp (by omega : A1.length = 0),
      List.length_eq_zero.mp (by omega : B1.length = 0)]
    have hne : ∀ z ∈ B2, last ≠ some z := by
      intro z hz heq
      have h1 := (hlast2 z (Or.inr hz) z heq).1
      have h2 := (hlast2 z (Or.inr hz) z heq).2
      rw [h1] at h2
      simp at h2
    rw [List.nil_append, List.nil_append, go_none_of_lt le last A2 B2 hne,
      go_right_nil le last []]
    simp
  | succ n ih =>
    intro A1 B1 A2 B2 last hlen hA1 hB1 hlastA hlastB hlast2 hb
    match A1, B1 with
    | [], [] =>
      have hne : ∀ z ∈ B2, last ≠ some z := by
        intro z hz heq
        have h1 := (hlast2 z (Or.inr hz) z heq).1
        have h2 := (hlast2 z (Or.inr hz) z heq).2
        rw [h1] at h2
        simp at h2
      rw [List.nil_append, List.nil_append, go_none_of_lt le last A2 B2 hne,
        go_right_nil le last []]
      simp
    | [], y :: b1 =>
      have hyb1 : ∀ z ∈ b1, y ≠ z := by
        intro z hz heq
        have h1 := ((List.pairwise_cons.mp hB1).1 z hz).1
        have h2 := ((List.pairwise_cons.mp hB1).1 z hz).2
        subst heq
        rw [h1] at h2
        simp at h2
      simp only [List.nil_append, List.cons_append]
      by_cases hm : last = some y
      · cases A2 with
        | nil =>
          rw [go_left_nil_mr le last y (b1 ++ B2) hm, go_left_nil_mr le last y b1 hm,
            go_left_nil_all le none B2 (by simp)]
          simp [List.map_append]
        | cons x a2 =>
          rw [go_cc_mr le last x y a2 (b1 ++ B2) hm]
          have hrec := ih [] b1 (x :: a2) B2 last
            (by simp only [List.length_nil, List.length_cons] at hlen ⊢; omega)
            List.Pairwise.nil (List.pairwise_cons.mp hB1).2
            (by intro u hu; simp at hu)
            (by
              intro v hv l hl
              rw [hm] at hl
              have hly : l = y := (Option.some.inj hl).symm
              rw [hly]
              exact ((List.pairwise_cons.mp hB1).1 v hv).1)
            hlast2
            (by
              intro u hu v hv
              refine hb u ?_ v hv
              rcases hu with h | h
              · simp at h
              · exact Or.inr (by simp [h]))
          simp only [List.nil_append] at hrec
          rw [hrec, go_left_nil_mr le last y b1 hm,
            go_left_nil_all le last b1
              (by
                intro z hz hc
                rw [hm] at hc
                exact hyb1 z hz (Option.some.inj hc))]
          simp
      · cases A2 with
        | nil =>
          rw [go_left_nil_ne le last y (b1 ++ B2) hm, go_left_nil_ne le last y b1 hm,
            go_left_nil_all le none B2 (by simp)]
          simp [List.map_append]
        | cons x a2 =>
          have hyx := hb y (Or.inr (by simp)) x (Or.inl (by simp))
          rw [go_cc_tr le last x y a2 (b1 ++ B2) hm hyx.2]
          have hrec := ih [] b1 (x :: a2) B2 (some y)
            (by simp only [List.length_nil, List.length_cons] at hlen ⊢; omega)
            List.Pairwise.nil (List.pairwise_cons.mp hB1).2
            (by intro u hu; simp at hu)
            (by
              intro v hv l hl
              have hly : l = y := (Option.some.inj hl).symm
              rw [hly]
              exact ((List.pairwise_cons.mp hB1).1 v hv).1)
            (by
              intro w hw l hl
              have hly : l = y := (Option.some.inj hl).symm
              rw [hly]
              exact hb y (Or.inr (by simp)) w hw)
            (by
              intro u hu v hv
              refine hb u ?_ v hv
              rcases hu with h | h
              · simp at h
              · exact Or.inr (by simp [h]))
          simp only [List.nil_append] at hrec
          rw [hrec, go_left_nil_ne le last y b1 hm,
            go_left_nil_all le (some y) b1
              (by
                intro z hz hc
                exact hyb1 z hz (Option.some.inj hc))]
          simp
    | x :: a1, [] =>
      simp only [List.nil_append, List.cons_append]
      cases B2 with
      | nil =>
        rw [go_right_nil le last (x :: (a1 ++ A2)), go_right_nil le last (x :: a1),
          go_right_nil le none A2]
        simp [List.map_append]
      | cons z b2 =>
        have hm : last ≠ some z := by
          intro heq
          have h1 := (hlast2 z (Or.inr (by simp)) z heq).1
          have h2 := (hlast2 z (Or.inr (by simp)) z heq).2
          rw [h1] at h2
          simp at h2
        have hxz : le x z = true := (hb x (Or.inl (by simp)) z (Or.inr (by simp))).1
        rw [go_cc_tl le last x z (a1 ++ A2) b2 hm hxz]
        have hrec := ih a1 [] A2 (z :: b2) (some x)
          (by simp only [List.length_nil, List.length_cons] at hlen ⊢; omega)
          (List.pairwise_cons.mp hA1).2 List.Pairwise.nil
          (by
            intro u hu l hl
            have hlx : l = x := (Option.some.inj hl).symm
            rw [hlx]
            exact (List.pairwise_cons.mp hA1).1 u hu)
          (by intro v hv; simp at hv)
          (by
            intro w hw l hl
            have hlx : l = x := (Option.some.inj hl).symm
            rw [hlx]
            exact hb x (Or.inl (by simp)) w hw)
          (by
            intro u hu v hv
            refine hb u ?_ v hv
            rcases hu with h | h
            · exact Or.inl (by simp [h])
            · simp at h)
        simp only [List.nil_append] at hrec
        rw [hrec, go_right_nil le last (x :: a1), go_right_nil le (some x) a1]
        simp
    | x :: a1, y :: b1 =>
      simp only [List.cons_append]
      by_cases hm : last = some y
      · rw [go_cc_mr le last x y (a1 ++ A2) (b1 ++ B2) hm,
          go_cc_mr le last x y a1 b1 hm]
        have hrec := ih (x :: a1) b1 A2 B2 last
          (by simp only [List.length_cons] at hlen ⊢; omega)
          hA1 (List.pairwise_cons.mp hB1).2
          hlastA
          (by
            intro v hv l hl
            rw [hm] at hl
            have hly : l = y := (Option.some.inj hl).symm
            rw [hly]
            exact ((List.pairwise_cons.mp hB1).1 v hv).1)
          hlast2
          (by
            intro u hu v hv
            refine hb u ?_ v hv
            rcases hu with h | h
            · exact Or.inl h
            · exact Or.inr (by simp [h]))
        simp only [List.cons_append] at hrec
        rw [hrec]
        simp
      · by_cases hle : le x y = true
        · rw [go_cc_tl le last x y (a1 ++ A2) (b1 ++ B2) hm hle,
            go_cc_tl le last x y a1 b1 hm hle]
          have hrec := ih a1 (y :: b1) A2 B2 (some x)
            (by simp only [List.length_cons] at hlen ⊢; omega)
            (List.pairwise_cons.mp hA1).2 hB1
            (by
              intro u hu l hl
              have hlx : l = x := (Option.some.inj hl).symm
              rw [hlx]
              exact (List.pairwise_cons.mp hA1).1 u hu)
            (by
              intro v hv l hl
              have hlx : l = x := (Option.some.inj hl).symm
              rw [hlx]
              rcases List.mem_cons.mp hv with h | h
              · rw [h]
                exact hle
              · exact htrans x y v hle ((List.pairwise_cons.mp hB1).1 v h).1)
            (by
              intro w hw l hl
              have hlx : l = x := (Option.some.inj hl).symm
              rw [hlx]
              exact hb x (Or.inl (by simp)) w hw)
            (by
              intro u hu v hv
              refine hb u ?_ v hv
              rcases hu with h | h
              · exact Or.inl (by simp [h])
              · exact Or.inr h)
          simp only [List.cons_append] at hrec
          rw [hrec]
          simp
        · rw [Bool.not_eq_true] at hle
          have hyx : le y x = true := by
            rcases htot x y with h | h
            · rw [h] at hle
              simp at hle
            · exact h
          rw [go_cc_tr le last x y (a1 ++ A2) (b1 ++ B2) hm hle,
            go_cc_tr le last x y a1 b1 hm hle]
          have hrec := ih (x :: a1) b1 A2 B2 (some y)
            (by simp only [List.length_cons] at hlen ⊢; omega)
            hA1 (List.pairwise_cons.mp hB1).2
            (by
              intro u hu l hl
              have hly : l = y := (Option.some.inj hl).symm
              rw [hly]
              rcases List.mem_cons.mp hu with h | h
              · subst h
                exact ⟨hyx, hle⟩
              · have hxu := (List.pairwise_cons.mp hA1).1 u h
                refine ⟨htrans y x u hyx hxu.1, ?_⟩
                by_cases huy : le u y = true
                · exfalso
                  have hux : le u x = true := htrans u y x huy hyx
                  have h2 := hxu.2
                  rw [hux] at h2
                  simp at h2
                · rw [Bool.not_eq_true] at huy
                  exact huy)
            (by
              intro v hv l hl
              have hly : l = y := (Option.some.inj hl).symm
              rw [hly]
              exact ((List.pairwise_cons.mp hB1).1 v hv).1)
            (by
              intro w hw l hl
              have hly : l = y := (Option.some.inj hl).symm
              rw [hly]
              exact hb y (Or.inr (by simp)) w hw)
            (by
              intro u hu v hv
              refine hb u ?_ v hv
              rcases hu with h | h
              · exact Or.inl h
              · exact Or.inr (by simp [h]))
          simp only [List.cons_append] at hrec
          rw [hrec]
          simp

end LocustDB

namespace LocustDB

theorem mergeDedupGo_translate {γ α β : Type} [DecidableEq α] [DecidableEq β]
    (le1 : α → α → Bool) (le2 : β → β → Bool) (f : γ → α) (g : γ → β) :
    ∀ (n : Nat) (xs ys : List γ) (lw : Option γ), xs.length + ys.length ≤ n →
      (∀ u, (u ∈ lw.toList ∨ u ∈ xs ∨ u ∈ ys) →
        ∀ v, (v ∈ lw.toList ∨ v ∈ xs ∨ v ∈ ys) →
          le1 (f u) (f v) = le2 (g u) (g v) ∧ ((f u = f v) ↔ (g u = g v))) →
      (mergeDedupGo le1 (lw.map f) (xs.map f) (ys.map f)).2
        = (mergeDedupGo le2 (lw.map g) (xs.map g) (ys.map g)).2 := by
  intro n
  induction n with
  | zero =>
    intro xs ys lw hlen hcorr
    rw [List.length_eq_zero.mp (by omega : xs.length = 0),
      List.length_eq_zero.mp (by omega : ys.length = 0)]
    simp [go_right_nil]
  | succ n ih =>
    intro xs ys lw hlen hcorr
    match xs, ys with
    | xs, [] =>
      simp [go_right_nil]
    | [], y :: ys =>
      cases lw with
      | none =>
        simp only [Option.map_none', List.map_nil, List.map_cons]
        rw [go_left_nil_ne le1 none (f y) (ys.map f) (by simp),
          go_left_nil_ne le2 none (g y) (ys.map g) (by simp)]
        simp
      | some w =>
        have hwy := hcorr w (Or.inl (by simp)) y (Or.inr (Or.inr (by simp)))
        simp only [Option.map_some', List.map_nil, List.map_cons]
        by_cases hw : f w = f y
        · have hw2 : g w = g y := hwy.2.mp hw
          rw [go_left_nil_mr le1 (some (f w)) (f y) (ys.map f) (by rw [hw]),
            go_left_nil_mr le2 (some (g w)) (g y) (ys.map g) (by rw [hw2])]
          simp
        · have hw2 : ¬ g w = g y := fun h => hw (hwy.2.mpr h)
          rw [go_left_nil_ne le1 (some (f w)) (f y) (ys.map f) (by simpa using hw),
            go_left_nil_ne le2 (some (g w)) (g y) (ys.map g) (by simpa using hw2)]
          simp
    | x :: xs, y :: ys =>
      have hxy := hcorr x (Or.inr (Or.inl (by simp))) y (Or.inr (Or.inr (by simp)))
      have hstep : ∀ (lw2 : Option γ),
          (∀ u, (u ∈ lw2.toList ∨ u ∈ x :: xs ∨ u ∈ y :: ys) →
            ∀ v, (v ∈ lw2.toList ∨ v ∈ x :: xs ∨ v ∈ y :: ys) →
              le1 (f u) (f v) = le2 (g u) (g v) ∧ ((f u = f v) ↔ (g u = g v))) →
          (mergeDedupGo le1 (lw2.map f) ((x :: xs).map f) ((ys).map f)).2
            = (mergeDedupGo le2 (lw2.map g) ((x :: xs).map g) ((ys).map g)).2 :=
        fun lw2 hc => ih (x :: xs) ys lw2
          (by simp only [List.length_cons] at hlen ⊢; omega)
          (fun u hu v hv => hc u
            (by
              rcases hu with h | h | h
              · exact Or.inl h
              · exact Or.inr (Or.inl h)
              · exact Or.inr (Or.inr (by simp [h])))
            v
            (by
              rcases hv with h | h | h
              · exact Or.inl h
              · exact Or.inr (Or.inl h)
              · exact Or.inr (Or.inr (by simp [h]))))
      cases lw with
      | none =>
        simp only [Option.map_none', List.map_nil, List.map_cons]
        by_cases hle : le1 (f x) (f y) = true
        · have hle2 : le2 (g x) (g y) = true := by rw [← hxy.1]; exact hle
          rw [go_cc_tl le1 none (f x) (f y) (xs.map f) (ys.map f) (by simp) hle,
            go_cc_tl le2 none (g x) (g y) (xs.map g) (ys.map g) (by simp) hle2]
          have hrec := ih xs (y :: ys) (some x)
            (by simp only [List.length_cons] at hlen ⊢; omega)
            (fun u hu v hv => hcorr u
              (by
                rcases hu with h | h | h
                · exact Or.inr (Or.inl (by simp at h; simp [h]))
                · exact Or.inr (Or.inl (by simp [h]))
                · exact Or.inr (Or.inr h))
              v
              (by
                rcases hv with h | h | h
                · exact Or.inr (Or.inl (by simp at h; simp [h]))
                · exact Or.inr (Or.inl (by simp [h]))
                · exact Or.inr (Or.inr h)))
          simp only [Option.map_some', List.map_nil, List.map_cons] at hrec
          simp [hrec]
        · have hle2 : le2 (g x) (g y) = false := by
            rw [← hxy.1]
            rw [Bool.not_eq_true] at hle
            exact hle
          rw [Bool.not_eq_true] at hle
          rw [go_cc_tr le1 none (f x) (f y) (xs.map f) (ys.map f) (by simp) hle,
            go_cc_tr le2 none (g x) (g y) (xs.map g) (ys.map g) (by simp) hle2]
          have hrec := hstep (some y)
            (fun u hu v hv => hcorr u
              (by
                rcases hu with h | h | h
                · exact Or.inr (Or.inr (by simp at h; simp [h]))
                · exact Or.inr (Or.inl h)
                · exact Or.inr (Or.inr (by simp [h])))
              v
              (by
                rcases hv with h | h | h
                · exact Or.inr (Or.inr (by simp at h; simp [h]))
                · exact Or.inr (Or.inl h)
                · exact Or.inr (Or.inr (by simp [h]))))
          simp only [Option.map_some', List.map_nil, List.map_cons] at hrec
          simp [hrec]
      | some w =>
        have hwy := hcorr w (Or.inl (by simp)) y (Or.inr (Or.inr (by simp)))
        simp only [Option.map_some', List.map_nil, List.map_cons]
        by_cases hw : f w = f y
        · have hw2 : g w = g y := hwy.2.mp hw
          rw [go_cc_mr le1 (some (f w)) (f x) (f y) (xs.map f) (ys.map f) (by rw [hw]),
            go_cc_mr le2 (some (g w)) (g x) (g y) (xs.map g) (ys.map g) (by rw [hw2])]
          have hrec := hstep (some w)
            (fun u hu v hv => hcorr u
              (by
                rcases hu with h | h | h
                · exact Or.inl h
                · exact Or.inr (Or.inl h)
                · exact Or.inr (Or.inr h))
              v
              (by
                rcases hv with h | h | h
                · exact Or.inl h
                · exact Or.inr (Or.inl h)
                · exact Or.inr (Or.inr h)))
          simp only [Option.map_some', List.map_nil, List.map_cons] at hrec
          simp [hrec]
        · have hw2 : ¬ g w = g y := fun h => hw (hwy.2.mpr h)
          by_cases hle : le1 (f x) (f y) = true
          · have hle2 : le2 (g x) (g y) = true := by rw [← hxy.1]; exact hle
            rw [go_cc_tl le1 (some (f w)) (f x) (f y) (xs.map f) (ys.map f)
                (by simpa using hw) hle,
              go_cc_tl le2 (some (g w)) (g x) (g y) (xs.map g) (ys.map g)
                (by simpa using hw2) hle2]
            have hrec := ih xs (y :: ys) (some x)
              (by simp only [List.length_cons] at hlen ⊢; omega)
              (fun u hu v hv => hcorr u
                (by
                  rcases hu with h | h | h
                  · exact Or.inr (Or.inl (by simp at h; simp [h]))
                  · exact Or.inr (Or.inl (by simp [h]))
                  · exact Or.inr (Or.inr h))
                v
                (by
                  rcases hv with h | h | h
                  · exact Or.inr (Or.inl (by simp at h; simp [h]))
                  · exact Or.inr (Or.inl (by simp [h]))
                  · exact Or.inr (Or.inr h)))
            simp only [Option.map_some', List.map_nil, List.map_cons] at hrec
            simp [hrec]
          · have hle2 : le2 (g x) (g y) = false := by
              rw [← hxy.1]
              rw [Bool.not_eq_true] at hle
              exact hle
            rw [Bool.not_eq_true] at hle
            rw [go_cc_tr le1 (some (f w)) (f x) (f y) (xs.map f) (ys.map f)
                (by simpa using hw) hle,
              go_cc_tr le2 (some (g w)) (g x) (g y) (xs.map g) (ys.map g)
                (by simpa using hw2) hle2]
            have hrec := hstep (some y)
              (fun u hu v hv => hcorr u
                (by
                  rcases hu with h | h | h
                  · exact Or.inr (Or.inr (by simp at h; simp [h]))
                  · exact Or.inr (Or.inl h)
                  · exact Or.inr (Or.inr (by simp [h])))
                v
                (by
                  rcases hv with h | h | h
                  · exact Or.inr (Or.inr (by simp at h; simp [h]))
                  · exact Or.inr (Or.inl h)
                  · exact Or.inr (Or.inr (by simp [h]))))
            simp only [Option.map_some', List.map_nil, List.map_cons] at hrec
            simp [hrec]

end LocustDB

namespace LocustDB

theorem replayOps_map {γ β : Type} (g : γ → β) :
    ∀ (ops : List MergeOp) (xs ys : List γ),
      replayOps ops (xs.map g) (ys.map g) = (replayOps ops xs ys).map (List.map g) := by
  intro ops
  induction ops with
  | nil =>
    intro xs ys
    cases xs <;> cases ys <;> simp [replayOps]
  | cons op ops ih =>
    intro xs ys
    cases op with
    | takeLeft =>
      cases xs with
      | nil => cases ys <;> simp [replayOps]
      | cons x xs =>
        have h := ih xs ys
        simp only [List.map_nil, List.map_cons] at h
        cases hX : replayOps ops xs ys with
        | none => simp [replayOps, h, hX]
        | some w => simp [replayOps, h, hX]
    | takeRight =>
      cases ys with
      | nil => cases xs <;> simp [replayOps]
      | cons y ys =>
        cases xs with
        | nil =>
          have h := ih [] ys
          simp only [List.map_nil, List.map_cons] at h
          cases hX : replayOps ops [] ys with
          | none => simp [replayOps, h, hX]
          | some w => simp [replayOps, h, hX]
        | cons x xs =>
          have h := ih (x :: xs) ys
          simp only [List.map_nil, List.map_cons] at h
          cases hX : replayOps ops (x :: xs) ys with
          | none => simp [replayOps, h, hX]
          | some w => simp [replayOps, h, hX]
    | mergeRight =>
      cases ys with
      | nil => cases xs <;> simp [replayOps]
      | cons y ys =>
        cases xs with
        | nil =>
          have h := ih [] ys
          simp only [List.map_nil, List.map_cons] at h
          simp [replayOps, h]
        | cons x xs =>
          have h := ih (x :: xs) ys
          simp only [List.map_nil, List.map_cons] at h
          simp [replayOps, h]

theorem replay_merge_drop {γ : Type} :
    ∀ (ops : List MergeOp) (a b out : List γ),
      replayOps ops a b = some out → merge_drop ops a b = some out := by
  intro ops
  induction ops with
  | nil =>
    intro a b out h
    match a, b with
    | [], [] =>
      simp [replayOps] at h
      simp [merge_drop, h]
    | [], y :: b => simp [replayOps] at h
    | x :: a, b => simp [replayOps] at h
  | cons op ops ih =>
    intro a b out h
    cases op with
    | takeLeft =>
      cases a with
      | nil => simp [replayOps] at h
      | cons x a =>
        simp only [replayOps] at h
        cases hr : replayOps ops a b with
        | none =>
          rw [hr] at h
          simp at h
        | some w =>
          rw [hr] at h
          simp only [Option.map_some', Option.some.injEq] at h
          simp [merge_drop, ih a b w hr, h]
    | takeRight =>
      cases b with
      | nil => simp [replayOps] at h
      | cons y b =>
        simp only [replayOps] at h
        cases hr : replayOps ops a b with
        | none =>
          rw [hr] at h
          simp at h
        | some w =>
          rw [hr] at h
          simp only [Option.map_some', Option.some.injEq] at h
          simp [merge_drop, ih a b w hr, h]
    | mergeRight =>
      cases b with
      | nil => simp [replayOps] at h
      | cons y b =>
        simp only [replayOps] at h
        simp [merge_drop, ih a b out h]

theorem mdp_nil_nil {α : Type} [DecidableEq α] (le : α → α → Bool) (last : Option α) :
    mdpGroup le last [] [] = ([], []) := by
  simp [mdpGroup]

theorem mdp_cons_nil {α : Type} [DecidableEq α] (le : α → α → Bool) (last : Option α)
    (x : α) (a : List α) :
    mdpGroup le last (x :: a) []
      = (x :: (mdpGroup le (some x) a []).1, .takeLeft :: (mdpGroup le (some x) a []).2) := by
  simp [mdpGroup]

theorem mdp_mr {α : Type} [DecidableEq α] (le : α → α → Bool) (last : Option α)
    (a : List α) (y : α) (b : List α) (h : last = some y) :
    mdpGroup le last a (y :: b)
      = ((mdpGroup le last a b).1, .mergeRight :: (mdpGroup le last a b).2) := by
  cases a <;> simp [mdpGroup, h]

theorem mdp_ne_nil {α : Type} [DecidableEq α] (le : α → α → Bool) (last : Option α)
    (y : α) (b : List α) (h : last ≠ some y) :
    mdpGroup le last [] (y :: b)
      = (y :: (mdpGroup le (some y) [] b).1, .takeRight :: (mdpGroup le (some y) [] b).2) := by
  simp [mdpGroup, h]

theorem mdp_ne_tl {α : Type} [DecidableEq α] (le : α → α → Bool) (last : Option α)
    (x : α) (a : List α) (y : α) (b : List α) (h1 : last ≠ some y) (h2 : le x y = true) :
    mdpGroup le last (x :: a) (y :: b)
      = (x :: (mdpGroup le (some x) a (y :: b)).1,
          .takeLeft :: (mdpGroup le (some x) a (y :: b)).2) := by
  simp [mdpGroup, h1, h2]

theorem mdp_ne_tr {α : Type} [DecidableEq α] (le : α → α → Bool) (last : Option α)
    (x : α) (a : List α) (y : α) (b : List α) (h1 : last ≠ some y) (h2 : le x y = false) :
    mdpGroup le last (x :: a) (y :: b)
      = (y :: (mdpGroup le (some y) (x :: a) b).1,
          .takeRight :: (mdpGroup le (some y) (x :: a) b).2) := by
  simp [mdpGroup, h1, h2]

theorem mdpGroup_right_nil {α : Type} [DecidableEq α] (le : α → α → Bool) :
    ∀ (a : List α) (last : Option α),
      mdpGroup le last a [] = (a, a.map fun _ => .takeLeft) := by
  intro a
  induction a with
  | nil => intro last; simp [mdp_nil_nil]
  | cons x a ih =>
    intro last
    rw [mdp_cons_nil, ih (some x)]
    simp

theorem mdpGroup_left_nil_strict :
    ∀ (b : List Int) (last : Option Int), List.Pairwise (· < ·) b →
      (∀ y ∈ b, ltOpt last y) →
      mdpGroup intLe last [] b = (b, b.map fun _ => .takeRight) := by
  intro b
  induction b with
  | nil => intro last _ _; simp [mdp_nil_nil]
  | cons y b ih =>
    intro last hp hlt
    have hne : last ≠ some y := by
      intro heq
      have := hlt y (by simp)
      rw [heq] at this
      simp [ltOpt] at this
    rw [mdp_ne_nil intLe last y b hne,
      ih (some y) hp.of_cons
        (by
          intro z hz
          simp only [ltOpt]
          exact (List.pairwise_cons.mp hp).1 z hz)]
    simp

theorem mdpGroup_eq_go :
    ∀ (n : Nat) (a b : List Int) (last : Option Int), a.length + b.length ≤ n →
      List.Pairwise (· < ·) a → List.Pairwise (· < ·) b →
      (∀ x ∈ a, ltOpt last x) → (∀ y ∈ b, leOpt last y) →
      mdpGroup intLe last a b = mergeDedupGo intLe last a b := by
  intro n
  induction n with
  | zero =>
    intro a b last hlen _ _ _ _
    rw [List.length_eq_zero.mp (by omega : a.length = 0),
      List.length_eq_zero.mp (by omega : b.length = 0)]
    rw [mdp_nil_nil, go_right_nil]
    simp
  | succ n ih =>
    intro a b last hlen hA hB hltA hleB
    match a, b with
    | [], [] =>
      rw [mdp_nil_nil, go_right_nil]
      simp
    | x :: a, [] =>
      rw [mdpGroup_right_nil, go_right_nil]
    | a, y :: b =>
      by_cases hm : last = some y
      · rw [mdp_mr intLe last a y b hm]
        cases a with
        | nil =>
          rw [go_left_nil_mr intLe last y b hm]
          rw [mdpGroup_left_nil_strict b last hB.of_cons
            (by
              intro z hz
              rw [hm]
              simp only [ltOpt]
              exact (List.pairwise_cons.mp hB).1 z hz)]
        | cons x a =>
          rw [go_cc_mr intLe last x y a b hm]
          rw [ih (x :: a) b last
            (by simp only [List.length_cons] at hlen ⊢; omega)
            hA hB.of_cons hltA
            (by
              intro z hz
              rw [hm]
              simp only [leOpt]
              exact le_of_lt ((List.pairwise_cons.mp hB).1 z hz))]
      · cases a with
        | nil =>
          rw [mdp_ne_nil intLe last y b hm, go_left_nil_ne intLe last y b hm]
          rw [mdpGroup_left_nil_strict b (some y) hB.of_cons
            (by
              intro z hz
              simp only [ltOpt]
              exact (List.pairwise_cons.mp hB).1 z hz)]
        | cons x a =>
          by_cases hle : intLe x y = true
          · rw [mdp_ne_tl intLe last x a y b hm hle,
              go_cc_tl intLe last x y a b hm hle]
            have hxy : x ≤ y := by simpa [intLe] using hle
            rw [ih a (y :: b) (some x)
              (by simp only [List.length_cons] at hlen ⊢; omega)
              hA.of_cons hB
              (by
                intro z hz
                simp only [ltOpt]
                exact (List.pairwise_cons.mp hA).1 z hz)
              (by
                intro z hz
                simp only [leOpt]
                rcases List.mem_cons.mp hz with h | h
                · omega
                · have := (List.pairwise_cons.mp hB).1 z h
                  omega)]
          · rw [Bool.not_eq_true] at hle
            have hyx : y < x := by
              have : ¬ (x ≤ y) := by simpa [intLe] using hle
              omega
            rw [mdp_ne_tr intLe last x a y b hm hle,
              go_cc_tr intLe last x y a b hm hle]
            rw [ih (x :: a) b (some y)
              (by simp only [List.length_cons] at hlen ⊢; omega)
              hA hB.of_cons
              (by
                intro z hz
                simp only [ltOpt]
                rcases List.mem_cons.mp hz with h | h
                · omega
                · have := (List.pairwise_cons.mp hA).1 z h
                  omega)
              (by
                intro z hz
                simp only [leOpt]
                have := (List.pairwise_cons.mp hB).1 z hz
                omega)]

end LocustDB

namespace LocustDB

theorem chunksBy_flatten_split {γ α : Type} [DecidableEq α] (le : α → α → Bool)
    (f : γ → α) :
    ∀ chunks : List (List γ × List γ),
      List.Pairwise (fun c d => ∀ u, u ∈ c.1 ++ c.2 → ∀ v, v ∈ d.1 ++ d.2 →
        le (f u) (f v) = true ∧ le (f v) (f u) = false) chunks →
      chunksBy le f ((chunks.map Prod.fst).flatten) ((chunks.map Prod.snd).flatten)
        = (chunks.map fun c => chunksBy le f c.1 c.2).flatten := by
  intro chunks
  induction chunks with
  | nil =>
    intro _
    simp [chunksBy_nil_nil]
  | cons c chunks ih =>
    intro hdom
    simp only [List.map_cons, List.flatten_cons]
    rw [chunksBy_split le f (c.1.length + c.2.length) c.1 c.2
      ((chunks.map Prod.fst).flatten) ((chunks.map Prod.snd).flatten) (le_refl _)
      (by
        intro u hu v hv
        have hd : ∃ d ∈ chunks, v ∈ d.1 ++ d.2 := by
          rcases hv with h | h
          · rcases List.mem_flatten.mp h with ⟨l, hl, hvl⟩
            rcases List.mem_map.mp hl with ⟨d, hdm, hld⟩
            exact ⟨d, hdm, List.mem_append.mpr (Or.inl (hld ▸ hvl))⟩
          · rcases List.mem_flatten.mp h with ⟨l, hl, hvl⟩
            rcases List.mem_map.mp hl with ⟨d, hdm, hld⟩
            exact ⟨d, hdm, List.mem_append.mpr (Or.inr (hld ▸ hvl))⟩
        rcases hd with ⟨d, hdmem, hvd⟩
        exact (List.pairwise_cons.mp hdom).1 d hdmem u (List.mem_append.mpr hu) v hvd)]
    rw [ih (List.pairwise_cons.mp hdom).2]

theorem compound_chunks :
    ∀ chunks : List (List (List Int) × List (List Int)),
      List.Pairwise (fun c d => ∀ u, u ∈ c.1 ++ c.2 → ∀ v, v ∈ d.1 ++ d.2 →
        lexLe u v = true ∧ lexLe v u = false) chunks →
      (∀ c ∈ chunks,
        List.Pairwise (fun u v => lexLe u v = true ∧ lexLe v u = false) c.1
        ∧ List.Pairwise (fun u v => lexLe u v = true ∧ lexLe v u = false) c.2) →
      mergeDedupGo lexLe none ((chunks.map Prod.fst).flatten)
          ((chunks.map Prod.snd).flatten)
        = ((chunks.map fun c => (mergeDedupGo lexLe none c.1 c.2).1).flatten,
            (chunks.map fun c => (mergeDedupGo lexLe none c.1 c.2).2).flatten) := by
  intro chunks
  induction chunks with
  | nil =>
    intro _ _
    rw [List.map_nil]
    simp [go_right_nil]
  | cons c chunks ih =>
    intro hdom hstrict
    simp only [List.map_cons, List.flatten_cons]
    rw [mergeDedupGo_split lexLe lexLe_total lexLe_trans
      (c.1.length + c.2.length) c.1 c.2
      ((chunks.map Prod.fst).flatten) ((chunks.map Prod.snd).flatten) none
      (le_refl _)
      (hstrict c (by simp)).1 (hstrict c (by simp)).2
      (by intro u _ l hl; simp at hl)
      (by intro v _ l hl; simp at hl)
      (by intro w _ l hl; simp at hl)
      (by
        intro u hu v hv
        have hd : ∃ d ∈ chunks, v ∈ d.1 ++ d.2 := by
          rcases hv with h | h
          · rcases List.mem_flatten.mp h with ⟨l, hl, hvl⟩
            rcases List.mem_map.mp hl with ⟨d, hdm, hld⟩
            exact ⟨d, hdm, List.mem_append.mpr (Or.inl (hld ▸ hvl))⟩
          · rcases List.mem_flatten.mp h with ⟨l, hl, hvl⟩
            rcases List.mem_map.mp hl with ⟨d, hdm, hld⟩
            exact ⟨d, hdm, List.mem_append.mpr (Or.inr (hld ▸ hvl))⟩
        rcases hd with ⟨d, hdmem, hvd⟩
        exact (List.pairwise_cons.mp hdom).1 d hdmem u (List.mem_append.mpr hu) v hvd)]
    rw [ih (List.pairwise_cons.mp hdom).2 (fun d hd => hstrict d (by simp [hd]))]

theorem dominance_lift (u v : List Int) (s : Nat) (hu : s < u.length)
    (hv : s < v.length) (hlen : (u.take s).length = (v.take s).length)
    (h1 : lexLe (u.take s) (v.take s) = true)
    (h2 : lexLe (v.take s) (u.take s) = false) :
    lexLe (u.take (s + 1)) (v.take (s + 1)) = true
      ∧ lexLe (v.take (s + 1)) (u.take (s + 1)) = false := by
  rw [take_succ_getD u s hu, take_succ_getD v s hv]
  exact lexLe_append_of_lt (u.take s) (v.take s) hlen h1
    (ne_of_dom lexLe h1 h2) [u.getD s 0] [v.getD s 0]

end LocustDB

namespace LocustDB

theorem subpartition_step (k : Nat) (a b : List (List Int)) (s : Nat)
    (hsk : s < k) (hsz : a.length + b.length < 2 ^ 32)
    (hlen_a : ∀ r ∈ a, r.length = k) (hlen_b : ∀ r ∈ b, r.length = k)
    (hsort_a : List.Pairwise (fun u v => lexLe u v = true ∧ u ≠ v) a)
    (hsort_b : List.Pairwise (fun u v => lexLe u v = true ∧ u ≠ v) b) :
    subpartition intLe
      ((chunksBy lexLe (fun r => r.take s) a b).map fun c => ⟨c.1.length, c.2.length⟩)
      (colv s a) (colv s b)
    = (chunksBy lexLe (fun r => r.take (s + 1)) a b).map
        fun c => ⟨c.1.length, c.2.length⟩ := by
  have hsub := chunksBy_sublist lexLe (fun r => r.take s) (a.length + b.length) a b
    (le_refl _)
  have hflat := chunksBy_flatten lexLe (fun r => r.take s) (a.length + b.length) a b
    (le_refl _)
  have hkey := chunksBy_key lexLe (fun r => r.take s) (a.length + b.length) a b
    (le_refl _)
  have hA2 : List.Pairwise (fun u v => lexLe (u.take s) (v.take s) = true) a :=
    hsort_a.imp fun h => lexLe_take_mono _ _ s h.1
  have hB2 : List.Pairwise (fun u v => lexLe (u.take s) (v.take s) = true) b :=
    hsort_b.imp fun h => lexLe_take_mono _ _ s h.1
  have hdom := chunksBy_dominance lexLe (fun r => r.take s) lexLe_refl lexLe_total
    lexLe_antisymm lexLe_trans (a.length + b.length) a b (le_refl _) hA2 hB2
  have hmemlen : ∀ c ∈ chunksBy lexLe (fun r => r.take s) a b,
      ∀ u ∈ c.1 ++ c.2, u.length = k := by
    intro c hc u hu
    rcases List.mem_append.mp hu with h | h
    · exact hlen_a u ((hsub c hc).1.subset h)
    · exact hlen_b u ((hsub c hc).2.subset h)
  have hdom1 : List.Pairwise (fun c d => ∀ u, u ∈ c.1 ++ c.2 → ∀ v, v ∈ d.1 ++ d.2 →
      lexLe (u.take (s + 1)) (v.take (s + 1)) = true
        ∧ lexLe (v.take (s + 1)) (u.take (s + 1)) = false)
      (chunksBy lexLe (fun r => r.take s) a b) := by
    refine hdom.imp_of_mem ?_
    intro c d hc hd hR u hu v hv
    have h0 := hR u hu v hv
    have hul := hmemlen c hc u hu
    have hvl := hmemlen d hd v hv
    exact dominance_lift u v s (by omega) (by omega)
      (by simp only [List.length_take]; omega) h0.1 h0.2
  have step1 : subpartition intLe
      ((chunksBy lexLe (fun r => r.take s) a b).map fun c => ⟨c.1.length, c.2.length⟩)
      (colv s a) (colv s b)
      = ((chunksBy lexLe (fun r => r.take s) a b).map fun c =>
          subGroup intLe (c.1.map fun r => r.getD s 0)
            (c.2.map fun r => r.getD s 0)).flatten := by
    have h := subpartition_chunks intLe (fun r => r.getD s 0)
      (chunksBy lexLe (fun r => r.take s) a b)
    rw [hflat.1, hflat.2] at h
    simpa [colv] using h
  have step2 : ∀ c ∈ chunksBy lexLe (fun r => r.take s) a b,
      subGroup intLe (c.1.map fun r => r.getD s 0) (c.2.map fun r => r.getD s 0)
        = (chunksBy lexLe (fun r => r.take (s + 1)) c.1 c.2).map
            fun c => ⟨c.1.length, c.2.length⟩ := by
    intro c hc
    have hcorr : ∀ u, (u ∈ c.1 ∨ u ∈ c.2) → ∀ v, (v ∈ c.1 ∨ v ∈ c.2) →
        intLe (u.getD s 0) (v.getD s 0) = lexLe (u.take (s + 1)) (v.take (s + 1))
        ∧ ((u.getD s 0 = v.getD s 0) ↔ (u.take (s + 1) = v.take (s + 1))) := by
      intro u hu v hv
      have hu2 : u ∈ c.1 ++ c.2 := List.mem_append.mpr hu
      have hv2 : v ∈ c.1 ++ c.2 := List.mem_append.mpr hv
      have hul : u.length = k := hmemlen c hc u hu2
      have hvl : v.length = k := hmemlen c hc v hv2
      have hus : u.take (s + 1) = u.take s ++ [u.getD s 0] :=
        take_succ_getD u s (by omega)
      have hvs : v.take (s + 1) = v.take s ++ [v.getD s 0] :=
        take_succ_getD v s (by omega)
      have hpe : v.take s = u.take s := hkey c hc v hv2 u hu2
      constructor
      · rw [hus, hvs, hpe, lexLe_append_same, lexLe_singleton]
      · rw [hus, hvs, hpe]
        constructor
        · intro h
          rw [h]
        · intro h
          simpa using h
    rw [subGroup_translate intLe lexLe (fun r => r.getD s 0) (fun r => r.take (s + 1))
        (c.1.length + c.2.length) c.1 c.2 (le_refl _) hcorr,
      chunksBy_lengths lexLe (fun r => r.take (s + 1)) (c.1.length + c.2.length)
        c.1 c.2 (le_refl _)]
    refine List.map_congr_left ?_
    intro d hd
    have hdsub := chunksBy_sublist lexLe (fun r : List Int => r.take (s + 1))
      (c.1.length + c.2.length) c.1 c.2 (le_refl _) d hd
    have hc1 := (hsub c hc).1.length_le
    have hc2 := (hsub c hc).2.length_le
    have hd1 := hdsub.1.length_le
    have hd2 := hdsub.2.length_le
    have e1 : d.1.length % 2 ^ 32 = d.1.length := by omega
    have e2 : d.2.length % 2 ^ 32 = d.2.length := by omega
    rw [e1, e2]
  have step3 : chunksBy lexLe (fun r : List Int => r.take (s + 1)) a b
      = ((chunksBy lexLe (fun r : List Int => r.take s) a b).map
          fun c => chunksBy lexLe (fun r : List Int => r.take (s + 1)) c.1 c.2).flatten := by
    have h := chunksBy_flatten_split lexLe (fun r : List Int => r.take (s + 1)) _ hdom1
    rw [hflat.1, hflat.2] at h
    exact h
  rw [step1, List.map_congr_left step2, step3, List.map_flatten, List.map_map]
  rfl

end LocustDB

namespace LocustDB

theorem subpartition_fold (k : Nat) (a b : List (List Int))
    (hsz : a.length + b.length < 2 ^ 32)
    (hlen_a : ∀ r ∈ a, r.length = k) (hlen_b : ∀ r ∈ b, r.length = k)
    (hsort_a : List.Pairwise (fun u v => lexLe u v = true ∧ u ≠ v) a)
    (hsort_b : List.Pairwise (fun u v => lexLe u v = true ∧ u ≠ v) b) :
    ∀ (m s : Nat), s + m < k →
      (List.range' s m).foldl
        (fun ps i => subpartition intLe ps (colv i a) (colv i b))
        ((chunksBy lexLe (fun r : List Int => r.take s) a b).map
          fun c => ⟨c.1.length, c.2.length⟩)
      = (chunksBy lexLe (fun r : List Int => r.take (s + m)) a b).map
          fun c => ⟨c.1.length, c.2.length⟩ := by
  intro m
  induction m with
  | zero =>
    intro s _
    simp
  | succ m ih =>
    intro s hsm
    rw [List.range'_succ]
    simp only [List.foldl_cons]
    rw [subpartition_step k a b s (by omega) hsz hlen_a hlen_b hsort_a hsort_b]
    rw [ih (s + 1) (by omega), (by omega : s + 1 + m = s + (m + 1))]

theorem partition_level1 (k : Nat) (a b : List (List Int)) (hk : 1 ≤ k)
    (hlen_a : ∀ r ∈ a, r.length = k) (hlen_b : ∀ r ∈ b, r.length = k)
    (hsz : a.length + b.length < 2 ^ 32) :
    partition intLe (colv 0 a) (colv 0 b) (2 ^ 64 - 1)
      = (chunksBy lexLe (fun r : List Int => r.take 1) a b).map
          fun c => ⟨c.1.length, c.2.length⟩ := by
  have hlen2 : (colv 0 a).length + (colv 0 b).length ≤ 2 ^ 64 - 1 := by
    have : a.length + b.length ≤ 2 ^ 64 - 1 := by omega
    simpa [colv] using this
  rw [partition_eq_subGroup intLe (colv 0 a) (colv 0 b) (2 ^ 64 - 1) hlen2]
  have hcorr : ∀ u, (u ∈ a ∨ u ∈ b) → ∀ v, (v ∈ a ∨ v ∈ b) →
      intLe (u.getD 0 0) (v.getD 0 0) = lexLe (u.take 1) (v.take 1)
      ∧ ((u.getD 0 0 = v.getD 0 0) ↔ (u.take 1 = v.take 1)) := by
    intro u hu v hv
    have hul : u.length = k := by
      rcases hu with h | h
      · exact hlen_a u h
      · exact hlen_b u h
    have hvl : v.length = k := by
      rcases hv with h | h
      · exact hlen_a v h
      · exact hlen_b v h
    have hus : u.take 1 = [u.getD 0 0] := by
      have := take_succ_getD u 0 (by omega)
      simpa using this
    have hvs : v.take 1 = [v.getD 0 0] := by
      have := take_succ_getD v 0 (by omega)
      simpa using this
    rw [hus, hvs, lexLe_singleton]
    refine ⟨rfl, ?_⟩
    constructor
    · intro h
      rw [h]
    · intro h
      simpa using h
  show subGroup intLe (colv 0 a) (colv 0 b) = _
  simp only [colv]
  rw [subGroup_translate intLe lexLe (fun r => r.getD 0 0)
      (fun r : List Int => r.take 1) (a.length + b.length) a b (le_refl _) hcorr,
    chunksBy_lengths lexLe (fun r : List Int => r.take 1) (a.length + b.length)
      a b (le_refl _)]
  refine List.map_congr_left ?_
  intro d hd
  have hdsub := chunksBy_sublist lexLe (fun r : List Int => r.take 1)
    (a.length + b.length) a b (le_refl _) d hd
  have hd1 := hdsub.1.length_le
  have hd2 := hdsub.2.length_le
  have e1 : d.1.length % 2 ^ 32 = d.1.length := by omega
  have e2 : d.2.length % 2 ^ 32 = d.2.length := by omega
  rw [e1, e2]

theorem chunk_ops_out (k : Nat) (hk : 1 ≤ k) (A B : List (List Int))
    (hlenA : ∀ r ∈ A, r.length = k) (hlenB : ∀ r ∈ B, r.length = k)
    (hkey : ∀ u, (u ∈ A ∨ u ∈ B) → ∀ v, (v ∈ A ∨ v ∈ B) →
      u.take (k - 1) = v.take (k - 1))
    (hsA : List.Pairwise (fun u v => lexLe u v = true ∧ u ≠ v) A)
    (hsB : List.Pairwise (fun u v => lexLe u v = true ∧ u ≠ v) B) :
    (mdpGroup intLe none (A.map fun r => r.getD (k - 1) 0)
        (B.map fun r => r.getD (k - 1) 0)).2
      = (mergeDedupGo lexLe none A B).2
    ∧ (mdpGroup intLe none (A.map fun r => r.getD (k - 1) 0)
        (B.map fun r => r.getD (k - 1) 0)).1
      = (mergeDedupGo lexLe none A B).1.map fun r => r.getD (k - 1) 0 := by
  have hrc : ∀ u, (u ∈ A ∨ u ∈ B) → u = u.take (k - 1) ++ [u.getD (k - 1) 0] := by
    intro u hu
    rcases hu with h | h
    · exact row_reconstruct u k (by omega) (hlenA u h)
    · exact row_reconstruct u k (by omega) (hlenB u h)
  have hcorr : ∀ u, (u ∈ A ∨ u ∈ B) → ∀ v, (v ∈ A ∨ v ∈ B) →
      lexLe u v = intLe (u.getD (k - 1) 0) (v.getD (k - 1) 0)
      ∧ ((u = v) ↔ (u.getD (k - 1) 0 = v.getD (k - 1) 0)) := by
    intro u hu v hv
    have hpe : v.take (k - 1) = u.take (k - 1) := hkey v hv u hu
    constructor
    · conv_lhs => rw [hrc u hu, hrc v hv, hpe, lexLe_append_same, lexLe_singleton]
    · constructor
      · intro h
        rw [h]
      · intro h
        rw [hrc u hu, hrc v hv, hpe, h]
  have hgA : List.Pairwise (· < ·) (A.map fun r => r.getD (k - 1) 0) := by
    rw [List.pairwise_map]
    refine hsA.imp_of_mem ?_
    intro u v hu hv h
    have hcv := hcorr u (Or.inl hu) v (Or.inl hv)
    have hle : intLe (u.getD (k - 1) 0) (v.getD (k - 1) 0) = true := by
      rw [← hcv.1]
      exact h.1
    have hne : u.getD (k - 1) 0 ≠ v.getD (k - 1) 0 := fun he => h.2 (hcv.2.mpr he)
    simp only [intLe, decide_eq_true_eq] at hle
    omega
  have hgB : List.Pairwise (· < ·) (B.map fun r => r.getD (k - 1) 0) := by
    rw [List.pairwise_map]
    refine hsB.imp_of_mem ?_
    intro u v hu hv h
    have hcv := hcorr u (Or.inr hu) v (Or.inr hv)
    have hle : intLe (u.getD (k - 1) 0) (v.getD (k - 1) 0) = true := by
      rw [← hcv.1]
      exact h.1
    have hne : u.getD (k - 1) 0 ≠ v.getD (k - 1) 0 := fun he => h.2 (hcv.2.mpr he)
    simp only [intLe, decide_eq_true_eq] at hle
    omega
  have hops := mergeDedupGo_translate lexLe intLe (id : List Int → List Int)
    (fun r => r.getD (k - 1) 0) (A.length + B.length) A B none (le_refl _)
    (by
      intro u hu v hv
      have hu2 : u ∈ A ∨ u ∈ B := by
        rcases hu with h | h | h
        · simp at h
        · exact Or.inl h
        · exact Or.inr h
      have hv2 : v ∈ A ∨ v ∈ B := by
        rcases hv with h | h | h
        · simp at h
        · exact Or.inl h
        · exact Or.inr h
      exact hcorr u hu2 v hv2)
  simp only [Option.map_none', List.map_id] at hops
  have hmdp := mdpGroup_eq_go
    ((A.map fun r => r.getD (k - 1) 0).length + (B.map fun r => r.getD (k - 1) 0).length)
    (A.map fun r => r.getD (k - 1) 0) (B.map fun r => r.getD (k - 1) 0) none
    (le_refl _) hgA hgB (fun x _ => trivial) (fun y _ => trivial)
  constructor
  · rw [hmdp]
    exact hops.symm
  · rw [hmdp]
    have h1 := mergeDedupGo_replay intLe none
      (A.map fun r => r.getD (k - 1) 0) (B.map fun r => r.getD (k - 1) 0)
    rw [← hops] at h1
    rw [@replayOps_map (List Int) Int (fun r => r.getD (k - 1) 0)] at h1
    rw [mergeDedupGo_replay lexLe none A B] at h1
    simp only [Option.map_some', Option.some.injEq] at h1
    exact h1.symm

end LocustDB

namespace LocustDB

/-- C2: for `k ≥ 2` sorted group-by columns whose rows are strictly
lexicographically increasing on each side (the shape produced by the group-by
pipeline) and number fewer than `2 ^ 32` in total (so the `u32` `Premerge`
counts cannot wrap), the composition `partition` on column 0 (limit
`usize::MAX`), `subpartition` on columns `1..k-1` and
`merge_deduplicate_partitioned` on column `k-1` (`batch_merging.rs:82-107`)
emits the same `MergeOp` stream as single-column `merge_deduplicate` on the
lexicographically compounded key, and its merged grouping column is the last
column of the compound-key output. -/
theorem c2_partitioned_equals_compound (k : Nat) (a b : List (List Int))
    (hk : 2 ≤ k)
    (hlen_a : ∀ r ∈ a, r.length = k) (hlen_b : ∀ r ∈ b, r.length = k)
    (hsort_a : List.Pairwise (fun u v => lexLe u v = true ∧ u ≠ v) a)
    (hsort_b : List.Pairwise (fun u v => lexLe u v = true ∧ u ≠ v) b)
    (hlim : a.length + b.length < 2 ^ 32) :
    (groupByComposition k a b).2 = (merge_deduplicate lexLe a b).2
    ∧ (groupByComposition k a b).1
        = (merge_deduplicate lexLe a b).1.map fun r => r.getD (k - 1) 0 := by
  have hps : (List.range' 1 (k - 2)).foldl
      (fun ps i => subpartition intLe ps (colv i a) (colv i b))
      (partition intLe (colv 0 a) (colv 0 b) (2 ^ 64 - 1))
    = (chunksBy lexLe (fun r : List Int => r.take (k - 1)) a b).map
        fun c => ⟨c.1.length, c.2.length⟩ := by
    rw [partition_level1 k a b (by omega) hlen_a hlen_b hlim]
    rw [subpartition_fold k a b hlim hlen_a hlen_b hsort_a hsort_b (k - 2) 1 (by omega),
      (by omega : 1 + (k - 2) = k - 1)]
  have hsub := chunksBy_sublist lexLe (fun r : List Int => r.take (k - 1))
    (a.length + b.length) a b (le_refl _)
  have hflat := chunksBy_flatten lexLe (fun r : List Int => r.take (k - 1))
    (a.length + b.length) a b (le_refl _)
  have hkeyc := chunksBy_key lexLe (fun r : List Int => r.take (k - 1))
    (a.length + b.length) a b (le_refl _)
  have hmemlen : ∀ c ∈ chunksBy lexLe (fun r : List Int => r.take (k - 1)) a b,
      ∀ u ∈ c.1 ++ c.2, u.length = k := by
    intro c hc u hu
    rcases List.mem_append.mp hu with h | h
    · exact hlen_a u ((hsub c hc).1.subset h)
    · exact hlen_b u ((hsub c hc).2.subset h)
  have hA2 : List.Pairwise (fun u v => lexLe (u.take (k - 1)) (v.take (k - 1)) = true) a :=
    hsort_a.imp fun h => lexLe_take_mono _ _ (k - 1) h.1
  have hB2 : List.Pairwise (fun u v => lexLe (u.take (k - 1)) (v.take (k - 1)) = true) b :=
    hsort_b.imp fun h => lexLe_take_mono _ _ (k - 1) h.1
  have hdom := chunksBy_dominance lexLe (fun r : List Int => r.take (k - 1))
    lexLe_refl lexLe_total lexLe_antisymm lexLe_trans (a.length + b.length) a b
    (le_refl _) hA2 hB2
  have hdomfull : List.Pairwise (fun c d => ∀ u, u ∈ c.1 ++ c.2 → ∀ v, v ∈ d.1 ++ d.2 →
      lexLe u v = true ∧ lexLe v u = false)
      (chunksBy lexLe (fun r : List Int => r.take (k - 1)) a b) := by
    refine hdom.imp_of_mem ?_
    intro c d hc hd hR u hu v hv
    have h0 := hR u hu v hv
    have hul : u.length = k := hmemlen c hc u hu
    have hvl : v.length = k := hmemlen d hd v hv
    have hlift := dominance_lift u v (k - 1) (by omega) (by omega)
      (by simp only [List.length_take]; omega) h0.1 h0.2
    rw [(by omega : k - 1 + 1 = k)] at hlift
    have hu3 : u.take k = u := by
      rw [← hul]
      exact List.take_length u
    have hv3 : v.take k = v := by
      rw [← hvl]
      exact List.take_length v
    rw [hu3, hv3] at hlift
    exact hlift
  have hchunk : ∀ c ∈ chunksBy lexLe (fun r : List Int => r.take (k - 1)) a b,
      (mdpGroup intLe none (c.1.map fun r => r.getD (k - 1) 0)
          (c.2.map fun r => r.getD (k - 1) 0)).2
        = (mergeDedupGo lexLe none c.1 c.2).2
      ∧ (mdpGroup intLe none (c.1.map fun r => r.getD (k - 1) 0)
          (c.2.map fun r => r.getD (k - 1) 0)).1
        = (mergeDedupGo lexLe none c.1 c.2).1.map fun r => r.getD (k - 1) 0 := by
    intro c hc
    refine chunk_ops_out k (by omega) c.1 c.2
      (fun r hr => hmemlen c hc r (List.mem_append.mpr (Or.inl hr)))
      (fun r hr => hmemlen c hc r (List.mem_append.mpr (Or.inr hr)))
      (fun u hu v hv => hkeyc c hc u (List.mem_append.mpr hu) v (List.mem_append.mpr hv))
      (hsort_a.sublist (hsub c hc).1) (hsort_b.sublist (hsub c hc).2)
  have hcomp : groupByComposition k a b
      = (((chunksBy lexLe (fun r : List Int => r.take (k - 1)) a b).map
            fun c => (mergeDedupGo lexLe none c.1 c.2).1.map
              fun r => r.getD (k - 1) 0).flatten,
          ((chunksBy lexLe (fun r : List Int => r.take (k - 1)) a b).map
            fun c => (mergeDedupGo lexLe none c.1 c.2).2).flatten) := by
    rw [groupByComposition, hps]
    have hm := mdp_flatten intLe (fun r : List Int => r.getD (k - 1) 0)
      (chunksBy lexLe (fun r : List Int => r.take (k - 1)) a b)
    rw [hflat.1, hflat.2] at hm
    simp only [colv]
    rw [hm]
    refine congrArg₂ Prod.mk ?_ ?_
    · exact congrArg List.flatten (List.map_congr_left fun c hc => (hchunk c hc).2)
    · exact congrArg List.flatten (List.map_congr_left fun c hc => (hchunk c hc).1)
  have hstrict2 : ∀ c ∈ chunksBy lexLe (fun r : List Int => r.take (k - 1)) a b,
      List.Pairwise (fun u v => lexLe u v = true ∧ lexLe v u = false) c.1
      ∧ List.Pairwise (fun u v => lexLe u v = true ∧ lexLe v u = false) c.2 := by
    intro c hc
    have hconv : ∀ u v : List Int, lexLe u v = true ∧ u ≠ v →
        lexLe u v = true ∧ lexLe v u = false := by
      intro u v h
      refine ⟨h.1, ?_⟩
      by_cases hvu : lexLe v u = true
      · exact absurd (lexLe_antisymm _ _ h.1 hvu) h.2
      · rwa [Bool.not_eq_true] at hvu
    exact ⟨((hsort_a.sublist (hsub c hc).1).imp fun h => hconv _ _ h),
      ((hsort_b.sublist (hsub c hc).2).imp fun h => hconv _ _ h)⟩
  have hcomp2 : merge_deduplicate lexLe a b
      = (((chunksBy lexLe (fun r : List Int => r.take (k - 1)) a b).map
            fun c => (mergeDedupGo lexLe none c.1 c.2).1).flatten,
          ((chunksBy lexLe (fun r : List Int => r.take (k - 1)) a b).map
            fun c => (mergeDedupGo lexLe none c.1 c.2).2).flatten) := by
    rw [merge_deduplicate]
    have h := compound_chunks
      (chunksBy lexLe (fun r : List Int => r.take (k - 1)) a b) hdomfull hstrict2
    rw [hflat.1, hflat.2] at h
    exact h
  rw [hcomp, hcomp2]
  constructor
  · rfl
  · rw [List.map_flatten, List.map_map]
    rfl

end LocustDB

namespace LocustDB

/-- Counterexample to C2 as stated: with merely sorted (not duplicate-free)
inputs, `k = 2`, left rows `[[1,1]]` and right rows `[[1,1],[1,1]]`, the
composition emits `[TakeLeft, MergeRight, MergeRight]` (the partitioned merge
re-checks `last == right[j]` at every step) while the compound-key
`merge_deduplicate` emits `[TakeLeft, MergeRight, TakeRight]` (its right-tail
loop checks `result.last()` only once, `batch_merging.rs:247-252`), so the two
`MergeOp` streams differ. -/
theorem c2_claim_counterexample :
    (List.Pairwise (fun u v : List Int => lexLe u v = true) [[(1 : Int), 1]]
      ∧ List.Pairwise (fun u v : List Int => lexLe u v = true)
          [[(1 : Int), 1], [1, 1]]
      ∧ (∀ r ∈ [[(1 : Int), 1]], r.length = 2)
      ∧ (∀ r ∈ [[(1 : Int), 1], [1, 1]], r.length = 2))
    ∧ (groupByComposition 2 [[(1 : Int), 1]] [[(1 : Int), 1], [1, 1]]).2
        ≠ (merge_deduplicate lexLe [[(1 : Int), 1]] [[(1 : Int), 1], [1, 1]]).2 := by
  constructor
  · refine ⟨by simp, by simp [lexLe], by simp, by simp⟩
  · have h1 : (groupByComposition 2 [[(1 : Int), 1]] [[(1 : Int), 1], [1, 1]]).2
        = [.takeLeft, .mergeRight, .mergeRight] := by
      simp [groupByComposition, colv, partition, partPhase1, partPhase2, partPhase3,
        countRun, pickElem, intLe, merge_deduplicate_partitioned, mdpGroup]
    have h2 : (merge_deduplicate lexLe [[(1 : Int), 1]] [[(1 : Int), 1], [1, 1]]).2
        = [.takeLeft, .mergeRight, .takeRight] := by
      simp [merge_deduplicate, mergeDedupGo, lexLe]
    rw [h1, h2]
    simp

theorem c2_partitioned_equals_compound_witness :
    (groupByComposition 2 [[(1 : Int), 2]] [[(1 : Int), 3]]).2
        = (merge_deduplicate lexLe [[(1 : Int), 2]] [[(1 : Int), 3]]).2
    ∧ (groupByComposition 2 [[(1 : Int), 2]] [[(1 : Int), 3]]).1
        = (merge_deduplicate lexLe [[(1 : Int), 2]] [[(1 : Int), 3]]).1.map
            fun r => r.getD 1 0 :=
  c2_partitioned_equals_compound 2 [[(1 : Int), 2]] [[(1 : Int), 3]]
    (by decide) (by simp) (by simp) (by simp) (by simp) (by decide)

end LocustDB
